import Mathlib

/-! # Acid engine: the YAML codec (`Sources/Serialized/Yaml/Yaml.cpp`)

A shallow embedding of `Yaml::Load`, `Yaml::Convert`, `Yaml::Write` and
`Yaml::AppendData`, and theorems about them.

* `std::string` is `List Char` (`Str`).
* `uint32_t` counters are natural numbers reduced modulo `2 ^ 32`.
* The `Section` tree under construction together with the pointer
  `currentSection` is a zipper: the open Section, then its chain of `m_parent`s.
* `std::ostream` is a buffer with a put position and a fail bit.
* Undefined behaviour (`back()` or `[0]` on an empty vector) is the result `none`.
-/

namespace acid

/-- A `std::string`. -/
abbrev Str := List Char

/-- The modulus of `uint32_t` arithmetic. -/
def U32 : Nat := 2 ^ 32

/-- Subtraction of two `uint32_t` values (both below `2 ^ 32`), wrapping around. -/
def sub32 (a b : Nat) : Nat := (a + U32 - b) % U32

/-! ## Helpers/String.hpp -/

/-- Modelled from the spec: the whitespace removed by `String::Trim` (Helpers/String.hpp is
not among the sources); the spec only says "trimmed", the characters are space, tab, line feed
and carriage return. -/
def String.isWhitespace (c : Char) : Bool :=
  c == ' ' || c == '\t' || c == '\n' || c == '\r'

/-- Modelled from the spec: `String::Trim` (Helpers/String.hpp is not among the sources)
removes the leading and the trailing whitespace of a string. -/
def String.Trim (s : Str) : Str :=
  ((s.dropWhile String.isWhitespace).reverse.dropWhile String.isWhitespace).reverse

/-- Modelled from the spec: `String::StartsWith` (Helpers/String.hpp is not among the
sources): `token` is an initial segment of `s` ("name begins with an underscore"). -/
def String.StartsWith : Str → Str → Bool
  | _, [] => true
  | [], _ :: _ => false
  | c :: cs, t :: ts => c == t && String.StartsWith cs ts

/-- Modelled from the spec: `String::ReplaceFirst` (Helpers/String.hpp is not among the
sources) replaces the first occurrence of `token` in `s` by `dest`, and leaves `s` as it is when
`token` does not occur. -/
def String.ReplaceFirst : Str → Str → Str → Str
  | [], token, dest => if token.isEmpty then dest else []
  | c :: cs, token, dest =>
    if String.StartsWith (c :: cs) token then dest ++ (c :: cs).drop token.length
    else c :: String.ReplaceFirst cs token dest

/-! ## Files/Files.hpp -/

/-- Modelled from the spec: the lines that the loop `while (inStream->peek() != -1)
Files::SafeGetLine(*inStream, linebuf)` reads (Files/Files.hpp is not among the sources): the
stream is read "line by line", a line ends at a line feed or at the end of the stream, and the
loop stops when nothing is left. `cur` is the line read so far, in reverse. -/
def readLinesAux : Str → Str → List Str
  | cur, [] => if cur.isEmpty then [] else [cur.reverse]
  | cur, c :: cs => if c = '\n' then cur.reverse :: readLinesAux [] cs else readLinesAux (c :: cur) cs

/-- Modelled from the spec: the lines of an input stream, see `readLinesAux`. -/
def readLines (input : Str) : List Str := readLinesAux [] input

/-! ## Serialized/Metadata.hpp -/

/-- Modelled from the spec: a Document Tree node (`Metadata`, Serialized/Metadata.hpp is not
among the sources): name, value, ordered owned children, ordered attributes. -/
inductive Metadata where
  | mk (name value : Str) (children : List Metadata) (attributes : List (Str × Str)) : Metadata

namespace Metadata

/-- The accessor `GetName`. -/
def GetName : Metadata → Str
  | mk n _ _ _ => n

/-- The accessor `GetValue`. -/
def GetValue : Metadata → Str
  | mk _ v _ _ => v

/-- The accessor `GetChildren`. -/
def GetChildren : Metadata → List Metadata
  | mk _ _ c _ => c

/-- The accessor `GetAttributes`. -/
def GetAttributes : Metadata → List (Str × Str)
  | mk _ _ _ a => a

/-- Modelled from the spec: `AddChild` appends a child ("add child (appends ...)"). -/
def AddChild : Metadata → Metadata → Metadata
  | mk n v c a, child => mk n v (c ++ [child]) a

/-- Modelled from the spec: insert-or-overwrite on an ordered mapping that "preserves
first-seen order for new keys". -/
def setAttribute (k v : Str) : List (Str × Str) → List (Str × Str)
  | [] => [(k, v)]
  | (k0, v0) :: rest => if k0 = k then (k, v) :: rest else (k0, v0) :: setAttribute k v rest

/-- Modelled from the spec: `AddAttribute` ("add/set attribute (insert-or-overwrite ...)"). -/
def AddAttribute : Metadata → Str → Str → Metadata
  | mk n w c a, k, v => mk n w c (setAttribute k v a)

/-- Modelled from the spec: `ClearChildren`. -/
def ClearChildren : Metadata → Metadata
  | mk n v _ a => mk n v [] a

/-- Modelled from the spec: `ClearAttributes`. -/
def ClearAttributes : Metadata → Metadata
  | mk n v c _ => mk n v c []

end Metadata

/-! ## Yaml.hpp: `Section` -/

/-- Modelled from the spec: a Line-Hierarchy Node (`Yaml::Section`, Yaml.hpp is not among the
sources): content, indentation and owned ordered children. The back-reference `m_parent` is
held by `LoadState`. -/
inductive Section where
  | mk (content : Str) (indentation : Nat) (children : List Section) : Section

namespace Section

/-- The field `m_content`. -/
def content : Section → Str
  | mk c _ _ => c

/-- The field `m_indentation`. -/
def indentation : Section → Nat
  | mk _ i _ => i

/-- The field `m_children`. -/
def children : Section → List Section
  | mk _ _ cs => cs

end Section

/-- A Section that lies on the path from `topSection` to `currentSection`, with the children
appended to it so far. The child through which the path continues is not listed: it is the
next Section of the path and is always the last child, because `currentSection` only ever
moves to `m_parent`, to `m_children.back()`, or to a Section that was just appended. -/
structure Frame where
  content : Str
  indentation : Nat
  children : List Section

/-- The Section that a frame stands for, once no path runs through it any more. -/
def Frame.toSection (f : Frame) : Section := Section.mk f.content f.indentation f.children

/-- The frame that opens an existing Section. -/
def Frame.ofSection : Section → Frame
  | Section.mk c i cs => ⟨c, i, cs⟩

/-- The local state of `Yaml::Load`: `currentSection`, its chain of `m_parent`s (nearest
first, empty when `currentSection` is `topSection`) and `lastIndentation`. -/
structure LoadState where
  current : Frame
  parents : List Frame
  lastIndentation : Nat

/-- `auto topSection = std::make_unique<Section>(nullptr, "", 0); currentSection =
topSection.get(); lastIndentation = 0;` -/
def LoadState.init : LoadState := ⟨⟨[], 0, []⟩, [], 0⟩

/-- `if (currentSection->m_parent != nullptr) currentSection = currentSection->m_parent;` -/
def LoadState.toParent (s : LoadState) : LoadState :=
  match s.parents with
  | [] => s
  | p :: rest =>
    { s with current := { p with children := p.children ++ [s.current.toSection] }, parents := rest }

/-- The loop `for (i = 0; i < n; i++) if (m_parent != nullptr) currentSection = m_parent;`. -/
def LoadState.ascend : Nat → LoadState → LoadState
  | 0, s => s
  | n + 1, s => LoadState.ascend n s.toParent

/-- The loop that inserts filler Sections, `n` iterations being left and `i` the loop counter:
`section = new Section(currentSection, "", lastIndentation + (i * 2));
currentSection->m_children.emplace_back(section); currentSection = section;`. -/
def LoadState.addFillers : Nat → Nat → LoadState → LoadState
  | 0, _, s => s
  | n + 1, i, s =>
    LoadState.addFillers n ((i + 1) % U32)
      { s with current := ⟨[], (s.lastIndentation + i * 2) % U32, []⟩,
               parents := s.current :: s.parents }

/-- `currentSection = currentSection->m_children.back().get();`, undefined when
`m_children` is empty. -/
def LoadState.descend (s : LoadState) : Option LoadState :=
  match s.current.children.getLast? with
  | none => none
  | some c =>
    some { s with current := Frame.ofSection c,
                  parents := { s.current with children := s.current.children.dropLast } :: s.parents }

/-- `currentSection->m_children.emplace_back(section);` -/
def LoadState.append (s : LoadState) (sec : Section) : LoadState :=
  { s with current := { s.current with children := s.current.children ++ [sec] } }

/-- The scan `for (const auto &c : linebuf)` of `Yaml::Load`: the `uint32_t` indentation
reached and the flag `comment`. -/
def scanLine : Str → Nat → Nat × Bool
  | [], n => (n, false)
  | c :: cs, n =>
    if c = ' ' then scanLine cs ((n + 1) % U32)
    else if c = '-' then ((n + 2) % U32, false)
    else if c = '#' then (n, true)
    else (n, false)

/-- The moves of `currentSection` for a line of the given indentation (lines 74 to 97 of
Yaml.cpp). -/
def LoadState.adjust (indentation : Nat) (s : LoadState) : Option LoadState :=
  let s1 :=
    if indentation < s.lastIndentation then
      s.ascend (sub32 s.lastIndentation indentation / 2)
    else if indentation > s.lastIndentation then
      s.addFillers (sub32 (sub32 indentation s.lastIndentation / 2) 1) 0
    else s
  if sub32 indentation s.lastIndentation = 2 then s1.descend else some s1

/-- One iteration of the `while` loop of `Yaml::Load` on the line `linebuf`. -/
def LoadState.step (s : LoadState) (linebuf : Str) : Option LoadState :=
  if linebuf = ['-', '-', '-'] then some s
  else
    let scan := scanLine linebuf 0
    if scan.2 then some s
    else
      (s.adjust scan.1).map fun s2 =>
        { s2.append (Section.mk (String.Trim linebuf) scan.1 []) with lastIndentation := scan.1 }

/-- The `while` loop of `Yaml::Load` over the lines of the stream. -/
def LoadState.run : List Str → LoadState → Option LoadState
  | [], s => some s
  | l :: ls, s => (s.step l).bind (LoadState.run ls)

/-- The Section tree rooted at `topSection` that a state of `Yaml::Load` holds. -/
def LoadState.top : List Frame → Frame → Section
  | [], cur => cur.toSection
  | p :: rest, cur => LoadState.top rest { p with children := p.children ++ [cur.toSection] }

mutual
/-- `Yaml::Convert(source, parent, isTopSection)`; the result is `parent` after the call. -/
def Convert : Section → Metadata → Bool → Metadata
  | Section.mk content _ children, parent, isTopSection =>
    let name := String.Trim (content.takeWhile (fun c => c != ':'))
    let value := String.Trim (String.ReplaceFirst content name [])
    let value := String.Trim (value.drop 1)
    if String.StartsWith name ['_'] then parent.AddAttribute (name.drop 1) value
    else if isTopSection then ConvertChildren children parent
    else parent.AddChild (ConvertChildren children (Metadata.mk name value [] []))
/-- The loop `for (const auto &child : source->m_children) Convert(child.get(), thisValue,
false);`; the result is `thisValue` after the loop. -/
def ConvertChildren : List Section → Metadata → Metadata
  | [], thisValue => thisValue
  | c :: cs, thisValue => ConvertChildren cs (Convert c thisValue false)
end

/-- `Yaml::Load` on the lines of the stream; `self` is the receiving tree. -/
def LoadLines (self : Metadata) (lines : List Str) : Option Metadata :=
  (LoadState.init.run lines).map fun s =>
    Convert (LoadState.top s.parents s.current) self.ClearChildren.ClearAttributes true

/-- `Yaml::Load(std::istream *inStream)`; `self` is the receiving tree, the result is the tree
after the call, `none` when the call runs into undefined behaviour. -/
def Load (self : Metadata) (inStream : Str) : Option Metadata :=
  LoadLines self (readLines inStream)

/-! ## Writing -/

/-- A seekable `std::ostream`: the characters written, the put position and the fail bit. -/
structure OStream where
  buf : Str
  pos : Nat
  fail : Bool

/-- `*outStream << s`: overwrites at the put position and extends the buffer; nothing is
written once the fail bit is set. -/
def OStream.write (o : OStream) (s : Str) : OStream :=
  if o.fail then o
  else ⟨o.buf.take o.pos ++ s ++ o.buf.drop (o.pos + s.length), o.pos + s.length, false⟩

/-- `outStream->seekp(-2, std::stringstream::cur)`: sets the fail bit when the target lies
before the start of the stream. -/
def OStream.seekBack2 (o : OStream) : OStream :=
  if o.fail then o
  else if o.pos < 2 then { o with fail := true }
  else { o with pos := o.pos - 2 }

/-- The text of `indents` after the loop `for (i = 0; i < indentation; i++) indents << "  "`. -/
def indents : Nat → Str
  | 0 => []
  | n + 1 => indents n ++ [' ', ' ']

/-- The loop `for (const auto &attribute : source->GetAttributes())` of `AppendData`. -/
def writeAttributes (ind : Str) : List (Str × Str) → OStream → OStream
  | [], out => out
  | (k, v) :: rest, out =>
    writeAttributes ind rest (out.write (ind ++ [' ', ' ', '_'] ++ (k ++ [':', ' ']) ++ v ++ ['\n']))

/-- The lines 188 to 202 of `AppendData`: the line of the node itself. -/
def writeOwnLine (name value : Str) (out : OStream) : OStream :=
  if !name.isEmpty then
    if value.isEmpty then out.write (name ++ [':', ' ', '\n'])
    else out.write (name ++ [':', ' '] ++ value ++ ['\n'])
  else if !value.isEmpty then out.write (value ++ ['\n'])
  else out

mutual
/-- `Yaml::AppendData(source, parent, outStream, indentation)`. `index` is the position of
`source` among the children of `parent`, so that the pointer comparison
`parent->GetChildren()[0].get() == source` is `index == 0`. The result is `none` when
`parent->GetChildren()[0]` is read from an empty vector. -/
def AppendData : Metadata → Option Metadata → Nat → OStream → Nat → Option OStream
  | Metadata.mk name value children attributes, parent, index, outStream, indentation =>
    let prefixed : Option OStream :=
      match parent with
      | none => some outStream
      | some p =>
        match p.GetChildren.head? with
        | none => none
        | some first =>
          let o1 :=
            if !(index == 0 && p.GetName.isEmpty && p.GetValue.isEmpty) then
              outStream.write (indents indentation)
            else outStream
          let o2 :=
            if p.GetValue.isEmpty && first.GetName.isEmpty then
              (o1.seekBack2).write ['-', ' ']
            else o1
          some o2
    match prefixed with
    | none => none
    | some o2 =>
      let o3 := writeOwnLine name value o2
      let o4 := writeAttributes (indents indentation) attributes o3
      AppendChildren children (Metadata.mk name value children attributes) 0 o4
        (indentation + if name.isEmpty then 0 else 1)
/-- The loop `for (const auto &child : source->GetChildren()) AppendData(child.get(), source,
outStream, ...)`, from the child of position `index` on. -/
def AppendChildren : List Metadata → Metadata → Nat → OStream → Nat → Option OStream
  | [], _, _, outStream, _ => some outStream
  | c :: cs, source, index, outStream, indentation =>
    match AppendData c (some source) index outStream indentation with
    | none => none
    | some o => AppendChildren cs source (index + 1) o indentation
end

/-- `Yaml::Write(std::ostream *outStream)`. -/
def Write (self : Metadata) (outStream : OStream) : Option OStream :=
  AppendData self none 0 (outStream.write ['-', '-', '-', '\n']) 0

/-- The text that `Yaml::Write` leaves in a stream that was empty. -/
def WriteText (self : Metadata) : Option Str :=
  (Write self ⟨[], 0, false⟩).map fun o => o.buf

/-! ## Concrete trees and texts -/

/-- `Yaml::Yaml()`: the root `Metadata("", "")` without children and attributes. -/
def Yaml.new : Metadata := Metadata.mk [] [] [] []

/-- The five lines of the round-trip scenario of the specification. -/
def scenarioText : Str := "---\nname: hero\nstats:\n  hp: 10\n  _type: int\n".toList

/-- The tree that `Yaml::Load` builds from `scenarioText`: the attribute is on `stats`. -/
def scenarioDecoded : Metadata :=
  Metadata.mk [] []
    [Metadata.mk "name".toList "hero".toList [] [],
     Metadata.mk "stats".toList []
       [Metadata.mk "hp".toList "10".toList [] []] [("type".toList, "int".toList)]] []

/-- The tree that the scenario of the specification describes: the attribute is on `hp`. -/
def scenarioDescribed : Metadata :=
  Metadata.mk [] []
    [Metadata.mk "name".toList "hero".toList [] [],
     Metadata.mk "stats".toList []
       [Metadata.mk "hp".toList "10".toList [] [("type".toList, "int".toList)]] []] []

/-- A root with one attribute and one anonymous scalar child. -/
def attributeThenItem : Metadata :=
  Metadata.mk [] [] [Metadata.mk [] "x".toList [] []] [("k".toList, "v".toList)]

/-- The example of an indentation jump: `a:` followed by `b: 1` indented by four spaces. -/
def jumpText : Str := "a:\n    b: 1\n".toList

/-- The tree that `Yaml::Load` builds from `jumpText`: the filler node is a sibling of `a`. -/
def jumpDecoded : Metadata :=
  Metadata.mk [] []
    [Metadata.mk "a".toList [] [] [],
     Metadata.mk [] [] [Metadata.mk "b".toList "1".toList [] []] []] []

mutual
/-- The depth, below the given node, of the first node in pre-order that has the given name;
the node itself is at depth 0. -/
def Metadata.depthOf (target : Str) : Metadata → Option Nat
  | Metadata.mk n _ children _ =>
    if n = target then some 0 else (Metadata.depthOfList target children).map fun d => d + 1
/-- The depth of the first node of the given name in a list of sibling trees. -/
def Metadata.depthOfList (target : Str) : List Metadata → Option Nat
  | [] => none
  | c :: cs =>
    match Metadata.depthOf target c with
    | some d => some d
    | none => Metadata.depthOfList target cs
end

/-! ## Keyed trees and their expected text -/

/-- A name that is read back as it was written: not empty, without colon and line feed,
without leading or trailing whitespace, and not beginning with `_`, `#` or `-`. -/
def cleanName (s : Str) : Bool :=
  decide (s ≠ [] ∧ ':' ∉ s ∧ '\n' ∉ s ∧ String.Trim s = s ∧
    s.head? ≠ some '_' ∧ s.head? ≠ some '#' ∧ s.head? ≠ some '-')

/-- A value that is read back as it was written: without line feed and without leading or
trailing whitespace. -/
def cleanValue (s : Str) : Bool :=
  decide ('\n' ∉ s ∧ String.Trim s = s)

/-- An attribute key that is read back as it was written: without colon and line feed and
without trailing whitespace (the key follows the underscore, so whitespace at its start is
kept). -/
def cleanKey (s : Str) : Bool :=
  decide (':' ∉ s ∧ '\n' ∉ s ∧ String.Trim ('_' :: s) = '_' :: s)

/-- Attributes that are read back as they were written: clean keys and values, no key
twice. -/
def cleanAttributes (attributes : List (Str × Str)) : Bool :=
  decide (attributes.map Prod.fst).Nodup &&
    attributes.all fun kv => cleanKey kv.1 && cleanValue kv.2

mutual
/-- The node and all nodes below it have clean names, values and attributes. -/
def Metadata.clean : Metadata → Bool
  | Metadata.mk name value children attributes =>
    cleanName name && cleanValue value && cleanAttributes attributes &&
      Metadata.cleanList children
/-- All trees of the list are clean. -/
def Metadata.cleanList : List Metadata → Bool
  | [] => true
  | c :: cs => Metadata.clean c && Metadata.cleanList cs
end

mutual
/-- The number of levels of a tree, the node itself included. -/
def Metadata.height : Metadata → Nat
  | Metadata.mk _ _ children _ => Metadata.heightList children + 1
/-- The largest height in a list of trees, 0 for the empty list. -/
def Metadata.heightList : List Metadata → Nat
  | [] => 0
  | c :: cs => max (Metadata.height c) (Metadata.heightList cs)
end

/-- The attribute lines that `AppendData` writes for a node whose indentation counter is `c`,
without their line feeds. -/
def attributeLines (c : Nat) : List (Str × Str) → List Str
  | [] => []
  | (k, v) :: rest =>
    (indents c ++ [' ', ' ', '_'] ++ (k ++ [':', ' ']) ++ v) :: attributeLines c rest

mutual
/-- The lines of a node with a name, written with indentation counter `c`, of its attributes
and of the nodes below it, without their line feeds. -/
def keyedLines (c : Nat) : Metadata → List Str
  | Metadata.mk name value children attributes =>
    (indents c ++ (name ++ [':', ' '] ++ value)) ::
      (attributeLines c attributes ++ keyedLinesList (c + 1) children)
/-- The lines of a list of sibling nodes. -/
def keyedLinesList (c : Nat) : List Metadata → List Str
  | [] => []
  | m :: ms => keyedLines c m ++ keyedLinesList c ms
end

/-- The text made of the given lines, each followed by a line feed. -/
def unlines : List Str → Str
  | [] => []
  | l :: ls => l ++ '\n' :: unlines ls

/-- The Sections that `Yaml::Load` builds for the attribute lines of a node of indentation
counter `c`. -/
def attributeSections (c : Nat) (attributes : List (Str × Str)) : List Section :=
  (attributeLines c attributes).map fun l => Section.mk (String.Trim l) (2 * (c + 1)) []

mutual
/-- The Section that `Yaml::Load` builds for the lines of a node with a name. -/
def keyedSection (c : Nat) : Metadata → Section
  | Metadata.mk name value children attributes =>
    Section.mk (String.Trim (indents c ++ (name ++ [':', ' '] ++ value))) (2 * c)
      (attributeSections c attributes ++ keyedSectionList (c + 1) children)
/-- The Sections of a list of sibling nodes. -/
def keyedSectionList (c : Nat) : List Metadata → List Section
  | [] => []
  | m :: ms => keyedSection c m :: keyedSectionList c ms
end

/-- The frame with further children appended. -/
def Frame.add (f : Frame) (secs : List Section) : Frame :=
  { f with children := f.children ++ secs }

/-- What an iteration of the loop does with a line of the given indentation whose Section is
`sec`: the moves of `currentSection`, then the append. -/
def LoadState.place (indentation : Nat) (sec : Section) (s : LoadState) : Option LoadState :=
  (s.adjust indentation).map fun s2 => { s2.append sec with lastIndentation := indentation }

/-- The state `s` treats every line of indentation counter at most `c` as the state does whose
`currentSection` is `cur`, with the chain of parents `par`, and whose last line had
indentation counter `c`; and both hold the same Section tree. -/
def LoadState.Follows (s : LoadState) (c : Nat) (cur : Frame) (par : List Frame) : Prop :=
  par.length = c ∧ LoadState.top s.parents s.current = LoadState.top par cur ∧
    ∀ m, m ≤ c → ∀ sec, s.place (2 * m) sec = LoadState.place (2 * m) sec ⟨cur, par, 2 * c⟩

/-- The node with further children appended (`AddChild` for each of them in turn). -/
def Metadata.AddChildren : Metadata → List Metadata → Metadata
  | Metadata.mk n v c a, l => Metadata.mk n v (c ++ l) a

mutual
/-- The node and all nodes below it have a non-empty name. -/
def Metadata.named : Metadata → Bool
  | Metadata.mk name _ children _ => !name.isEmpty && Metadata.namedList children
/-- All nodes of all trees of the list have a non-empty name. -/
def Metadata.namedList : List Metadata → Bool
  | [] => true
  | c :: cs => Metadata.named c && Metadata.namedList cs
end

/-- The stream that holds the text `t`, with the put position at its end. -/
def OStream.ofText (t : Str) : OStream := ⟨t, t.length, false⟩

/-- A tree with a name that contains a colon. -/
def colonInName : Metadata :=
  Metadata.mk [] [] [Metadata.mk "a:b".toList "c".toList [] []] []

/-- A small clean tree: two entries, a nested map and attributes. -/
def cleanExample : Metadata :=
  Metadata.mk [] []
    [Metadata.mk "name".toList "hero".toList [] [],
     Metadata.mk "stats".toList []
       [Metadata.mk "hp".toList "10".toList [] [("type".toList, "int".toList)],
        Metadata.mk "mp".toList "7".toList [] []]
       [("unit".toList, "points".toList)]] []

/-! ## Further concrete inputs and reference definitions -/

/-- A root whose only child is an anonymous scalar: a top-level list of one element. -/
def topLevelItem : Metadata :=
  Metadata.mk [] [] [Metadata.mk [] "x".toList [] []] []

/-- The number of leading spaces of a line. -/
def leadingSpaces (l : Str) : Nat := (l.takeWhile fun c => c == ' ').length

/-- The first character of a line that is not a space, if there is one. -/
def firstNonSpace (l : Str) : Option Char := (l.dropWhile fun c => c == ' ').head?

/-- The indentation of a line as the specification describes it: the number of leading spaces,
plus 2 if the first character other than a space is a dash. -/
def describedIndentation (l : Str) : Nat :=
  leadingSpaces l + if firstNonSpace l = some '-' then 2 else 0

/-- The `name` that `Yaml::Convert` computes from the content of a Section (line 144):
`String::Trim(content.substr(0, content.find(':')))`. -/
def sectionName (content : Str) : Str :=
  String.Trim (content.takeWhile fun c => c != ':')

/-- The `value` that `Yaml::Convert` computes from the content of a Section (lines 145 and
146): `Trim(ReplaceFirst(content, name, ""))`, then `Trim(value.erase(0, 1))`. -/
def sectionValue (content : Str) : Str :=
  String.Trim ((String.Trim (String.ReplaceFirst content (sectionName content) [])).drop 1)

/-! ## The reference serializer of keyed trees -/

/-- The attribute lines of a node with `c` ancestors below the root, as the specification
describes them: `2 * c` spaces, then `  _`, the key, `: `, the value and a line feed. -/
def referenceAttributes (c : Nat) : List (Str × Str) → Str
  | [] => []
  | (k, v) :: rest =>
    List.replicate (2 * c) ' ' ++ [' ', ' ', '_'] ++ k ++ [':', ' '] ++ v ++ ['\n'] ++
      referenceAttributes c rest

mutual
/-- The text of a node with `c` ancestors below the root, as the specification describes it:
its line `2 * c` spaces, name, `: `, value, line feed; then its attribute lines; then its
children in order. -/
def referenceNode (c : Nat) : Metadata → Str
  | Metadata.mk name value children attributes =>
    List.replicate (2 * c) ' ' ++ name ++ [':', ' '] ++ value ++ ['\n'] ++
      referenceAttributes c attributes ++ referenceNodes (c + 1) children
/-- The text of a list of sibling nodes. -/
def referenceNodes (c : Nat) : List Metadata → Str
  | [] => []
  | m :: ms => referenceNode c m ++ referenceNodes c ms
end

/-- The text of a keyed tree as the specification describes it: the marker line, then the
nodes below the root in pre-order. -/
def referenceText (root : Metadata) : Str :=
  ['-', '-', '-', '\n'] ++ referenceNodes 0 root.GetChildren

/-- A root that has an attribute and no children. -/
def rootWithAttribute : Metadata :=
  Metadata.mk [] [] [] [("k".toList, "v".toList)]

/-- The stream has not failed and its put position is at least 2, so that a rewind by two
characters stays inside the stream. -/
def OStream.Good (o : OStream) : Prop := o.fail = false ∧ 2 ≤ o.pos

/-! ## Comment lines in a text -/

/-- The scan of a text for a comment line. The flag tells whether only spaces have been seen
since the current line began; the result is `none` as soon as the first character of a line
other than a space is `#`, and the flag at the end of the text otherwise. -/
def lineState : Bool → Str → Option Bool
  | atStart, [] => some atStart
  | atStart, c :: cs =>
    if c = '\n' then lineState true cs
    else if atStart then
      if c = ' ' then lineState true cs
      else if c = '#' then none
      else lineState false cs
    else lineState false cs

/-- No token of the attributes contains a line feed. -/
def feedFreeAttributes (attributes : List (Str × Str)) : Bool :=
  attributes.all fun kv => decide ('\n' ∉ kv.1) && decide ('\n' ∉ kv.2)

mutual
/-- No name, value, attribute key or attribute value of the tree contains a line feed, no
name has `#` as its first character other than a space, and no value of a node without name
has `#` as its first character other than a space. -/
def Metadata.commentSafe : Metadata → Bool
  | Metadata.mk name value children attributes =>
    decide ('\n' ∉ name) && decide ('\n' ∉ value) && decide (firstNonSpace name ≠ some '#') &&
      decide (name = [] → firstNonSpace value ≠ some '#') && feedFreeAttributes attributes &&
      Metadata.commentSafeList children
/-- All trees of the list are `commentSafe`. -/
def Metadata.commentSafeList : List Metadata → Bool
  | [] => true
  | c :: cs => Metadata.commentSafe c && Metadata.commentSafeList cs
end

/-- A root with one node whose name begins with `#`. -/
def hashName : Metadata :=
  Metadata.mk [] [] [Metadata.mk "#a".toList "1".toList [] []] []

/-- The stream has not failed, its put position is at the end of its text and at least 2,
and its text has no comment line. -/
def OStream.Clean (o : OStream) : Prop :=
  o.fail = false ∧ o.pos = o.buf.length ∧ 2 ≤ o.pos ∧ lineState true o.buf ≠ none

/-! ## A tree as deep as the indentation counter allows -/

/-- A chain of `n + 1` nested nodes, each named `a` with empty value. -/
def chainTree : Nat → Metadata
  | 0 => Metadata.mk ['a'] [] [] []
  | n + 1 => Metadata.mk ['a'] [] [chainTree n] []

/-- The root with two children: the chain of `n + 1` nested nodes `a`, then a node `b`. -/
def deepTreeOf (n : Nat) : Metadata :=
  Metadata.mk [] [] [chainTree n, Metadata.mk ['b'] [] [] []] []

/-- The tree whose chain has `2 ^ 31` nodes: its deepest line is indented by `2 ^ 32 - 2`
spaces, written with the indentation counter `2 ^ 31 - 1`. -/
def deepTree : Metadata := deepTreeOf 2147483647

/-- The lines that `Yaml::Write` produces for the children of `deepTree`. -/
def deepLines : List Str := keyedLinesList 0 deepTree.GetChildren

/-- The Section of a line `a:` of indentation counter `c`, without children. -/
def leafSection (c : Nat) : Section := Section.mk ['a', ':'] (2 * c) []

/-- The Section of the chain of `n + 1` lines `a:` that starts at indentation counter `c`. -/
def chainSection : Nat → Nat → Section
  | 0, c => leafSection c
  | n + 1, c => Section.mk ['a', ':'] (2 * c) [chainSection n (c + 1)]

/-- The state of `Yaml::Load` after a chain of `n + 1` lines `a:`, each one level deeper than
the one before, read from indentation counter `c` on with `currentSection` `f`. -/
def descendState : Nat → Nat → Frame → List Frame → LoadState
  | 0, c, f, par => ⟨f.add [leafSection c], par, 2 * c⟩
  | n + 1, c, f, par => descendState n (c + 1) ⟨['a', ':'], 2 * c, []⟩ (f :: par)

/-! ## Clean tokens, as the specification lists them -/

/-- An attribute key under the restrictions of a name, except that it may begin with any
character: not empty, without colon and line feed, without leading or trailing whitespace. -/
def tidyKey (s : Str) : Bool :=
  decide (s ≠ [] ∧ ':' ∉ s ∧ '\n' ∉ s ∧ String.Trim s = s)

/-- The attributes form a mapping (no key twice) with tidy keys and clean values. -/
def tidyAttributes (attributes : List (Str × Str)) : Bool :=
  decide (attributes.map Prod.fst).Nodup &&
    attributes.all fun kv => tidyKey kv.1 && cleanValue kv.2

mutual
/-- The node and all nodes below it have clean names and values and tidy attributes. -/
def Metadata.tidy : Metadata → Bool
  | Metadata.mk name value children attributes =>
    cleanName name && cleanValue value && tidyAttributes attributes &&
      Metadata.tidyList children
/-- All trees of the list are tidy. -/
def Metadata.tidyList : List Metadata → Bool
  | [] => true
  | c :: cs => Metadata.tidy c && Metadata.tidyList cs
end

/-! ## Well-formed nesting -/

/-- A content line: neither the marker `---` nor a comment. -/
def isContent (l : Str) : Bool := decide (l ≠ ['-', '-', '-']) && !(scanLine l 0).2

/-- The indentation that `Yaml::Load` computes for a line. -/
def lineIndent (l : Str) : Nat := (scanLine l 0).1

/-- Every content line has even indentation, and the indentation of each content line
exceeds that of the content line before it, `previous` for the first one, by at most 2. -/
def wellNested : Nat → List Str → Bool
  | _, [] => true
  | previous, l :: ls =>
    if isContent l then
      decide (lineIndent l % 2 = 0) && decide (lineIndent l ≤ previous + 2) &&
        wellNested (lineIndent l) ls
    else wellNested previous ls

/-- The first content line has indentation 0 and the lines after it are `wellNested`. -/
def wellNestedInput : List Str → Bool
  | [] => true
  | l :: ls =>
    if isContent l then decide (lineIndent l = 0) && wellNested 0 ls else wellNestedInput ls

/-- The Sections of the content lines of indentation `j` among `lines` for which no content
line of indentation `j - 2` comes earlier in `lines`: the children of the Section whose line
precedes `lines` and is their nearest preceding content line of indentation `j - 2` (of the
synthetic root, for `j = 0`). The children of each are found in the same way among the lines
that follow it. -/
def nestedUnder (j : Nat) : List Str → List Section
  | [] => []
  | l :: ls =>
    if isContent l then
      if lineIndent l + 2 = j then []
      else if lineIndent l = j then
        Section.mk (String.Trim l) j (nestedUnder (j + 2) ls) :: nestedUnder j ls
      else nestedUnder j ls
    else nestedUnder j ls

/-- The Section tree that the specification describes for a well-nested input: each line
under its nearest preceding content line of indentation 2 less, siblings in line order. -/
def referenceTree (lines : List Str) : Section := Section.mk [] 0 (nestedUnder 0 lines)

mutual
/-- The Section has indentation `j`, its children `j + 2`, and so on downwards. -/
def Section.alignedAt : Nat → Section → Bool
  | j, Section.mk _ i children => decide (i = j) && Section.alignedList (j + 2) children
/-- All Sections of the list are `alignedAt` the given indentation. -/
def Section.alignedList : Nat → List Section → Bool
  | _, [] => true
  | j, c :: cs => Section.alignedAt j c && Section.alignedList j cs
end

mutual
/-- The content and indentation of the Section and of all Sections below it, each Section
before its children, children in their order. -/
def Section.preorder : Section → List (Str × Nat)
  | Section.mk content indentation children =>
    (content, indentation) :: Section.preorderList children
/-- The `preorder` of the Sections of a list, one after another. -/
def Section.preorderList : List Section → List (Str × Nat)
  | [] => []
  | c :: cs => Section.preorder c ++ Section.preorderList cs
end

/-- A well-nested input with a marker, a comment, and indentation going down by two levels. -/
def nestedExample : List Str :=
  ["---".toList, "a:".toList, "  b: 1".toList, "    c: 2".toList, "  # note".toList,
    "    d: 3".toList, "e: 4".toList]

/-! ## Copy construction -/

mutual
/-- `Yaml::AddChildren(source, destination)`; the result is `destination` after the call. The
child `new Metadata(child->GetName(), child->GetValue())` is filled by the recursive call and
is the last child of `destination`. -/
def Yaml.AddChildren : Metadata → Metadata → Metadata
  | Metadata.mk _ _ children attributes, destination =>
    attributes.foldl (fun d kv => d.AddAttribute kv.1 kv.2)
      (Yaml.AddChildrenLoop children destination)
/-- The loop `for (const auto &child : source->GetChildren())` of `Yaml::AddChildren`. -/
def Yaml.AddChildrenLoop : List Metadata → Metadata → Metadata
  | [], destination => destination
  | Metadata.mk name value children attributes :: rest, destination =>
    Yaml.AddChildrenLoop rest
      (destination.AddChild
        (Yaml.AddChildren (Metadata.mk name value children attributes)
          (Metadata.mk name value [] [])))
end

/-- `Yaml::Yaml(Metadata *metadata) : Metadata("", "")` with the body
`AddChildren(metadata, this)`. -/
def Yaml.ofMetadata (metadata : Metadata) : Metadata :=
  Yaml.AddChildren metadata (Metadata.mk [] [] [] [])

mutual
/-- The attributes of the node and of every node below it are a mapping: no key occurs
twice (the Document Tree holds them in an ordered mapping). -/
def Metadata.mapped : Metadata → Bool
  | Metadata.mk _ _ children attributes =>
    decide (attributes.map Prod.fst).Nodup && Metadata.mappedList children
/-- All trees of the list are `mapped`. -/
def Metadata.mappedList : List Metadata → Bool
  | [] => true
  | c :: cs => Metadata.mapped c && Metadata.mappedList cs
end

/-! ## The sequence marker on write -/

/-- The stream has not failed and its put position is at the end of its text. -/
def OStream.AtEnd (o : OStream) : Prop := o.fail = false ∧ o.pos = o.buf.length

/-- The stream is `AtEnd` and its text begins with `held`; what follows `held` is at least two
characters long, unless nothing follows and `held` ends with the sequence marker. A rewind by
two characters followed by the sequence marker then leaves `held` as it is. -/
def OStream.Keeps (held : Str) (o : OStream) : Prop :=
  o.AtEnd ∧ ∃ rest, o.buf = held ++ rest ∧
    (2 ≤ rest.length ∨ (rest = [] ∧ ∃ base, held = base ++ ['-', ' ']))

/-- The stream is `AtEnd` and its text ends with a line feed. -/
def OStream.LineEnd (o : OStream) : Prop := o.AtEnd ∧ o.buf.getLast? = some '\n'

mutual
/-- The node and every node below it has a non-empty name or a non-empty value, so that
`AppendData` writes a line for it. -/
def Metadata.visible : Metadata → Bool
  | Metadata.mk name value children _ =>
    (!name.isEmpty || !value.isEmpty) && Metadata.visibleList children
/-- All trees of the list are `visible`. -/
def Metadata.visibleList : List Metadata → Bool
  | [] => true
  | c :: cs => Metadata.visible c && Metadata.visibleList cs
end

/-- A list under the key `p` whose first item has a child without name and value, and whose
second item is the scalar `x`. -/
def bareItemList : Metadata :=
  Metadata.mk [] []
    [Metadata.mk "p".toList []
      [Metadata.mk [] "v".toList [Metadata.mk [] [] [] []] [],
       Metadata.mk [] "x".toList [] []] []] []

/-- An entry `a: 1` followed by a node without name and value that holds the scalar `x`. -/
def itemAfterEntry : Metadata :=
  Metadata.mk [] []
    [Metadata.mk "a".toList "1".toList [] [],
     Metadata.mk [] [] [Metadata.mk [] "x".toList [] []] []] []

/-! ## The safety condition of decode -/

/-- The first line that is neither the marker `---` nor a comment. -/
def firstContent (lines : List Str) : Option Str := lines.find? isContent

/-- The last content line of `lines`, and `previous` when there is none. -/
def lastContentFrom : Option Str → List Str → Option Str
  | previous, [] => previous
  | previous, l :: ls => lastContentFrom (if isContent l then some l else previous) ls

/-- The last content line of `lines`. -/
def lastContent (lines : List Str) : Option Str := lastContentFrom none lines

/-- The state of `Yaml::Load` right after the content line `p`, or after lines that follow it
and are not content lines: `lastIndentation` is the indentation of `p`, which stays clear of
the wrap-around, and the last child of `currentSection` is the Section of `p`. -/
def LoadState.After (s : LoadState) (p : Str) : Prop :=
  s.lastIndentation = lineIndent p ∧ lineIndent p + 2 < U32 ∧
    s.current.children.getLast? = some (Section.mk (String.Trim p) (lineIndent p) [])

/-! ## The indentation of a Section and of its parent -/

mutual
/-- Every Section below this one has an indentation of at least the indentation of its parent
plus 2. -/
def Section.ordered : Section → Bool
  | Section.mk _ indentation children => Section.orderedUnder indentation children
/-- Every Section of the list has an indentation of at least `parent + 2` and is `ordered`. -/
def Section.orderedUnder : Nat → List Section → Bool
  | _, [] => true
  | parent, c :: cs =>
    decide (parent + 2 ≤ c.indentation) && Section.ordered c && Section.orderedUnder parent cs
end

/-- All Sections of the list are `ordered`. -/
def Section.orderedList : List Section → Bool
  | [] => true
  | c :: cs => Section.ordered c && Section.orderedList cs

/-- Every Section of the tree whose parent is not the root has an indentation of at least the
indentation of its parent plus 2. -/
def Section.rootOrdered : Section → Bool
  | Section.mk _ _ children => Section.orderedList children

mutual
/-- Every Section below this one whose content is not empty (a filler has empty content) has an
indentation of at least the indentation of its parent plus 2. -/
def Section.linesOrdered : Section → Bool
  | Section.mk _ indentation children => Section.linesOrderedUnder indentation children
/-- Every Section of the list whose content is not empty has an indentation of at least
`parent + 2`, and all of them are `linesOrdered`. -/
def Section.linesOrderedUnder : Nat → List Section → Bool
  | _, [] => true
  | parent, c :: cs =>
    (c.content.isEmpty || decide (parent + 2 ≤ c.indentation)) && Section.linesOrdered c &&
      Section.linesOrderedUnder parent cs
end

/-- All Sections of the list are `linesOrdered`. -/
def Section.linesOrderedList : List Section → Bool
  | [] => true
  | c :: cs => Section.linesOrdered c && Section.linesOrderedList cs

/-- The Sections on the path from `currentSection` (`cur`) up to the root, `parents` being
the chain of `m_parent`s: the children collected so far are in order below each of them, each
Section of the path other than the root has an indentation of at least that of its parent
plus 2 when the parent is not the root, and the indentation of the Section `j` levels above
`cur` is at most `bound - 2 - 2 * j`. -/
def LoadState.chainOrdered : Nat → Frame → List Frame → Prop
  | _, cur, [] => Section.orderedList cur.children = true
  | bound, cur, p :: rest =>
    cur.indentation + 2 ≤ bound ∧ Section.orderedUnder cur.indentation cur.children = true ∧
      (rest ≠ [] → p.indentation + 2 ≤ cur.indentation) ∧
      LoadState.chainOrdered (bound - 2) p rest

/-- The invariant of the loop of `Yaml::Load` on inputs with even indentations:
`lastIndentation` is even and clear of the wrap-around, the path is `chainOrdered` with
`lastIndentation` as bound, and the last child of `currentSection` is not indented beyond
`lastIndentation`. -/
def LoadState.Graded (s : LoadState) : Prop :=
  s.lastIndentation % 2 = 0 ∧ s.lastIndentation + 2 < U32 ∧
    LoadState.chainOrdered s.lastIndentation s.current s.parents ∧
    ∀ c, s.current.children.getLast? = some c → c.indentation ≤ s.lastIndentation

/-! ## Sequence items on read -/

/-- The number of colons among the leading characters of a string that are colons or
whitespace. -/
def leadingColons : Str → Nat
  | [] => 0
  | c :: cs =>
    if c = ':' then leadingColons cs + 1
    else if String.isWhitespace c then leadingColons cs
    else 0

/-- One character of the scan of a text for the colons that lead its lines. The state is
`some k` while the current line consists of whitespace and `k` colons, and `none` after any
other character; the result is `none` when a line gets more than `b` leading colons. -/
def colonStep (b : Nat) (st : Option Nat) (c : Char) : Option (Option Nat) :=
  if c = '\n' then some (some 0)
  else
    match st with
    | none => some none
    | some k =>
      if c = ':' then (if k + 1 ≤ b then some (some (k + 1)) else none)
      else if String.isWhitespace c then some (some k)
      else some none

/-- The scan of a text with `colonStep`, from the state `st`. -/
def colonScan (b : Nat) : Option Nat → Str → Option (Option Nat)
  | st, [] => some st
  | st, c :: cs => (colonStep b st c).bind fun st1 => colonScan b st1 cs

/-- The result of a scan that ends at the start of a line or after a character that is
neither whitespace nor a colon. -/
def colonSettled (r : Option (Option Nat)) : Prop := r = some none ∨ r = some (some 0)

/-- The stream is `AtEnd`, its put position is at least 2, no line of its text has more than
`b` leading colons, and the text ends at the start of a line or after a character that is
neither whitespace nor a colon. -/
def OStream.Within (b : Nat) (o : OStream) : Prop :=
  o.AtEnd ∧ 2 ≤ o.pos ∧ colonSettled (colonScan b (some 0) o.buf)

/-- The name is empty or begins with a character that is neither whitespace nor a colon. -/
def niceName : Str → Bool
  | [] => true
  | c :: _ => !String.isWhitespace c && c != ':'

mutual
/-- No name, value, attribute key or attribute value of the tree contains a line feed, every
name is a `niceName`, and every non-empty value of a node without name has fewer than `b`
leading colons. -/
def Metadata.loadedWithin (b : Nat) : Metadata → Bool
  | Metadata.mk name value children attributes =>
    decide ('\n' ∉ name) && decide ('\n' ∉ value) && niceName name &&
      (!name.isEmpty || value.isEmpty || decide (leadingColons value < b)) &&
      feedFreeAttributes attributes && Metadata.loadedWithinList b children
/-- All trees of the list are `loadedWithin b`. -/
def Metadata.loadedWithinList (b : Nat) : List Metadata → Bool
  | [] => true
  | c :: cs => Metadata.loadedWithin b c && Metadata.loadedWithinList b cs
end

mutual
/-- Some node of the tree has an empty name and a non-empty value: an anonymous scalar. -/
def Metadata.hasScalar : Metadata → Bool
  | Metadata.mk name value children _ =>
    (name.isEmpty && !value.isEmpty) || Metadata.hasScalarList children
/-- Some tree of the list has an anonymous scalar. -/
def Metadata.hasScalarList : List Metadata → Bool
  | [] => false
  | c :: cs => Metadata.hasScalar c || Metadata.hasScalarList cs
end

/-- The content of a Section is trimmed, has no line feed and at most `b` leading colons. -/
def contentWithin (b : Nat) (content : Str) : Bool :=
  decide (String.Trim content = content) && decide ('\n' ∉ content) &&
    decide (leadingColons content ≤ b)

mutual
/-- The content of the Section and of every Section below it is `contentWithin b`. -/
def Section.within (b : Nat) : Section → Bool
  | Section.mk content _ children => contentWithin b content && Section.withinList b children
/-- All Sections of the list are `within b`. -/
def Section.withinList (b : Nat) : List Section → Bool
  | [] => true
  | c :: cs => Section.within b c && Section.withinList b cs
end

/-- The content of the frame and of every Section below it is `contentWithin b`. -/
def Frame.within (b : Nat) (f : Frame) : Bool :=
  contentWithin b f.content && Section.withinList b f.children

/-- All Sections that the state of `Yaml::Load` holds are `within b`. -/
def LoadState.Within (b : Nat) (s : LoadState) : Prop :=
  Frame.within b s.current = true ∧ ∀ f ∈ s.parents, Frame.within b f = true

/-- The list `items` with the single scalar element `a`. -/
def itemsList : Metadata :=
  Metadata.mk [] [] [Metadata.mk "items".toList [] [Metadata.mk [] "a".toList [] []] []] []

/-! # Theorems -/

/-! ## Basic facts about the loop of `Yaml::Load` -/

theorem U32_pos : 0 < U32 := by decide

theorem scanLine_fst_lt (l : Str) : ∀ n, n < U32 → (scanLine l n).1 < U32 := by
  induction l with
  | nil => intro n hn; simpa [scanLine] using hn
  | cons c cs ih =>
    intro n hn
    unfold scanLine
    split
    · exact ih _ (Nat.mod_lt _ U32_pos)
    · split
      · exact Nat.mod_lt _ U32_pos
      · split <;> exact hn

theorem scanLine_comment (l : Str) :
    ∀ n, (l.dropWhile (fun c => c == ' ')).head? = some '#' → (scanLine l n).2 = true := by
  induction l with
  | nil => intro n h; simp at h
  | cons c cs ih =>
    intro n h
    unfold scanLine
    by_cases hc : c = ' '
    · subst hc
      simp only [if_true]
      apply ih
      simpa [List.dropWhile] using h
    · have hd : List.dropWhile (fun c => c == ' ') (c :: cs) = c :: cs := by
        rw [List.dropWhile_cons_of_neg (by simpa using hc)]
      rw [hd] at h
      simp only [List.head?_cons, Option.some.injEq] at h
      subst h
      simp

theorem run_append (a b : List Str) : ∀ s : LoadState,
    LoadState.run (a ++ b) s = (LoadState.run a s).bind (LoadState.run b) := by
  induction a with
  | nil => intro s; simp [LoadState.run]
  | cons l ls ih =>
    intro s
    simp only [List.cons_append, LoadState.run]
    cases h : s.step l with
    | none => simp
    | some s1 => simpa using ih s1

theorem step_ignored (s : LoadState) (l : Str)
    (h : l = ['-', '-', '-'] ∨ (l.dropWhile (fun c => c == ' ')).head? = some '#') :
    s.step l = some s := by
  unfold LoadState.step
  by_cases hm : l = ['-', '-', '-']
  · simp [hm]
  · rcases h with h | h
    · exact absurd h hm
    · simp [hm, scanLine_comment l 0 h]

theorem clear_of_yaml (self : Metadata) (hname : self.GetName = []) (hvalue : self.GetValue = []) :
    self.ClearChildren.ClearAttributes = Yaml.new := by
  cases self with
  | mk n v c a =>
    simp only [Metadata.GetName, Metadata.GetValue] at hname hvalue
    subst hname; subst hvalue
    rfl

theorem LoadLines_of_yaml (self : Metadata) (hname : self.GetName = []) (hvalue : self.GetValue = [])
    (lines : List Str) : LoadLines self lines = LoadLines Yaml.new lines := by
  unfold LoadLines
  rw [clear_of_yaml self hname hvalue]
  rfl

/-! ## Empty stream, ignored lines -/

/-- C10: on an empty stream `Yaml::Load` leaves a root with empty name and value, without
children and attributes, whatever the receiving `Yaml` held before; and on every stream the
tree after the call is the one a fresh `Yaml` gets: it depends on the input only. The name and
the value of the receiver are empty because every constructor of `Yaml` makes them so. -/
theorem Load_empty_stream (self : Metadata)
    (hname : self.GetName = []) (hvalue : self.GetValue = []) :
    Load self [] = some (Metadata.mk [] [] [] []) ∧
      ∀ inStream : Str, Load self inStream = Load Yaml.new inStream := by
  refine ⟨?_, fun inStream => LoadLines_of_yaml self hname hvalue _⟩
  unfold Load
  rw [LoadLines_of_yaml self hname hvalue]
  rfl

theorem Load_empty_stream_witness :
    Load attributeThenItem [] = some (Metadata.mk [] [] [] []) ∧
      Load attributeThenItem scenarioText = Load Yaml.new scenarioText :=
  ⟨(Load_empty_stream attributeThenItem rfl rfl).1,
   (Load_empty_stream attributeThenItem rfl rfl).2 scenarioText⟩

/-- C8: a line that is exactly `---`, or whose first character other than a space is `#`,
is a no-op of `Yaml::Load`: the iteration leaves the Section tree, `currentSection` and
`lastIndentation` as they are, so inserting the line at any position of any input leaves the
tree that `Yaml::Load` returns unchanged. -/
theorem Load_ignored_line (l : Str)
    (h : l = ['-', '-', '-'] ∨ (l.dropWhile (fun c => c == ' ')).head? = some '#') :
    (∀ s : LoadState, s.step l = some s) ∧
      ∀ (self : Metadata) (before after : List Str),
        LoadLines self (before ++ l :: after) = LoadLines self (before ++ after) := by
  refine ⟨fun s => step_ignored s l h, fun self before after => ?_⟩
  unfold LoadLines
  rw [run_append, run_append]
  cases hb : LoadState.run before LoadState.init with
  | none => rfl
  | some s1 => simp [LoadState.run, step_ignored s1 l h]

theorem Load_ignored_line_witness :
    LoadLines Yaml.new ["a:".toList, "  # note".toList, "  b: 1".toList] =
      LoadLines Yaml.new ["a:".toList, "  b: 1".toList] :=
  (Load_ignored_line "  # note".toList (Or.inr (by decide))).2 Yaml.new ["a:".toList] ["  b: 1".toList]

/-! ## Decoding: concrete inputs -/

/-- C2: `Yaml::Load` does not always run to completion. On the one-line input `  a: 1` the
first content line has indentation 2 while `lastIndentation` is 0, so the step
`currentSection->m_children.back()` is executed on `topSection`, which has no children. -/
theorem Load_back_on_empty_children : Load Yaml.new "  a: 1".toList = none := by
  rfl

/-- C3, as stated, fails: decoding the scenario text does not give the tree in which the `hp`
node carries the attribute `type`. -/
theorem Load_scenario_not_described : Load Yaml.new scenarioText ≠ some scenarioDescribed := by
  intro h
  have h2 : some scenarioDecoded = some scenarioDescribed := h
  simp [scenarioDecoded, scenarioDescribed] at h2

/-- C3, amended: decoding the scenario text gives a root with the two children `name: hero`
and `stats`; `stats` has the single child `hp: 10` and carries the attribute `type -> int`;
no other node carries an attribute. -/
theorem Load_scenario : Load Yaml.new scenarioText = some scenarioDecoded := by
  rfl

/-- C4, as stated, fails: writing the decoded scenario gives neither the input text nor the
input text with only the attribute line moved after the line of `stats`; the line of `stats`
differs as well. -/
theorem Write_scenario_not_input :
    (Load Yaml.new scenarioText).bind WriteText ≠ some scenarioText ∧
      (Load Yaml.new scenarioText).bind WriteText ≠
        some "---\nname: hero\nstats:\n  _type: int\n  hp: 10\n".toList := by
  decide!

/-- C4, amended: writing the tree decoded from the scenario gives the input text with the
attribute line moved directly after the line of `stats`, the node that carries it, and with
the line of `stats` written as `stats: `, a space after the colon. -/
theorem Write_scenario :
    (Load Yaml.new scenarioText).bind WriteText =
      some "---\nname: hero\nstats: \n  _type: int\n  hp: 10\n".toList := by
  decide!

/-- C5: the attribute line of a node does not always stay intact. For a root with the attribute
`k -> v` and an anonymous first child `x`, the rewind of the sequence-list heuristic overwrites
the end of the attribute line: the output is `---`, then `  _k: - x`. -/
theorem Write_attribute_line_overwritten :
    WriteText attributeThenItem = some "---\n  _k: - x\n".toList := by
  decide!

/-! ## Conversion keeps the name and the value of the parent -/

mutual
theorem Convert_name_value : ∀ (source : Section) (parent : Metadata) (isTopSection : Bool),
    (Convert source parent isTopSection).GetName = parent.GetName ∧
      (Convert source parent isTopSection).GetValue = parent.GetValue
  | Section.mk content i children, Metadata.mk n v c a, isTopSection => by
    unfold Convert
    simp only []
    split
    · exact ⟨rfl, rfl⟩
    · split
      · exact ConvertChildren_name_value children (Metadata.mk n v c a)
      · exact ⟨rfl, rfl⟩
theorem ConvertChildren_name_value : ∀ (children : List Section) (thisValue : Metadata),
    (ConvertChildren children thisValue).GetName = thisValue.GetName ∧
      (ConvertChildren children thisValue).GetValue = thisValue.GetValue
  | [], thisValue => by unfold ConvertChildren; exact ⟨rfl, rfl⟩
  | c :: cs, thisValue => by
    unfold ConvertChildren
    have h1 := ConvertChildren_name_value cs (Convert c thisValue false)
    have h2 := Convert_name_value c thisValue false
    exact ⟨h1.1.trans h2.1, h1.2.trans h2.2⟩
end

theorem Convert_filler (i : Nat) (cs : List Section) (parent : Metadata) :
    Convert (Section.mk [] i cs) parent false =
      parent.AddChild (ConvertChildren cs (Metadata.mk [] [] [] [])) := by
  rw [Convert]
  rfl

theorem sub32_add_left (a d : Nat) (hd : d < U32) : sub32 (a + d) a = d := by
  unfold sub32
  have : a + d + U32 - a = d + U32 := by omega
  rw [this, Nat.add_mod_right, Nat.mod_eq_of_lt hd]

theorem sub32_self (a : Nat) : sub32 a a = 0 := by
  simpa using sub32_add_left a 0 U32_pos

/-! ## Indentation jumps -/

theorem Load_jump_one_filler_aux (s : LoadState) (linebuf : Str)
    (hmarker : linebuf ≠ ['-', '-', '-']) (hcomment : (scanLine linebuf 0).2 = false)
    (hjump : (scanLine linebuf 0).1 = s.lastIndentation + 4) :
    s.step linebuf =
        some ⟨⟨[], s.lastIndentation,
                [Section.mk (String.Trim linebuf) (s.lastIndentation + 4) []]⟩,
              s.current :: s.parents, s.lastIndentation + 4⟩ := by
  have hlt : s.lastIndentation + 4 < U32 := hjump ▸ scanLine_fst_lt linebuf 0 U32_pos
  have h4 : sub32 (s.lastIndentation + 4) s.lastIndentation = 4 :=
    sub32_add_left _ 4 (by decide)
  have hmod : s.lastIndentation % U32 = s.lastIndentation := Nat.mod_eq_of_lt (by omega)
  unfold LoadState.step
  rw [if_neg hmarker]
  simp only [hcomment, hjump, LoadState.adjust, h4]
  have h1 : ¬ (s.lastIndentation + 4 < s.lastIndentation) := by omega
  have h2 : s.lastIndentation + 4 > s.lastIndentation := by omega
  have h3 : sub32 (4 / 2) 1 = 1 := by decide
  simp [h1, h2, h3, LoadState.addFillers, LoadState.append, hmod]

/-- C6: when the line read has indentation `L + 4`, `L` being the indentation of the line
before (`lastIndentation`), the iteration succeeds and inserts exactly one filler Section: it
has empty content and indentation `L`, becomes the new last child of the former
`currentSection`, and the Section of the line is its only child. A filler Section converts to
exactly one node, of empty name and empty value, added to the node of its parent. -/
theorem Load_jump_one_filler (s : LoadState) (linebuf : Str)
    (hmarker : linebuf ≠ ['-', '-', '-']) (hcomment : (scanLine linebuf 0).2 = false)
    (hjump : (scanLine linebuf 0).1 = s.lastIndentation + 4) :
    s.step linebuf =
        some ⟨⟨[], s.lastIndentation,
                [Section.mk (String.Trim linebuf) (s.lastIndentation + 4) []]⟩,
              s.current :: s.parents, s.lastIndentation + 4⟩ ∧
      ∀ (i : Nat) (cs : List Section) (parent : Metadata),
        ∃ children attributes,
          Convert (Section.mk [] i cs) parent false =
            parent.AddChild (Metadata.mk [] [] children attributes) := by
  refine ⟨Load_jump_one_filler_aux s linebuf hmarker hcomment hjump, ?_⟩
  · intro i cs parent
    rw [Convert_filler]
    have h := ConvertChildren_name_value cs (Metadata.mk [] [] [] [])
    cases hc : ConvertChildren cs (Metadata.mk [] [] [] []) with
    | mk n v ch att =>
      rw [hc] at h
      simp only [Metadata.GetName, Metadata.GetValue] at h
      exact ⟨ch, att, by rw [h.1, h.2]⟩

theorem Load_jump_one_filler_witness :
    (LoadState.mk ⟨[], 0, [Section.mk "a:".toList 0 []]⟩ [] 0).step "    b: 1".toList =
      some ⟨⟨[], 0, [Section.mk "b: 1".toList 4 []]⟩,
            [⟨[], 0, [Section.mk "a:".toList 0 []]⟩], 4⟩ :=
  (Load_jump_one_filler ⟨⟨[], 0, [Section.mk "a:".toList 0 []]⟩, [], 0⟩ "    b: 1".toList
    (by decide) (by decide) (by decide)).1

theorem step_content (s s1 : LoadState) (l : Str) (hmarker : l ≠ ['-', '-', '-'])
    (hcomment : (scanLine l 0).2 = false) (hstep : s.step l = some s1) :
    s1.lastIndentation = (scanLine l 0).1 ∧
      s1.current.children.getLast? = some (Section.mk (String.Trim l) (scanLine l 0).1 []) := by
  unfold LoadState.step at hstep
  rw [if_neg hmarker] at hstep
  simp only [hcomment, Bool.false_eq_true, if_false, Option.map_eq_some'] at hstep
  obtain ⟨s2, -, rfl⟩ := hstep
  simp [LoadState.append]

/-- C7, as stated, fails: for `a:` followed by `b: 1` indented by four spaces, the node `a` is
at depth 1 and the node `b` is not at depth 3. -/
theorem Load_jump_depth_not_three :
    (Load Yaml.new jumpText).bind (Metadata.depthOf "a".toList) = some 1 ∧
      (Load Yaml.new jumpText).bind (Metadata.depthOf "b".toList) ≠ some 3 := by
  decide!

/-- C7, amended: when a line of indentation `L` is followed by a line of indentation `L + 4`,
the Section of the jumped line lies exactly one level deeper than the Section of the line
before: the Section of the line before is the last child of `currentSection`, the filler is
appended to that same `currentSection` (as the next sibling, with indentation `L`), and the
jumped line is the only child of the filler. For `a:` followed by `b: 1` indented by four
spaces, `a` is at depth 1 and `b` at depth 2, under an anonymous node that is a sibling of
`a`. -/
theorem Load_jump_depth (s s1 : LoadState) (previous linebuf : Str)
    (hprevious : previous ≠ ['-', '-', '-'] ∧ (scanLine previous 0).2 = false)
    (hstep : s.step previous = some s1)
    (hline : linebuf ≠ ['-', '-', '-'] ∧ (scanLine linebuf 0).2 = false)
    (hjump : (scanLine linebuf 0).1 = (scanLine previous 0).1 + 4) :
    (∃ s2, s1.step linebuf = some s2 ∧
        s1.current.children.getLast? =
          some (Section.mk (String.Trim previous) (scanLine previous 0).1 []) ∧
        s2.parents = s1.current :: s1.parents ∧
        s2.current = ⟨[], (scanLine previous 0).1,
          [Section.mk (String.Trim linebuf) (scanLine linebuf 0).1 []]⟩) ∧
      Load Yaml.new jumpText = some jumpDecoded ∧
      Metadata.depthOf "a".toList jumpDecoded = some 1 ∧
      Metadata.depthOf "b".toList jumpDecoded = some 2 := by
  refine ⟨?_, by rfl, by decide, by decide⟩
  obtain ⟨hlast, hchild⟩ := step_content s s1 previous hprevious.1 hprevious.2 hstep
  have hj : (scanLine linebuf 0).1 = s1.lastIndentation + 4 := by rw [hlast]; exact hjump
  have h := (Load_jump_one_filler_aux s1 linebuf hline.1 hline.2 hj)
  refine ⟨_, h, hchild, rfl, ?_⟩
  rw [hlast, hjump]

theorem Load_jump_depth_witness :
    ((LoadState.mk ⟨[], 0, [Section.mk "a:".toList 0 []]⟩ [] 0).step "    b: 1".toList).map
        (fun s2 => (s2.parents, s2.current)) =
      some ([⟨[], 0, [Section.mk "a:".toList 0 []]⟩], ⟨[], 0, [Section.mk "b: 1".toList 4 []]⟩) :=
  (Load_jump_depth LoadState.init ⟨⟨[], 0, [Section.mk "a:".toList 0 []]⟩, [], 0⟩
    "a:".toList "    b: 1".toList ⟨by decide, by decide⟩ (by rfl) ⟨by decide, by decide⟩
    (by decide)).1.elim fun s2 h2 => by
      rw [h2.1, Option.map_some', h2.2.2.1, h2.2.2.2]; rfl

/-! ## Facts about the string helpers -/

theorem Trim_eq (s : Str) :
    String.Trim s = (s.dropWhile String.isWhitespace).rdropWhile String.isWhitespace := rfl

theorem rdropWhile_cons_of_neg (p : Char → Bool) (c : Char) (h : p c = false) (r : Str) :
    (c :: r).rdropWhile p = c :: r.rdropWhile p := by
  induction r using List.reverseRecOn with
  | nil => simp [List.rdropWhile_singleton, h]
  | append_singleton r x ih =>
    rw [← List.cons_append]
    by_cases hx : p x = true
    · rw [List.rdropWhile_concat_pos _ _ _ hx, List.rdropWhile_concat_pos _ _ _ hx, ih]
    · rw [List.rdropWhile_concat_neg _ _ _ hx, List.rdropWhile_concat_neg _ _ _ hx]
      rfl

theorem dropWhile_head_false (p : Char → Bool) (s : Str) (c : Char) (r : Str)
    (h : s.dropWhile p = c :: r) : p c = false := by
  induction s with
  | nil => simp at h
  | cons x xs ih =>
    by_cases hx : p x = true
    · rw [List.dropWhile_cons_of_pos hx] at h
      exact ih h
    · rw [List.dropWhile_cons_of_neg hx] at h
      simp only [List.cons.injEq] at h
      rw [← h.1]
      simpa using hx

theorem Trim_cons (c : Char) (r : Str) (h : String.isWhitespace c = false) :
    String.Trim (c :: r) = c :: r.rdropWhile String.isWhitespace := by
  rw [Trim_eq, List.dropWhile_cons_of_neg (by simp [h]), rdropWhile_cons_of_neg _ _ h]

theorem Trim_nil : String.Trim [] = [] := rfl

theorem Trim_Trim (s : Str) : String.Trim (String.Trim s) = String.Trim s := by
  cases hd : s.dropWhile String.isWhitespace with
  | nil =>
    have : String.Trim s = [] := by rw [Trim_eq, hd]; rfl
    rw [this]; rfl
  | cons c r =>
    have hc := dropWhile_head_false _ s c r hd
    have : String.Trim s = c :: r.rdropWhile String.isWhitespace := by
      rw [Trim_eq, hd, rdropWhile_cons_of_neg _ _ hc]
    rw [this, Trim_cons _ _ hc, List.rdropWhile_idempotent]

theorem mem_of_mem_Trim (s : Str) (x : Char) (h : x ∈ String.Trim s) : x ∈ s := by
  rw [Trim_eq] at h
  exact (List.dropWhile_suffix _).subset ((List.rdropWhile_prefix _ _).subset h)

theorem dropWhile_dropWhile_of_imp (p q : Char → Bool) (hpq : ∀ c, p c = true → q c = true)
    (l : Str) : (l.dropWhile p).dropWhile q = l.dropWhile q := by
  induction l with
  | nil => rfl
  | cons x xs ih =>
    by_cases hx : p x = true
    · rw [List.dropWhile_cons_of_pos hx, List.dropWhile_cons_of_pos (hpq x hx), ih]
    · rw [List.dropWhile_cons_of_neg hx]

theorem Trim_dropWhile_space (l : Str) :
    String.Trim (l.dropWhile (fun c => c == ' ')) = String.Trim l := by
  rw [Trim_eq, Trim_eq, dropWhile_dropWhile_of_imp]
  intro c hc
  have : c = ' ' := by simpa using hc
  subst this
  rfl

theorem takeWhile_eq_self_of_not_mem (t : Str) (h : ':' ∉ t) :
    t.takeWhile (fun c => c != ':') = t := by
  rw [List.takeWhile_eq_self_iff]
  intro x hx
  have : x ≠ ':' := fun e => h (e ▸ hx)
  simpa using this

theorem StartsWith_append (a b : Str) : String.StartsWith (a ++ b) a = true := by
  induction a with
  | nil => cases b <;> rfl
  | cons x xs ih => simp [String.StartsWith, ih]

theorem ReplaceFirst_initial (a b : Str) : String.ReplaceFirst (a ++ b) a [] = b := by
  cases hab : a ++ b with
  | nil =>
    have ha : a = [] := (List.append_eq_nil.mp hab).1
    have hb : b = [] := (List.append_eq_nil.mp hab).2
    subst ha; subst hb; rfl
  | cons c cs =>
    unfold String.ReplaceFirst
    rw [← hab, if_pos (StartsWith_append a b)]
    simp

/-! ## Scanning a line -/

theorem scanLine_spaces (l : Str) : ∀ n, n < U32 →
    scanLine l n =
      scanLine (l.dropWhile (fun c => c == ' ')) ((n + (l.takeWhile (fun c => c == ' ')).length) % U32) := by
  induction l with
  | nil => intro n hn; simp [Nat.mod_eq_of_lt hn]
  | cons c cs ih =>
    intro n hn
    by_cases hc : c = ' '
    · subst hc
      rw [List.dropWhile_cons_of_pos (by rfl), List.takeWhile_cons_of_pos (by rfl)]
      conv_lhs => unfold scanLine
      rw [if_pos rfl, ih _ (Nat.mod_lt _ U32_pos)]
      congr 1
      simp only [List.length_cons]
      rw [Nat.mod_add_mod]
      congr 1
      omega
    · have hc2 : ¬ ((c == ' ') = true) := by simpa using hc
      rw [List.dropWhile_cons_of_neg (p := fun c => c == ' ') hc2,
        List.takeWhile_cons_of_neg (p := fun c => c == ' ') hc2]
      simp [Nat.mod_eq_of_lt hn]

theorem scanLine_plain (l : Str) (n : Nat)
    (h : ∀ c, l.head? = some c → c ≠ ' ' ∧ c ≠ '-' ∧ c ≠ '#') : scanLine l n = (n, false) := by
  cases l with
  | nil => rfl
  | cons c cs =>
    obtain ⟨h1, h2, h3⟩ := h c rfl
    simp [scanLine, h1, h2, h3]

/-- The line is not a comment and its first character other than a space is not a dash, when
the trimmed line does not begin with `#` or `-`: the indentation is the number of leading
spaces. -/
theorem scanLine_of_Trim_head (l : Str)
    (hhash : (String.Trim l).head? ≠ some '#') (hdash : (String.Trim l).head? ≠ some '-') :
    scanLine l 0 = ((l.takeWhile (fun c => c == ' ')).length % U32, false) := by
  rw [scanLine_spaces l 0 U32_pos, Nat.zero_add]
  apply scanLine_plain
  intro c hc
  cases hd : l.dropWhile (fun c => c == ' ') with
  | nil => rw [hd] at hc; simp at hc
  | cons x r =>
    rw [hd] at hc
    simp only [List.head?_cons, Option.some.injEq] at hc
    subst hc
    have hsp : x ≠ ' ' := by
      have := dropWhile_head_false _ l x r hd
      simpa using this
    refine ⟨hsp, ?_, ?_⟩
    · intro e
      subst e
      apply hdash
      rw [← Trim_dropWhile_space, hd, Trim_cons _ _ (by rfl)]
      rfl
    · intro e
      subst e
      apply hhash
      rw [← Trim_dropWhile_space, hd, Trim_cons _ _ (by rfl)]
      rfl

/-! ## Reading lines -/

theorem readLinesAux_append (l : Str) (h : '\n' ∉ l) : ∀ (cur rest : Str),
    readLinesAux cur (l ++ rest) = readLinesAux (l.reverse ++ cur) rest := by
  induction l with
  | nil => intro cur rest; rfl
  | cons c cs ih =>
    intro cur rest
    have hc : c ≠ '\n' := fun e => h (e ▸ List.mem_cons_self _ _)
    have hcs : '\n' ∉ cs := fun e => h (List.mem_cons_of_mem _ e)
    rw [List.cons_append, readLinesAux, if_neg hc, ih hcs]
    simp

theorem readLines_cons_line (l rest : Str) (h : '\n' ∉ l) :
    readLines (l ++ '\n' :: rest) = l :: readLines rest := by
  unfold readLines
  rw [readLinesAux_append l h, readLinesAux]
  simp

theorem readLines_last_line (l : Str) (h : '\n' ∉ l) (hne : l ≠ []) : readLines l = [l] := by
  unfold readLines
  have := readLinesAux_append l h [] []
  rw [List.append_nil] at this
  rw [this, readLinesAux]
  simp [hne]

/-! ## A line without separator -/

theorem step_of_scan (s : LoadState) (l : Str) (k : Nat) (hmarker : l ≠ ['-', '-', '-'])
    (hscan : scanLine l 0 = (k, false)) :
    s.step l = (s.adjust k).map fun s2 =>
      { s2.append (Section.mk (String.Trim l) k []) with lastIndentation := k } := by
  unfold LoadState.step
  rw [if_neg hmarker, hscan]
  rfl

theorem Convert_plain (t : Str) (i : Nat) (parent : Metadata) (hne : t ≠ [])
    (hcolon : ':' ∉ t) (htrim : String.Trim t = t) (hhead : t.head? ≠ some '_') :
    Convert (Section.mk t i []) parent false = parent.AddChild (Metadata.mk t [] [] []) := by
  have hrep : String.ReplaceFirst t t [] = [] := by
    simpa using ReplaceFirst_initial t []
  have hsw : String.StartsWith t ['_'] = false := by
    cases t with
    | nil => exact absurd rfl hne
    | cons c cs =>
      have : c ≠ '_' := by simpa using hhead
      simp [String.StartsWith, this]
  rw [Convert]
  simp only [takeWhile_eq_self_of_not_mem t hcolon, htrim, hrep, Trim_nil, List.drop_nil, hsw,
    Bool.false_eq_true, if_false, ConvertChildren]

theorem adjust_init_zero :
    LoadState.adjust (0 % U32) LoadState.init = some LoadState.init ∧
      LoadState.adjust (3 % U32) LoadState.init = some LoadState.init := by
  constructor <;> rfl

/-- C9, as stated, fails: for the one-line input `justtext` indented by four spaces, the child
of the root is a filler node whose name is empty. -/
theorem Load_malformed_indented :
    Load Yaml.new "    justtext".toList =
      some (Metadata.mk [] [] [Metadata.mk [] [] [Metadata.mk "justtext".toList [] [] []] []] []) := by
  rfl

/-- C9, amended: for a one-line input whose line has no colon, begins with no space or with
exactly three spaces, and whose trimmed text is non-empty and does not begin with `_`, `#` or
`-`, `Yaml::Load` returns a root with exactly one child, whose name is the whole trimmed line
and whose value is empty, with no attribute anywhere; the line may or may not end with a line
feed. -/
theorem Load_malformed_line (self : Metadata)
    (hself : self.GetName = [] ∧ self.GetValue = []) (line : Str)
    (hcolon : ':' ∉ line) (hfeed : '\n' ∉ line) (hne : String.Trim line ≠ [])
    (hhead : (String.Trim line).head? ≠ some '_' ∧ (String.Trim line).head? ≠ some '#' ∧
      (String.Trim line).head? ≠ some '-')
    (hindent : (line.takeWhile (fun c => c == ' ')).length = 0 ∨
      (line.takeWhile (fun c => c == ' ')).length = 3) :
    Load self line = some (Metadata.mk [] [] [Metadata.mk (String.Trim line) [] [] []] []) ∧
      Load self (line ++ ['\n']) =
        some (Metadata.mk [] [] [Metadata.mk (String.Trim line) [] [] []] []) := by
  have hline : line ≠ [] := fun e => hne (by rw [e]; rfl)
  have hmarker : line ≠ ['-', '-', '-'] := fun e => hhead.2.2 (by rw [e]; rfl)
  have hscan := scanLine_of_Trim_head line hhead.2.1 hhead.2.2
  have hconv := Convert_plain (String.Trim line) ((line.takeWhile (fun c => c == ' ')).length % U32)
    Yaml.new hne (fun h => hcolon (mem_of_mem_Trim _ _ h)) (Trim_Trim line) hhead.1
  have key : LoadLines self [line] =
      some (Metadata.mk [] [] [Metadata.mk (String.Trim line) [] [] []] []) := by
    rw [LoadLines_of_yaml self hself.1 hself.2]
    have hadj : LoadState.adjust ((line.takeWhile (fun c => c == ' ')).length % U32)
        LoadState.init = some LoadState.init := by
      rcases hindent with h | h
      · rw [h, adjust_init_zero.1]
      · rw [h, adjust_init_zero.2]
    have hrun : LoadState.init.run [line] =
        some ⟨⟨[], 0, [Section.mk (String.Trim line)
          ((line.takeWhile (fun c => c == ' ')).length % U32) []]⟩, [],
          (line.takeWhile (fun c => c == ' ')).length % U32⟩ := by
      rw [LoadState.run, step_of_scan _ _ _ hmarker hscan, hadj]
      rfl
    generalize (line.takeWhile (fun c => c == ' ')).length % U32 = k at hrun hconv
    unfold LoadLines
    rw [hrun, Option.map_some']
    apply congrArg some
    have hc : Yaml.new.ClearChildren.ClearAttributes = Yaml.new := rfl
    have htop : LoadState.top [] ⟨[], 0, [Section.mk (String.Trim line) k []]⟩ =
        Section.mk [] 0 [Section.mk (String.Trim line) k []] := rfl
    have hroot : ∀ cs : List Section,
        Convert (Section.mk [] 0 cs) Yaml.new true = ConvertChildren cs Yaml.new := by
      intro cs; rw [Convert]; rfl
    rw [hc, htop, hroot, ConvertChildren, ConvertChildren, hconv]
    rfl
  constructor
  · unfold Load
    rw [readLines_last_line line hfeed hline, key]
  · unfold Load
    have := readLines_cons_line line [] hfeed
    rw [this]
    exact key

theorem Load_malformed_line_witness :
    Load Yaml.new "justtext".toList =
      some (Metadata.mk [] [] [Metadata.mk (String.Trim "justtext".toList) [] [] []] []) :=
  (Load_malformed_line Yaml.new ⟨rfl, rfl⟩ "justtext".toList (by decide) (by decide) (by decide)
    ⟨by decide, by decide, by decide⟩ (Or.inl (by decide))).1

/-! ## Conversion of the Sections of a keyed tree -/

theorem Trim_eq_self_head (s : Str) (h : String.Trim s = s) (c : Char) (r : Str)
    (hs : s = c :: r) : String.isWhitespace c = false := by
  subst hs
  by_contra hc
  have hc : String.isWhitespace c = true := by simpa using hc
  have hlen : (String.Trim (c :: r)).length ≤ r.length := by
    rw [Trim_eq, List.dropWhile_cons_of_pos hc]
    exact ((List.rdropWhile_prefix _ _).length_le).trans (List.dropWhile_suffix _).length_le
  rw [h] at hlen
  simp at hlen

theorem Trim_eq_self_last (s : Str) (h : String.Trim s = s) (hne : s ≠ []) :
    ∃ r d, s = r ++ [d] ∧ String.isWhitespace d = false := by
  have h2 : (s.dropWhile String.isWhitespace).rdropWhile String.isWhitespace ≠ [] := by
    rw [← Trim_eq, h]; exact hne
  have h3 := List.rdropWhile_last_not String.isWhitespace _ h2
  refine ⟨s.dropLast, s.getLast hne, (List.dropLast_append_getLast hne).symm, ?_⟩
  have : ((s.dropWhile String.isWhitespace).rdropWhile String.isWhitespace).getLast h2
      = s.getLast hne := by
    congr 1
  rw [this] at h3
  simpa using h3

theorem Trim_whitespace_append (w s : Str) (hw : ∀ c ∈ w, String.isWhitespace c = true) :
    String.Trim (w ++ s) = String.Trim s := by
  rw [Trim_eq, Trim_eq, List.dropWhile_append]
  have : w.dropWhile String.isWhitespace = [] := by
    rw [List.dropWhile_eq_nil_iff]; exact hw
  simp [this]

theorem Trim_of_ends (c d : Char) (m : Str) (hc : String.isWhitespace c = false)
    (hd : String.isWhitespace d = false) : String.Trim (c :: (m ++ [d])) = c :: (m ++ [d]) := by
  rw [Trim_cons _ _ hc, List.rdropWhile_concat_neg _ _ _ (by simp [hd])]

theorem indents_spaces (c : Nat) : ∀ x ∈ indents c, x = ' ' := by
  induction c with
  | zero => intro x hx; simp [indents] at hx
  | succ n ih =>
    intro x hx
    simp only [indents, List.mem_append, List.mem_cons, List.mem_singleton] at hx
    rcases hx with hx | hx | hx | hx
    · exact ih x hx
    · exact hx
    · exact hx
    · simp at hx

theorem indents_whitespace (c : Nat) : ∀ x ∈ indents c, String.isWhitespace x = true := by
  intro x hx
  rw [indents_spaces c x hx]
  rfl

/-- The trimmed content of an entry line `name: value`. -/
theorem Trim_entry (w name value : Str) (hw : ∀ c ∈ w, String.isWhitespace c = true)
    (hne : name ≠ []) (hname : String.Trim name = name) (hvalue : String.Trim value = value) :
    String.Trim (w ++ (name ++ [':', ' '] ++ value)) =
      name ++ ':' :: (if value = [] then [] else ' ' :: value) := by
  rw [Trim_whitespace_append w _ hw]
  cases hn : name with
  | nil => exact absurd hn hne
  | cons c r =>
    have hc := Trim_eq_self_head name hname c r hn
    by_cases hv : value = []
    · subst hv
      rw [if_pos rfl, List.append_nil]
      have : c :: r ++ [':', ' '] = c :: ((r ++ [':']) ++ [' ']) := by simp
      rw [this, Trim_cons _ _ hc, List.rdropWhile_concat_pos _ _ _ (by rfl),
        List.rdropWhile_concat_neg _ _ _ (by decide)]
      simp
    · rw [if_neg hv]
      obtain ⟨v, d, hvd, hd⟩ := Trim_eq_self_last value hvalue hv
      have : c :: r ++ [':', ' '] ++ value = c :: ((r ++ [':', ' '] ++ v) ++ [d]) := by
        rw [hvd]; simp
      rw [this, Trim_of_ends _ _ _ hc hd, hvd]
      simp

theorem takeWhile_name (name tail : Str) (h : ':' ∉ name) :
    (name ++ ':' :: tail).takeWhile (fun c => c != ':') = name := by
  induction name with
  | nil => simp
  | cons x xs ih =>
    have hx : x ≠ ':' := fun e => h (e ▸ List.mem_cons_self _ _)
    have hxs : ':' ∉ xs := fun e => h (List.mem_cons_of_mem _ e)
    rw [List.cons_append, List.takeWhile_cons_of_pos (by simpa using hx), ih hxs]

/-- The name and the value that `Yaml::Convert` computes from the content of an entry line. -/
theorem Convert_split (w name value : Str) (hw : ∀ c ∈ w, String.isWhitespace c = true)
    (hne : name ≠ []) (hcolon : ':' ∉ name) (hname : String.Trim name = name)
    (hvalue : String.Trim value = value) :
    String.Trim ((String.Trim (w ++ (name ++ [':', ' '] ++ value))).takeWhile
        (fun c => c != ':')) = name ∧
      String.Trim ((String.Trim (String.ReplaceFirst
        (String.Trim (w ++ (name ++ [':', ' '] ++ value))) name [])).drop 1) = value := by
  rw [Trim_entry w name value hw hne hname hvalue, takeWhile_name name _ hcolon,
    ReplaceFirst_initial]
  refine ⟨hname, ?_⟩
  by_cases hv : value = []
  · subst hv
    rfl
  · rw [if_neg hv]
    obtain ⟨v, d, hvd, hd⟩ := Trim_eq_self_last value hvalue hv
    have : ':' :: ' ' :: value = ':' :: (([' '] ++ v) ++ [d]) := by rw [hvd]; simp
    rw [this, Trim_of_ends _ _ _ (by rfl) hd, ← this]
    simp only [List.drop_succ_cons, List.drop_zero]
    have h2 := Trim_whitespace_append [' '] value (by intro c hc; simp at hc; subst hc; rfl)
    simpa [hvalue] using h2

theorem Convert_entry (w name value : Str) (hw : ∀ c ∈ w, String.isWhitespace c = true)
    (hne : name ≠ []) (hcolon : ':' ∉ name) (hname : String.Trim name = name)
    (hvalue : String.Trim value = value) (i : Nat) (cs : List Section) (parent : Metadata)
    (isTopSection : Bool) :
    Convert (Section.mk (String.Trim (w ++ (name ++ [':', ' '] ++ value))) i cs) parent
        isTopSection =
      if String.StartsWith name ['_'] then parent.AddAttribute (name.drop 1) value
      else if isTopSection then ConvertChildren cs parent
      else parent.AddChild (ConvertChildren cs (Metadata.mk name value [] [])) := by
  obtain ⟨h1, h2⟩ := Convert_split w name value hw hne hcolon hname hvalue
  rw [Convert, h1, h2]

theorem ConvertChildren_append (a b : List Section) : ∀ m : Metadata,
    ConvertChildren (a ++ b) m = ConvertChildren b (ConvertChildren a m) := by
  induction a with
  | nil => intro m; rw [List.nil_append, ConvertChildren]
  | cons x xs ih => intro m; rw [List.cons_append, ConvertChildren, ConvertChildren, ih]

theorem setAttribute_new (k v : Str) (l : List (Str × Str)) (h : k ∉ l.map Prod.fst) :
    Metadata.setAttribute k v l = l ++ [(k, v)] := by
  induction l with
  | nil => rfl
  | cons x xs ih =>
    obtain ⟨k0, v0⟩ := x
    simp only [List.map_cons, List.mem_cons, not_or] at h
    rw [Metadata.setAttribute, if_neg (fun e => h.1 e.symm), ih h.2]
    rfl

theorem Trim_underscore_key (k : Str) (hk : String.Trim k = k) :
    String.Trim ('_' :: k) = '_' :: k := by
  by_cases hne : k = []
  · subst hne; rfl
  · obtain ⟨r, d, hrd, hd⟩ := Trim_eq_self_last k hk hne
    rw [hrd, Trim_of_ends _ _ _ (by rfl) hd]

theorem clean_attributes_cons (k v : Str) (rest : List (Str × Str))
    (h : cleanAttributes ((k, v) :: rest) = true) :
    (':' ∉ k ∧ '\n' ∉ k ∧ String.Trim ('_' :: k) = '_' :: k) ∧
      ('\n' ∉ v ∧ String.Trim v = v) ∧
      k ∉ rest.map Prod.fst ∧ cleanAttributes rest = true := by
  simp only [cleanAttributes, List.map_cons, List.nodup_cons, List.all_cons, Bool.and_eq_true,
    decide_eq_true_eq, cleanKey, cleanValue] at h
  refine ⟨h.2.1.1, h.2.1.2, h.1.1, ?_⟩
  simp only [cleanAttributes, Bool.and_eq_true, decide_eq_true_eq, cleanKey, cleanValue]
  exact ⟨h.1.2, h.2.2⟩

theorem attribute_line_eq (c : Nat) (k v : Str) :
    indents c ++ [' ', ' ', '_'] ++ (k ++ [':', ' ']) ++ v =
      indents (c + 1) ++ (('_' :: k) ++ [':', ' '] ++ v) := by
  simp [indents]

theorem Convert_attribute (c i : Nat) (k v : Str) (parent : Metadata)
    (hk : ':' ∉ k ∧ '\n' ∉ k ∧ String.Trim ('_' :: k) = '_' :: k) (hv : String.Trim v = v) :
    Convert (Section.mk (String.Trim (indents c ++ [' ', ' ', '_'] ++ (k ++ [':', ' ']) ++ v)) i [])
      parent false = parent.AddAttribute k v := by
  rw [attribute_line_eq, Convert_entry _ ('_' :: k) v (indents_whitespace _) (by simp)
    (by
      intro h
      rcases List.mem_cons.mp h with h | h
      · exact absurd h (by decide)
      · exact hk.1 h)
    hk.2.2 hv]
  simp [String.StartsWith]

theorem ConvertChildren_attributes (c : Nat) (n v : Str) (ch : List Metadata) :
    ∀ (attributes before : List (Str × Str)), cleanAttributes attributes = true →
      (∀ kv ∈ attributes, kv.1 ∉ before.map Prod.fst) →
      ConvertChildren (attributeSections c attributes) (Metadata.mk n v ch before) =
        Metadata.mk n v ch (before ++ attributes) := by
  intro attributes
  induction attributes with
  | nil => intro before _ _; simp [attributeSections, attributeLines, ConvertChildren]
  | cons kv rest ih =>
    intro before hclean hnew
    obtain ⟨k, w⟩ := kv
    obtain ⟨hk, hv, hnot, hrest⟩ := clean_attributes_cons k w rest hclean
    have h1 : attributeSections c ((k, w) :: rest) =
        Section.mk (String.Trim (indents c ++ [' ', ' ', '_'] ++ (k ++ [':', ' ']) ++ w))
          (2 * (c + 1)) [] :: attributeSections c rest := rfl
    rw [h1, ConvertChildren, Convert_attribute c _ k w _ hk hv.2]
    have hk0 : k ∉ before.map Prod.fst := hnew (k, w) (List.mem_cons_self _ _)
    rw [Metadata.AddAttribute, setAttribute_new k w before hk0, ih (before ++ [(k, w)]) hrest]
    · simp
    · intro kv hkv hmem
      simp only [List.map_append, List.map_cons, List.map_nil, List.mem_append,
        List.mem_singleton] at hmem
      rcases hmem with hmem | hmem
      · exact hnew kv (List.mem_cons_of_mem _ hkv) hmem
      · exact hnot (hmem ▸ List.mem_map_of_mem Prod.fst hkv)

mutual
theorem Convert_keyedSection : ∀ (n : Metadata) (c : Nat) (parent : Metadata),
    n.clean = true → Convert (keyedSection c n) parent false = parent.AddChild n
  | Metadata.mk name value children attributes, c, parent, h => by
    simp only [Metadata.clean, Bool.and_eq_true, cleanName, cleanValue, decide_eq_true_eq] at h
    obtain ⟨⟨⟨hn, hv⟩, ha⟩, hc⟩ := h
    have hsw : String.StartsWith name ['_'] = false := by
      cases name with
      | nil => exact absurd rfl hn.1
      | cons x xs =>
        have : x ≠ '_' := by simpa using hn.2.2.2.2.1
        simp [String.StartsWith, this]
    rw [keyedSection, Convert_entry _ name value (indents_whitespace c) hn.1 hn.2.1 hn.2.2.2.1
      hv.2, hsw]
    simp only [Bool.false_eq_true, if_false]
    rw [ConvertChildren_append, ConvertChildren_attributes c name value [] attributes [] ha
      (by simp), ConvertChildren_keyedSectionList children (c + 1) _ hc]
    rfl
theorem ConvertChildren_keyedSectionList : ∀ (ns : List Metadata) (c : Nat) (m : Metadata),
    Metadata.cleanList ns = true →
      ConvertChildren (keyedSectionList c ns) m = m.AddChildren ns
  | [], c, Metadata.mk n v ch a, _ => by
    rw [keyedSectionList, ConvertChildren, Metadata.AddChildren, List.append_nil]
  | x :: xs, c, Metadata.mk n v ch a, h => by
    simp only [Metadata.cleanList, Bool.and_eq_true] at h
    rw [keyedSectionList, ConvertChildren, Convert_keyedSection x c _ h.1, Metadata.AddChild,
      ConvertChildren_keyedSectionList xs c _ h.2, Metadata.AddChildren, Metadata.AddChildren]
    simp
end

/-! ## The cursor of `Yaml::Load` on aligned indentation -/

theorem sub32_of_le (a b : Nat) (hb : b ≤ a) (ha : a < U32) : sub32 a b = a - b := by
  unfold sub32
  have : a + U32 - b = (a - b) + U32 := by omega
  rw [this, Nat.add_mod_right, Nat.mod_eq_of_lt (by omega)]

theorem sub32_ne_two_of_lt (a b : Nat) (hab : a < b) (hb : b + 2 < U32) : sub32 a b ≠ 2 := by
  unfold sub32
  rw [Nat.mod_eq_of_lt (by omega)]
  omega

theorem toSection_ofSection (sec : Section) : (Frame.ofSection sec).toSection = sec := by
  cases sec; rfl

theorem ascend_mk (n : Nat) : ∀ (f : Frame) (par : List Frame) (l : Nat),
    LoadState.ascend n ⟨f, par, l⟩ =
      ⟨(LoadState.ascend n ⟨f, par, 0⟩).current, (LoadState.ascend n ⟨f, par, 0⟩).parents, l⟩ := by
  induction n with
  | zero => intro f par l; rfl
  | succ k ih =>
    intro f par l
    cases par with
    | nil =>
      have h1 : ∀ l, LoadState.ascend (k + 1) ⟨f, [], l⟩ = LoadState.ascend k ⟨f, [], l⟩ := by
        intro l; rfl
      rw [h1, h1, ih]
    | cons p rest =>
      have h1 : ∀ l, LoadState.ascend (k + 1) ⟨f, p :: rest, l⟩ =
          LoadState.ascend k ⟨p.add [f.toSection], rest, l⟩ := by
        intro l; rfl
      rw [h1, h1, ih]

theorem adjust_same (cur : Frame) (par : List Frame) (k : Nat) :
    LoadState.adjust k ⟨cur, par, k⟩ = some ⟨cur, par, k⟩ := by
  unfold LoadState.adjust
  simp only [Nat.lt_irrefl, if_false, gt_iff_lt, sub32_self]
  rfl

theorem adjust_lower (cur : Frame) (par : List Frame) (m c : Nat) (hm : m < c)
    (hc : 2 * c + 2 < U32) :
    LoadState.adjust (2 * m) ⟨cur, par, 2 * c⟩ =
      some (LoadState.ascend (c - m) ⟨cur, par, 2 * c⟩) := by
  unfold LoadState.adjust
  have h1 : 2 * m < 2 * c := by omega
  have h2 : sub32 (2 * c) (2 * m) / 2 = c - m := by
    rw [sub32_of_le _ _ (by omega) (by omega)]; omega
  have h3 : sub32 (2 * m) (2 * c) ≠ 2 := sub32_ne_two_of_lt _ _ h1 hc
  simp only [h1, if_true, h2, h3, if_false]

theorem adjust_upto (cur : Frame) (par : List Frame) (m c : Nat) (hm : m ≤ c)
    (hc : 2 * c + 2 < U32) :
    LoadState.adjust (2 * m) ⟨cur, par, 2 * c⟩ =
      some (LoadState.ascend (c - m) ⟨cur, par, 2 * c⟩) := by
  rcases Nat.lt_or_ge m c with h | h
  · exact adjust_lower cur par m c h hc
  · have : m = c := by omega
    subst this
    rw [adjust_same, Nat.sub_self]
    rfl

theorem adjust_deeper (f : Frame) (sec : Section) (par : List Frame) (c : Nat) :
    LoadState.adjust (2 * (c + 1)) ⟨f.add [sec], par, 2 * c⟩ =
      some ⟨Frame.ofSection sec, f :: par, 2 * c⟩ := by
  unfold LoadState.adjust
  have h1 : ¬ (2 * (c + 1) < 2 * c) := by omega
  have h2 : 2 * (c + 1) > 2 * c := by omega
  have h3 : sub32 (2 * (c + 1)) (2 * c) = 2 := by
    have := sub32_add_left (2 * c) 2 (by decide)
    rwa [show 2 * c + 2 = 2 * (c + 1) by omega] at this
  have h4 : sub32 (2 / 2) 1 = 0 := by decide
  have h5 : (f.add [sec]).children.getLast? = some sec := by
    simp [Frame.add]
  have h6 : (f.add [sec]).children.dropLast = f.children := by
    simp [Frame.add]
  show (if sub32 (2 * (c + 1)) (2 * c) = 2 then
      LoadState.descend (if 2 * (c + 1) < 2 * c then _ else
        if 2 * (c + 1) > 2 * c then
          LoadState.addFillers (sub32 (sub32 (2 * (c + 1)) (2 * c) / 2) 1) 0
            (LoadState.mk (f.add [sec]) par (2 * c))
        else _)
    else _) = _
  rw [if_pos h3, if_neg h1, if_pos h2, h3, h4, LoadState.addFillers, LoadState.descend]
  simp only [h5, h6]
  cases f; rfl

theorem place_upto (cur : Frame) (par : List Frame) (m c l : Nat) (sec : Section) (hm : m ≤ c)
    (hc : 2 * c + 2 < U32) :
    LoadState.place (2 * m) sec ⟨cur, par, 2 * c⟩ =
      some ⟨((LoadState.ascend (c - m) ⟨cur, par, l⟩).current).add [sec],
        (LoadState.ascend (c - m) ⟨cur, par, l⟩).parents, 2 * m⟩ := by
  unfold LoadState.place
  rw [adjust_upto cur par m c hm hc, Option.map_some', ascend_mk (c - m) cur par (2 * c),
    ascend_mk (c - m) cur par l]
  rfl

theorem follows_self (cur : Frame) (par : List Frame) (c : Nat) (hlen : par.length = c) :
    LoadState.Follows ⟨cur, par, 2 * c⟩ c cur par :=
  ⟨hlen, rfl, fun _ _ _ => rfl⟩

theorem follows_descend (f : Frame) (sec : Section) (par : List Frame) (c : Nat)
    (hlen : par.length = c) (hc : 2 * c + 4 < U32) :
    LoadState.Follows ⟨f.add [sec], par, 2 * c⟩ (c + 1) (Frame.ofSection sec) (f :: par) := by
  refine ⟨by simp [hlen], ?_, ?_⟩
  · show LoadState.top par (f.add [sec]) =
      LoadState.top par (f.add [(Frame.ofSection sec).toSection])
    rw [toSection_ofSection]
  · intro m hm x
    rcases Nat.lt_or_ge m (c + 1) with h | h
    · rw [place_upto _ _ m c 0 x (by omega) (by omega),
        place_upto _ _ m (c + 1) 0 x (by omega) (by omega)]
      have h1 : c + 1 - m = (c - m) + 1 := by omega
      have h2 : LoadState.ascend ((c - m) + 1) ⟨Frame.ofSection sec, f :: par, 0⟩ =
          LoadState.ascend (c - m) ⟨f.add [(Frame.ofSection sec).toSection], par, 0⟩ := rfl
      rw [h1, h2, toSection_ofSection]
    · have : m = c + 1 := by omega
      subst this
      unfold LoadState.place
      rw [adjust_deeper, adjust_same]
      rfl

theorem follows_pop (s : LoadState) (c : Nat) (cur p : Frame) (par : List Frame)
    (h : s.Follows (c + 1) cur (p :: par)) (hc : 2 * c + 4 < U32) :
    s.Follows c (p.add [cur.toSection]) par := by
  obtain ⟨hlen, htop, hplace⟩ := h
  refine ⟨by simpa using hlen, htop, ?_⟩
  intro m hm x
  rw [hplace m (by omega) x, place_upto _ _ m (c + 1) 0 x (by omega) (by omega),
    place_upto _ _ m c 0 x hm (by omega)]
  have h1 : c + 1 - m = (c - m) + 1 := by omega
  rw [h1]
  rfl

theorem follows_step (s : LoadState) (c : Nat) (cur : Frame) (par : List Frame)
    (h : s.Follows c cur par) (l : Str) (hmarker : l ≠ ['-', '-', '-'])
    (hscan : scanLine l 0 = (2 * c, false)) :
    s.step l = some ⟨cur.add [Section.mk (String.Trim l) (2 * c) []], par, 2 * c⟩ := by
  rw [step_of_scan s l (2 * c) hmarker hscan]
  have := h.2.2 c (Nat.le_refl c) (Section.mk (String.Trim l) (2 * c) [])
  unfold LoadState.place at this
  rw [this, adjust_same]
  rfl

/-! ## Reading back the lines of a keyed tree -/

theorem indents_eq_replicate (c : Nat) : indents c = List.replicate (2 * c) ' ' := by
  induction c with
  | zero => rfl
  | succ n ih =>
    rw [indents, ih, show 2 * (n + 1) = 2 * n + 2 by omega, List.replicate_add]
    rfl

theorem scanLine_replicate (rest : Str) (k : Nat) : ∀ n, n < U32 →
    scanLine (List.replicate k ' ' ++ rest) n = scanLine rest ((n + k) % U32) := by
  induction k with
  | zero => intro n hn; simp [Nat.mod_eq_of_lt hn]
  | succ j ih =>
    intro n hn
    rw [List.replicate_succ, List.cons_append, scanLine, if_pos rfl,
      ih _ (Nat.mod_lt _ U32_pos), Nat.mod_add_mod]
    congr 2
    omega

theorem scanLine_indented (c : Nat) (rest : Str) (hc : 2 * c < U32)
    (hrest : ∀ x, rest.head? = some x → x ≠ ' ' ∧ x ≠ '-' ∧ x ≠ '#') :
    scanLine (indents c ++ rest) 0 = (2 * c, false) := by
  rw [indents_eq_replicate, scanLine_replicate rest (2 * c) 0 U32_pos, Nat.zero_add,
    Nat.mod_eq_of_lt hc]
  exact scanLine_plain rest _ hrest

theorem Frame.add_add (f : Frame) (a b : List Section) : (f.add a).add b = f.add (a ++ b) := by
  simp [Frame.add]

theorem Frame.add_nil (f : Frame) : f.add [] = f := by
  simp [Frame.add]

theorem run_attributes (c : Nat) (hc : 2 * (c + 1) + 2 < U32) :
    ∀ (attributes : List (Str × Str)) (s : LoadState) (cur : Frame) (par : List Frame),
      cleanAttributes attributes = true → s.Follows (c + 1) cur par →
      ∃ s1, LoadState.run (attributeLines c attributes) s = some s1 ∧
        s1.Follows (c + 1) (cur.add (attributeSections c attributes)) par := by
  intro attributes
  induction attributes with
  | nil =>
    intro s cur par _ h
    exact ⟨s, rfl, by simpa [attributeSections, attributeLines, Frame.add_nil] using h⟩
  | cons kv rest ih =>
    intro s cur par hclean h
    obtain ⟨k, v⟩ := kv
    obtain ⟨-, -, -, hrest⟩ := clean_attributes_cons k v rest hclean
    have hmarker : indents c ++ [' ', ' ', '_'] ++ (k ++ [':', ' ']) ++ v ≠ ['-', '-', '-'] := by
      intro e
      have : ':' ∈ indents c ++ [' ', ' ', '_'] ++ (k ++ [':', ' ']) ++ v := by simp
      rw [e] at this
      simp at this
    have hscan : scanLine (indents c ++ [' ', ' ', '_'] ++ (k ++ [':', ' ']) ++ v) 0 =
        (2 * (c + 1), false) := by
      rw [attribute_line_eq]
      apply scanLine_indented _ _ (by omega)
      intro x hx
      simp only [List.cons_append, List.head?_cons, Option.some.injEq] at hx
      subst hx
      decide
    have hstep := follows_step s (c + 1) cur par h _ hmarker hscan
    obtain ⟨s1, hrun, hfol⟩ := ih _ _ par hrest (follows_self
      (cur.add [Section.mk (String.Trim (indents c ++ [' ', ' ', '_'] ++ (k ++ [':', ' ']) ++ v))
        (2 * (c + 1)) []]) par (c + 1) h.1)
    refine ⟨s1, ?_, ?_⟩
    · rw [attributeLines, LoadState.run, hstep]
      exact hrun
    · rw [Frame.add_add] at hfol
      exact hfol

theorem clean_node (name value : Str) (children : List Metadata)
    (attributes : List (Str × Str))
    (h : (Metadata.mk name value children attributes).clean = true) :
    (name ≠ [] ∧ ':' ∉ name ∧ '\n' ∉ name ∧ String.Trim name = name ∧
      name.head? ≠ some '_' ∧ name.head? ≠ some '#' ∧ name.head? ≠ some '-') ∧
    ('\n' ∉ value ∧ String.Trim value = value) ∧ cleanAttributes attributes = true ∧
      Metadata.cleanList children = true := by
  simp only [Metadata.clean, Bool.and_eq_true, cleanName, cleanValue, decide_eq_true_eq] at h
  exact ⟨h.1.1.1, h.1.1.2, h.1.2, h.2⟩

theorem entry_line_head (name value : Str) (hne : name ≠ []) (htrim : String.Trim name = name)
    (hhash : name.head? ≠ some '#') (hdash : name.head? ≠ some '-') :
    ∀ x, (name ++ [':', ' '] ++ value).head? = some x → x ≠ ' ' ∧ x ≠ '-' ∧ x ≠ '#' := by
  intro x hx
  cases hn : name with
  | nil => exact absurd hn hne
  | cons y ys =>
    have hy := Trim_eq_self_head name htrim y ys hn
    rw [hn] at hx hhash hdash
    simp only [List.cons_append, List.head?_cons, Option.some.injEq] at hx
    simp only [List.head?_cons] at hhash hdash
    subst hx
    refine ⟨?_, fun e => hdash (by rw [e]), fun e => hhash (by rw [e])⟩
    intro e
    rw [e] at hy
    exact absurd hy (by decide)

mutual
theorem run_keyedLines : ∀ (n : Metadata) (c : Nat) (s : LoadState) (cur : Frame)
    (par : List Frame), n.clean = true → 2 * (c + n.height) + 2 < U32 → s.Follows c cur par →
    ∃ s1, LoadState.run (keyedLines c n) s = some s1 ∧
      s1.Follows c (cur.add [keyedSection c n]) par
  | Metadata.mk name value children attributes, c, s, cur, par, hclean, hheight, h => by
    obtain ⟨hn, -, ha, hch⟩ := clean_node name value children attributes hclean
    rw [Metadata.height] at hheight
    have hmarker : indents c ++ (name ++ [':', ' '] ++ value) ≠ ['-', '-', '-'] := by
      intro e
      have : ':' ∈ indents c ++ (name ++ [':', ' '] ++ value) := by simp
      rw [e] at this
      simp at this
    have hscan : scanLine (indents c ++ (name ++ [':', ' '] ++ value)) 0 = (2 * c, false) :=
      scanLine_indented c _ (by omega)
        (entry_line_head name value hn.1 hn.2.2.2.1 hn.2.2.2.2.2.1 hn.2.2.2.2.2.2)
    have hstep := follows_step s c cur par h _ hmarker hscan
    have hdesc := follows_descend cur
      (Section.mk (String.Trim (indents c ++ (name ++ [':', ' '] ++ value))) (2 * c) []) par c
      h.1 (by omega)
    obtain ⟨s2, hrun2, hfol2⟩ := run_attributes c (by omega) attributes _ _ _ ha hdesc
    obtain ⟨s3, hrun3, hfol3⟩ := run_keyedLinesList children (c + 1) s2 _ _ hch (by omega) hfol2
    refine ⟨s3, ?_, ?_⟩
    · rw [keyedLines, LoadState.run, hstep, Option.some_bind, run_append, hrun2]
      exact hrun3
    · have := follows_pop s3 c _ cur par hfol3 (by omega)
      rw [keyedSection]
      exact this
theorem run_keyedLinesList : ∀ (ns : List Metadata) (c : Nat) (s : LoadState) (cur : Frame)
    (par : List Frame), Metadata.cleanList ns = true →
    2 * (c + Metadata.heightList ns) + 2 < U32 → s.Follows c cur par →
    ∃ s1, LoadState.run (keyedLinesList c ns) s = some s1 ∧
      s1.Follows c (cur.add (keyedSectionList c ns)) par
  | [], c, s, cur, par, _, _, h => by
    refine ⟨s, rfl, ?_⟩
    rw [keyedSectionList, Frame.add_nil]
    exact h
  | x :: xs, c, s, cur, par, hclean, hheight, h => by
    simp only [Metadata.cleanList, Bool.and_eq_true] at hclean
    rw [Metadata.heightList] at hheight
    obtain ⟨s1, hrun1, hfol1⟩ := run_keyedLines x c s cur par hclean.1
      (by have := Nat.le_max_left x.height (Metadata.heightList xs); omega) h
    obtain ⟨s2, hrun2, hfol2⟩ := run_keyedLinesList xs c s1 _ par hclean.2
      (by have := Nat.le_max_right x.height (Metadata.heightList xs); omega) hfol1
    refine ⟨s2, ?_, ?_⟩
    · rw [keyedLinesList, run_append, hrun1]
      exact hrun2
    · rw [Frame.add_add] at hfol2
      exact hfol2
end

/-! ## Writing a keyed tree -/

theorem write_ofText (t s : Str) : (OStream.ofText t).write s = OStream.ofText (t ++ s) := by
  simp [OStream.write, OStream.ofText]

theorem unlines_append (a b : List Str) : unlines (a ++ b) = unlines a ++ unlines b := by
  induction a with
  | nil => rfl
  | cons x xs ih => simp [unlines, ih]

theorem writeAttributes_ofText (c : Nat) : ∀ (attributes : List (Str × Str)) (t : Str),
    writeAttributes (indents c) attributes (OStream.ofText t) =
      OStream.ofText (t ++ unlines (attributeLines c attributes)) := by
  intro attributes
  induction attributes with
  | nil => intro t; simp [writeAttributes, attributeLines, unlines]
  | cons kv rest ih =>
    intro t
    obtain ⟨k, v⟩ := kv
    rw [writeAttributes, write_ofText, ih, attributeLines, unlines]
    simp

theorem writeOwnLine_ofText (name value t : Str) (hne : name ≠ []) :
    writeOwnLine name value (OStream.ofText t) =
      OStream.ofText (t ++ (name ++ [':', ' '] ++ value ++ ['\n'])) := by
  unfold writeOwnLine
  have h1 : name.isEmpty = false := by
    cases name with
    | nil => exact absurd rfl hne
    | cons _ _ => rfl
  rw [h1]
  by_cases hv : value = []
  · subst hv
    simp [write_ofText]
  · have h2 : value.isEmpty = false := by
      cases value with
      | nil => exact absurd rfl hv
      | cons _ _ => rfl
    simp [h2, write_ofText]

theorem isEmpty_eq_false (s : Str) (h : s ≠ []) : s.isEmpty = false := by
  cases s with
  | nil => exact absurd rfl h
  | cons _ _ => rfl

theorem named_head (ns : List Metadata) (h : Metadata.namedList ns = true) (first : Metadata)
    (hf : ns.head? = some first) : first.GetName ≠ [] := by
  cases ns with
  | nil => simp at hf
  | cons x xs =>
    simp only [List.head?_cons, Option.some.injEq] at hf
    subst hf
    simp only [Metadata.namedList, Bool.and_eq_true] at h
    cases x with
    | mk n v c a =>
      have := h.1
      simp only [Metadata.named, Bool.and_eq_true, Bool.not_eq_true'] at this
      intro e
      simp only [Metadata.GetName] at e
      rw [e] at this
      simp at this

mutual
theorem AppendData_named : ∀ (n p : Metadata) (index : Nat) (t : Str) (c : Nat),
    n.named = true → Metadata.namedList p.GetChildren = true → p.GetChildren ≠ [] →
    (p.GetName = [] → c = 0) →
    AppendData n (some p) index (OStream.ofText t) c =
      some (OStream.ofText (t ++ unlines (keyedLines c n)))
  | Metadata.mk name value children attributes, p, index, t, c, hn, hp, hpne, hc => by
    simp only [Metadata.named, Bool.and_eq_true, Bool.not_eq_true'] at hn
    have hname : name ≠ [] := by
      intro e; rw [e] at hn; simp at hn
    obtain ⟨first, hfirst⟩ : ∃ first, p.GetChildren.head? = some first := by
      cases hch : p.GetChildren with
      | nil => exact absurd hch hpne
      | cons x xs => exact ⟨x, rfl⟩
    have hfn : first.GetName.isEmpty = false :=
      isEmpty_eq_false _ (named_head _ hp first hfirst)
    have ho1 : (if !(index == 0 && p.GetName.isEmpty && p.GetValue.isEmpty) then
        (OStream.ofText t).write (indents c) else OStream.ofText t) =
        OStream.ofText (t ++ indents c) := by
      split
      · exact write_ofText _ _
      · rename_i hcond
        have hpn : p.GetName = [] := by
          simp only [Bool.not_eq_true', Bool.not_eq_false, Bool.and_eq_true,
            List.isEmpty_iff] at hcond
          exact hcond.1.2
        rw [hc hpn]
        simp [indents]
    rw [AppendData]
    simp only [hfirst, ho1, hfn, Bool.and_false, Bool.false_eq_true, if_false,
      writeOwnLine_ofText name value _ hname, writeAttributes_ofText, isEmpty_eq_false name hname]
    by_cases hch : children = []
    · subst hch
      rw [AppendChildren, keyedLines, keyedLinesList]
      simp [unlines, unlines_append]
    · rw [AppendChildren_named children (Metadata.mk name value children attributes) 0 _ (c + 1)
        hn.2 hn.2 hch (fun e => absurd e hname), keyedLines]
      simp [unlines, unlines_append]
theorem AppendChildren_named : ∀ (ns : List Metadata) (p : Metadata) (index : Nat) (t : Str)
    (c : Nat), Metadata.namedList ns = true → Metadata.namedList p.GetChildren = true →
    p.GetChildren ≠ [] → (p.GetName = [] → c = 0) →
    AppendChildren ns p index (OStream.ofText t) c =
      some (OStream.ofText (t ++ unlines (keyedLinesList c ns)))
  | [], p, index, t, c, _, _, _, _ => by
    rw [AppendChildren, keyedLinesList]
    simp [unlines]
  | x :: xs, p, index, t, c, hn, hp, hpne, hc => by
    simp only [Metadata.namedList, Bool.and_eq_true] at hn
    rw [AppendChildren, AppendData_named x p index t c hn.1 hp hpne hc]
    simp only []
    rw [AppendChildren_named xs p (index + 1) _ c hn.2 hp hpne hc, keyedLinesList,
      unlines_append, List.append_assoc]
end

/-- The text that `Yaml::Write` produces for a root with empty name and value whose nodes
below all have a name: the marker line, the attribute lines of the root, the lines of the
nodes in pre-order. -/
theorem WriteText_named (children : List Metadata) (attributes : List (Str × Str))
    (h : Metadata.namedList children = true) :
    WriteText (Metadata.mk [] [] children attributes) =
      some (unlines (['-', '-', '-'] :: (attributeLines 0 attributes ++
        keyedLinesList 0 children))) := by
  unfold WriteText Write
  have h0 : (OStream.mk [] 0 false).write ['-', '-', '-', '\n'] =
      OStream.ofText ['-', '-', '-', '\n'] := rfl
  rw [h0, AppendData]
  simp only [writeOwnLine, List.isEmpty_nil, Bool.not_true, Bool.false_eq_true, if_false,
    if_true, Nat.add_zero]
  have h1 := writeAttributes_ofText 0 attributes ['-', '-', '-', '\n']
  rw [h1]
  by_cases hch : children = []
  · subst hch
    rw [AppendChildren]
    simp [unlines, unlines_append, keyedLinesList, OStream.ofText]
  · rw [AppendChildren_named children (Metadata.mk [] [] children attributes) 0 _ 0 h h hch
      (fun _ => rfl)]
    simp [unlines, unlines_append, OStream.ofText]

/-! ## Round trip -/

theorem readLines_unlines (ls : List Str) (h : ∀ l ∈ ls, '\n' ∉ l) :
    readLines (unlines ls) = ls := by
  induction ls with
  | nil => rfl
  | cons l rest ih =>
    rw [unlines, readLines_cons_line l _ (h l (List.mem_cons_self _ _)),
      ih (fun x hx => h x (List.mem_cons_of_mem _ hx))]

theorem attributeLines_no_feed (c : Nat) : ∀ (attributes : List (Str × Str)),
    cleanAttributes attributes = true → ∀ l ∈ attributeLines c attributes, '\n' ∉ l := by
  intro attributes
  induction attributes with
  | nil => intro _ l hl; simp [attributeLines] at hl
  | cons kv rest ih =>
    intro hclean l hl
    obtain ⟨k, v⟩ := kv
    obtain ⟨hk, hv, -, hrest⟩ := clean_attributes_cons k v rest hclean
    rw [attributeLines, List.mem_cons] at hl
    rcases hl with hl | hl
    · subst hl
      intro hmem
      simp only [List.mem_append, List.mem_cons, List.mem_singleton, List.not_mem_nil,
        or_false] at hmem
      rcases hmem with ((h | h) | h) | h
      · exact absurd (indents_spaces c _ h) (by decide)
      · rcases h with h | h | h <;> exact absurd h (by decide)
      · rcases h with h | h | h
        · exact hk.2.1 h
        · exact absurd h (by decide)
        · exact absurd h (by decide)
      · exact hv.1 h
    · exact ih hrest l hl

mutual
theorem keyedLines_no_feed : ∀ (n : Metadata) (c : Nat), n.clean = true →
    ∀ l ∈ keyedLines c n, '\n' ∉ l
  | Metadata.mk name value children attributes, c, hclean, l, hl => by
    obtain ⟨hn, hv, ha, hch⟩ := clean_node name value children attributes hclean
    rw [keyedLines, List.mem_cons, List.mem_append] at hl
    rcases hl with hl | hl | hl
    · subst hl
      intro hmem
      simp only [List.mem_append, List.mem_cons, List.mem_singleton, List.not_mem_nil,
        or_false] at hmem
      rcases hmem with h | (h | h) | h
      · exact absurd (indents_spaces c _ h) (by decide)
      · exact hn.2.2.1 h
      · rcases h with h | h <;> exact absurd h (by decide)
      · exact hv.1 h
    · exact attributeLines_no_feed c attributes ha l hl
    · exact keyedLinesList_no_feed children (c + 1) hch l hl
theorem keyedLinesList_no_feed : ∀ (ns : List Metadata) (c : Nat),
    Metadata.cleanList ns = true → ∀ l ∈ keyedLinesList c ns, '\n' ∉ l
  | [], c, _, l, hl => by simp [keyedLinesList] at hl
  | x :: xs, c, hclean, l, hl => by
    simp only [Metadata.cleanList, Bool.and_eq_true] at hclean
    rw [keyedLinesList, List.mem_append] at hl
    rcases hl with hl | hl
    · exact keyedLines_no_feed x c hclean.1 l hl
    · exact keyedLinesList_no_feed xs c hclean.2 l hl
end

mutual
theorem named_of_clean : ∀ (n : Metadata), n.clean = true → n.named = true
  | Metadata.mk name value children attributes, hclean => by
    obtain ⟨hn, -, -, hch⟩ := clean_node name value children attributes hclean
    simp only [Metadata.named, Bool.and_eq_true, Bool.not_eq_true']
    exact ⟨isEmpty_eq_false name hn.1, namedList_of_cleanList children hch⟩
theorem namedList_of_cleanList : ∀ (ns : List Metadata), Metadata.cleanList ns = true →
    Metadata.namedList ns = true
  | [], _ => rfl
  | x :: xs, hclean => by
    simp only [Metadata.cleanList, Bool.and_eq_true] at hclean
    simp only [Metadata.namedList, Bool.and_eq_true]
    exact ⟨named_of_clean x hclean.1, namedList_of_cleanList xs hclean.2⟩
end

/-- Decoding the marker line and the lines of clean sibling trees, written from indentation
counter 0, gives the root that has these trees as children. -/
theorem LoadLines_keyedLines (children : List Metadata)
    (hclean : Metadata.cleanList children = true)
    (hheight : 2 * Metadata.heightList children + 2 < U32) :
    LoadLines Yaml.new (['-', '-', '-'] :: keyedLinesList 0 children) =
      some (Metadata.mk [] [] children []) := by
  have hinit : LoadState.init.Follows 0 ⟨[], 0, []⟩ [] := follows_self ⟨[], 0, []⟩ [] 0 rfl
  obtain ⟨s1, hrun, hfol⟩ := run_keyedLinesList children 0 LoadState.init ⟨[], 0, []⟩ []
    hclean (by omega) hinit
  unfold LoadLines
  rw [LoadState.run, step_ignored _ _ (Or.inl rfl), Option.some_bind, hrun, Option.map_some',
    hfol.2.1]
  apply congrArg some
  have htop : LoadState.top [] ((Frame.mk [] 0 []).add (keyedSectionList 0 children)) =
      Section.mk [] 0 (keyedSectionList 0 children) := by
    simp [LoadState.top, Frame.add, Frame.toSection]
  have hroot : ∀ cs : List Section,
      Convert (Section.mk [] 0 cs) Yaml.new true = ConvertChildren cs Yaml.new := by
    intro cs; rw [Convert]; rfl
  have hc : Yaml.new.ClearChildren.ClearAttributes = Yaml.new := rfl
  rw [htop, hc, hroot, ConvertChildren_keyedSectionList children 0 _ hclean]
  rfl

/-- C1, as stated, fails: a node below the root whose name is not empty but contains a colon
is not read back; `a:b` with value `c` comes back as `a` with value `b: c`. -/
theorem Load_Write_colon_name :
    (WriteText colonInName).bind (Load Yaml.new) =
      some (Metadata.mk [] [] [Metadata.mk "a".toList "b: c".toList [] []] []) ∧
    (WriteText colonInName).bind (Load Yaml.new) ≠ some colonInName := by
  have h : (WriteText colonInName).bind (Load Yaml.new) =
      some (Metadata.mk [] [] [Metadata.mk "a".toList "b: c".toList [] []] []) := by rfl
  refine ⟨h, ?_⟩
  rw [h]
  simp [colonInName]

/-- C1, amended: for every tree `T` whose root has empty name and value and no attributes,
whose nodes below the root all have clean names (not empty, no colon, no line feed, no leading
or trailing whitespace, not beginning with `_`, `#` or `-`), clean values (no line feed, no
leading or trailing whitespace) and clean attributes (keys without colon, line feed and
trailing whitespace, no key twice, clean values), and which has fewer than `2 ^ 31` levels,
`Yaml::Write` succeeds and `Yaml::Load` of the text written, into any `Yaml`, gives a tree
equal to `T`: names, values, ordered children and attributes. -/
theorem Load_Write_clean (self T : Metadata)
    (hself : self.GetName = [] ∧ self.GetValue = [])
    (hroot : T.GetName = [] ∧ T.GetValue = [] ∧ T.GetAttributes = [])
    (hclean : Metadata.cleanList T.GetChildren = true)
    (hheight : T.height < 2 ^ 31) :
    (WriteText T).bind (Load self) = some T := by
  cases T with
  | mk name value children attributes =>
    simp only [Metadata.GetName, Metadata.GetValue, Metadata.GetAttributes,
      Metadata.GetChildren] at hroot hclean
    obtain ⟨h1, h2, h3⟩ := hroot
    subst h1; subst h2; subst h3
    rw [Metadata.height] at hheight
    have hU : U32 = 2 ^ 32 := rfl
    rw [WriteText_named children [] (namedList_of_cleanList children hclean), Option.some_bind]
    unfold Load
    rw [readLines_unlines, LoadLines_of_yaml self hself.1 hself.2]
    · exact LoadLines_keyedLines children hclean (by rw [hU]; omega)
    · intro l hl
      rw [List.mem_cons] at hl
      rcases hl with hl | hl
      · subst hl; decide
      · exact keyedLinesList_no_feed children 0 hclean l (by simpa [attributeLines] using hl)

theorem Load_Write_clean_witness :
    (WriteText cleanExample).bind (Load attributeThenItem) = some cleanExample :=
  Load_Write_clean attributeThenItem cleanExample ⟨rfl, rfl⟩ ⟨rfl, rfl, rfl⟩ (by decide)
    (by decide)

/-! ## The start marker -/

/-- C11: the first line of the output of `Yaml::Write` is not always `---`. For a root whose
first child is an anonymous scalar `x`, no indent is written for the child and the rewind of
the sequence-list heuristic overwrites the end of the marker line: the output is the single
line `--- x`. -/
theorem Write_marker_overwritten :
    WriteText topLevelItem = some "--- x\n".toList ∧
      (WriteText topLevelItem).map (fun t => (readLines t).head?) ≠
        some (some ['-', '-', '-']) := by
  decide!

/-! ## The number of fillers -/

theorem addFillers_parents_length (n : Nat) : ∀ (i : Nat) (s : LoadState),
    (LoadState.addFillers n i s).parents.length = n + s.parents.length := by
  induction n with
  | zero => intro i s; simp [LoadState.addFillers]
  | succ k ih =>
    intro i s
    rw [LoadState.addFillers, ih]
    simp only [List.length_cons]
    omega

theorem addFillers_children (n : Nat) : ∀ (i : Nat) (s : LoadState),
    (LoadState.addFillers (n + 1) i s).current.children = [] := by
  induction n with
  | zero => intro i s; rfl
  | succ k ih => intro i s; rw [LoadState.addFillers]; exact ih _ _

/-- The iteration of the loop for a line whose indentation is larger than the last one, but
not by 2: `n` fillers are inserted, `n` being the count computed on `uint32_t`. -/
theorem step_fillers (s : LoadState) (l : Str) (k n : Nat) (hmarker : l ≠ ['-', '-', '-'])
    (hscan : scanLine l 0 = (k, false)) (hgt : s.lastIndentation < k)
    (hcount : sub32 (sub32 k s.lastIndentation / 2) 1 = n)
    (hno : sub32 k s.lastIndentation ≠ 2) :
    ∃ s1, s.step l = some s1 ∧ s1.parents.length = n + s.parents.length ∧
      s1.lastIndentation = k ∧
      s1.current.children =
        (s.addFillers n 0).current.children ++ [Section.mk (String.Trim l) k []] := by
  have hadj : s.adjust k = some (s.addFillers n 0) := by
    have ha : ¬ (k < s.lastIndentation) := by omega
    unfold LoadState.adjust
    simp only [ha, hgt, gt_iff_lt, if_true, if_false, hcount, hno]
  refine ⟨{ (s.addFillers n 0).append (Section.mk (String.Trim l) k []) with
    lastIndentation := k }, ?_, ?_, rfl, rfl⟩
  · rw [step_of_scan s l k hmarker hscan, hadj]
    rfl
  · exact addFillers_parents_length n 0 s

/-- C13: an increase of the indentation by exactly 1 does not insert 0 fillers. For the line
`a:` followed by ` b: 1` (one leading space) the count `((1 - 0) / 2) - 1` is computed on
`uint32_t` and wraps around: the filler loop runs `2 ^ 32 - 1` times, and the Section of the
second line ends up below `4294967295` nested filler Sections. -/
theorem Load_filler_count_wraps :
    ∃ s1, LoadState.init.run ["a:".toList, " b: 1".toList] = some s1 ∧
      s1.parents.length = 4294967295 ∧
      s1.current.children = [Section.mk "b: 1".toList 1 []] := by
  have h1 : LoadState.init.step "a:".toList =
      some ⟨⟨[], 0, [Section.mk "a:".toList 0 []]⟩, [], 0⟩ := by rfl
  obtain ⟨s1, hstep, hlen, -, hch⟩ := step_fillers
    ⟨⟨[], 0, [Section.mk "a:".toList 0 []]⟩, [], 0⟩ " b: 1".toList 1 4294967295
    (by decide) (by decide) (by decide) (by decide) (by decide)
  refine ⟨s1, ?_, ?_, ?_⟩
  · rw [LoadState.run, h1, Option.some_bind, LoadState.run, hstep]
    rfl
  · rw [hlen]
    exact Nat.add_zero _
  · rw [hch, show (4294967295 : Nat) = 4294967294 + 1 by decide, addFillers_children,
      show String.Trim " b: 1".toList = "b: 1".toList by decide]
    rfl

/-! ## The indentation scan -/

theorem takeWhile_space_replicate (k : Nat) (rest : Str) (h : rest.head? ≠ some ' ') :
    (List.replicate k ' ' ++ rest).takeWhile (fun c => c == ' ') = List.replicate k ' ' := by
  induction k with
  | zero =>
    cases rest with
    | nil => rfl
    | cons x xs =>
      have hx : ¬ ((x == ' ') = true) := by
        intro e
        exact h (by rw [show x = ' ' by simpa using e]; rfl)
      simp only [List.replicate_zero, List.nil_append]
      rw [List.takeWhile_cons_of_neg (p := fun c => c == ' ') hx]
  | succ j ih =>
    rw [List.replicate_succ, List.cons_append,
      List.takeWhile_cons_of_pos (p := fun c => c == ' ') (by rfl), ih]

theorem dropWhile_space_replicate (k : Nat) (rest : Str) (h : rest.head? ≠ some ' ') :
    (List.replicate k ' ' ++ rest).dropWhile (fun c => c == ' ') = rest := by
  induction k with
  | zero =>
    cases rest with
    | nil => rfl
    | cons x xs =>
      have hx : ¬ ((x == ' ') = true) := by
        intro e
        exact h (by rw [show x = ' ' by simpa using e]; rfl)
      simp only [List.replicate_zero, List.nil_append]
      rw [List.dropWhile_cons_of_neg (p := fun c => c == ' ') hx]
  | succ j ih =>
    rw [List.replicate_succ, List.cons_append,
      List.dropWhile_cons_of_pos (p := fun c => c == ' ') (by rfl), ih]

theorem scanLine_wide (k : Nat) (hk : k % U32 = 0) :
    (scanLine (List.replicate k ' ' ++ ['a']) 0).1 = 0 ∧
      describedIndentation (List.replicate k ' ' ++ ['a']) = k := by
  constructor
  · rw [scanLine_replicate _ k 0 U32_pos, Nat.zero_add, hk]
    rfl
  · unfold describedIndentation leadingSpaces firstNonSpace
    rw [takeWhile_space_replicate k ['a'] (by decide),
      dropWhile_space_replicate k ['a'] (by decide), List.length_replicate]
    rfl

/-- C17, as stated, fails: for a line of `2 ^ 32` spaces followed by `a` the indentation
computed by `Yaml::Load` is 0, the `uint32_t` counter having wrapped around, and not the
number of leading spaces. -/
theorem scanLine_wraps :
    (scanLine (List.replicate 4294967296 ' ' ++ ['a']) 0).1 = 0 ∧
      describedIndentation (List.replicate 4294967296 ' ' ++ ['a']) = 4294967296 :=
  scanLine_wide 4294967296 (by decide)

/-- C17, amended: for every line, the indentation computed by `Yaml::Load` is the number of
leading spaces, plus 2 if the first character other than a space is `-`, reduced modulo
`2 ^ 32`; it is that number itself when the number is below `2 ^ 32`. The line is treated as
a comment if and only if its first character other than a space is `#`. -/
theorem scanLine_spec (l : Str) :
    (scanLine l 0).1 = describedIndentation l % U32 ∧
      (describedIndentation l < U32 → (scanLine l 0).1 = describedIndentation l) ∧
      ((scanLine l 0).2 = true ↔ firstNonSpace l = some '#') := by
  have key : (scanLine l 0).1 = describedIndentation l % U32 ∧
      ((scanLine l 0).2 = true ↔ firstNonSpace l = some '#') := by
    unfold describedIndentation leadingSpaces firstNonSpace
    rw [scanLine_spaces l 0 U32_pos, Nat.zero_add]
    cases hd : l.dropWhile (fun c => c == ' ') with
    | nil => simp [scanLine]
    | cons x r =>
      have hsp : x ≠ ' ' := by
        have := dropWhile_head_false _ l x r hd
        simpa using this
      by_cases hdash : x = '-'
      · subst hdash
        simp [scanLine]
      · by_cases hhash : x = '#'
        · subst hhash
          simp [scanLine]
        · simp [scanLine, hsp, hdash, hhash]
  exact ⟨key.1, fun h => by rw [key.1, Nat.mod_eq_of_lt h], key.2⟩

/-! ## Name and value of a Section -/

theorem Convert_eq (content : Str) (i : Nat) (cs : List Section) (parent : Metadata)
    (isTopSection : Bool) :
    Convert (Section.mk content i cs) parent isTopSection =
      if String.StartsWith (sectionName content) ['_'] then
        parent.AddAttribute ((sectionName content).drop 1) (sectionValue content)
      else if isTopSection then ConvertChildren cs parent
      else parent.AddChild
        (ConvertChildren cs (Metadata.mk (sectionName content) (sectionValue content) [] [])) := by
  rw [Convert]
  rfl

theorem rdropWhile_split (p : Char → Bool) (l : Str) :
    ∃ w, l = l.rdropWhile p ++ w ∧ ∀ x ∈ w, p x = true := by
  induction l using List.reverseRecOn with
  | nil => exact ⟨[], rfl, by simp⟩
  | append_singleton l x ih =>
    by_cases hx : p x = true
    · obtain ⟨w, hw, hall⟩ := ih
      refine ⟨w ++ [x], ?_, ?_⟩
      · rw [List.rdropWhile_concat_pos _ _ _ hx, ← List.append_assoc, ← hw]
      · intro y hy
        rcases List.mem_append.mp hy with h | h
        · exact hall y h
        · rw [List.mem_singleton.mp h]; exact hx
    · exact ⟨[], by rw [List.rdropWhile_concat_neg _ _ _ hx, List.append_nil], by simp⟩

theorem rdropWhile_append_cons_of_neg (p : Char → Bool) (a : Str) (c : Char)
    (h : p c = false) (r : Str) :
    (a ++ c :: r).rdropWhile p = a ++ c :: r.rdropWhile p := by
  induction r using List.reverseRecOn with
  | nil =>
    have : a ++ [c] = a ++ [c] := rfl
    rw [List.rdropWhile_concat_neg _ _ _ (by simp [h])]
    simp [List.rdropWhile_nil]
  | append_singleton r x ih =>
    have e : a ++ c :: (r ++ [x]) = (a ++ c :: r) ++ [x] := by simp
    rw [e]
    by_cases hx : p x = true
    · rw [List.rdropWhile_concat_pos _ _ _ hx, List.rdropWhile_concat_pos _ _ _ hx, ih]
    · rw [List.rdropWhile_concat_neg _ _ _ hx, List.rdropWhile_concat_neg _ _ _ hx]
      simp

theorem Trim_rdropWhile (a : Str) :
    String.Trim (a.rdropWhile String.isWhitespace) = String.Trim a := by
  cases hd : a.dropWhile String.isWhitespace with
  | nil =>
    have hall : ∀ x ∈ a, String.isWhitespace x = true := List.dropWhile_eq_nil_iff.mp hd
    have h1 : a.rdropWhile String.isWhitespace = [] := List.rdropWhile_eq_nil_iff.mpr hall
    rw [h1, Trim_eq a, hd]
    rfl
  | cons c r =>
    have hc := dropWhile_head_false _ a c r hd
    have ha : a = a.takeWhile String.isWhitespace ++ c :: r := by
      rw [← hd, List.takeWhile_append_dropWhile]
    have hw : ∀ x ∈ a.takeWhile String.isWhitespace, String.isWhitespace x = true :=
      fun x hx => List.mem_takeWhile_imp hx
    generalize a.takeWhile String.isWhitespace = w at ha hw
    rw [ha, rdropWhile_append_cons_of_neg _ _ _ hc, Trim_whitespace_append _ _ hw,
      Trim_whitespace_append _ _ hw, Trim_cons _ _ hc, Trim_cons _ _ hc,
      List.rdropWhile_idempotent]

theorem dropWhile_eq_self_of_Trim (s : Str) (h : String.Trim s = s) :
    s.dropWhile String.isWhitespace = s := by
  cases s with
  | nil => rfl
  | cons c r =>
    rw [List.dropWhile_cons_of_neg (by simp [Trim_eq_self_head _ h c r rfl])]

theorem Trim_split (before : Str) (h : before.dropWhile String.isWhitespace = before) :
    ∃ w, before = String.Trim before ++ w ∧ ∀ x ∈ w, String.isWhitespace x = true := by
  rw [Trim_eq, h]
  exact rdropWhile_split _ before

/-- The name and the value of a trimmed content with a colon. -/
theorem section_split (content before after : Str) (htrim : String.Trim content = content)
    (hc : content = before ++ ':' :: after) (hb : ':' ∉ before) :
    sectionName content = String.Trim before ∧ sectionValue content = String.Trim after := by
  have hname : sectionName content = String.Trim before := by
    unfold sectionName
    rw [hc, takeWhile_name before after hb]
  have hdrop : before.dropWhile String.isWhitespace = before := by
    cases hbf : before with
    | nil => rfl
    | cons c r =>
      have : String.isWhitespace c = false :=
        Trim_eq_self_head content htrim c (r ++ ':' :: after) (by rw [hc, hbf]; rfl)
      rw [List.dropWhile_cons_of_neg (by simp [this])]
  obtain ⟨w, hw, hall⟩ := Trim_split before hdrop
  refine ⟨hname, ?_⟩
  unfold sectionValue
  rw [hname]
  have e : content = String.Trim before ++ (w ++ ':' :: after) := by
    rw [hc, ← List.append_assoc, ← hw]
  rw [e, ReplaceFirst_initial, Trim_whitespace_append _ _ hall, Trim_cons _ _ (by rfl)]
  simp only [List.drop_succ_cons, List.drop_zero]
  exact Trim_rdropWhile after

/-- C18: for a trimmed content that contains a colon, `Yaml::Convert` takes as name the
trimmed text before the first colon and as value the trimmed text after that first colon
(later colons stay in the value); for a trimmed content without colon the name is the whole
content and the value is empty. These are the name and the value with which `Convert`
registers the attribute or creates the node. -/
theorem Convert_name_value_split (content : Str) (htrim : String.Trim content = content) :
    (∀ before after : Str, content = before ++ ':' :: after → ':' ∉ before →
        sectionName content = String.Trim before ∧ sectionValue content = String.Trim after) ∧
      (':' ∉ content → sectionName content = content ∧ sectionValue content = []) ∧
      ∀ (i : Nat) (cs : List Section) (parent : Metadata) (isTopSection : Bool),
        Convert (Section.mk content i cs) parent isTopSection =
          if String.StartsWith (sectionName content) ['_'] then
            parent.AddAttribute ((sectionName content).drop 1) (sectionValue content)
          else if isTopSection then ConvertChildren cs parent
          else parent.AddChild (ConvertChildren cs
            (Metadata.mk (sectionName content) (sectionValue content) [] [])) := by
  refine ⟨fun before after hc hb => section_split content before after htrim hc hb, ?_,
    fun i cs parent isTopSection => Convert_eq content i cs parent isTopSection⟩
  intro hno
  have hname : sectionName content = content := by
    unfold sectionName
    rw [takeWhile_eq_self_of_not_mem content hno, htrim]
  refine ⟨hname, ?_⟩
  unfold sectionValue
  rw [hname]
  have := ReplaceFirst_initial content []
  rw [List.append_nil] at this
  rw [this]
  rfl

theorem Convert_name_value_split_witness :
    sectionName "url: http://x".toList = "url".toList ∧
      sectionValue "url: http://x".toList = "http://x".toList :=
  ((Convert_name_value_split "url: http://x".toList (by decide)).1
    "url".toList " http://x".toList (by decide) (by decide)).imp
    (fun h => h.trans (by decide)) (fun h => h.trans (by decide))

/-! ## Attribute lines -/

theorem lookup_setAttribute_self (k v : Str) (l : List (Str × Str)) :
    (Metadata.setAttribute k v l).lookup k = some v := by
  induction l with
  | nil => simp [Metadata.setAttribute, List.lookup]
  | cons x xs ih =>
    obtain ⟨k0, v0⟩ := x
    by_cases h : k0 = k
    · subst h
      simp [Metadata.setAttribute, List.lookup]
    · have h2 : (k == k0) = false := by simpa using fun e : k = k0 => h e.symm
      simp only [Metadata.setAttribute, if_neg h, List.lookup, h2]
      exact ih

theorem lookup_setAttribute_other (k v other : Str) (hne : other ≠ k) (l : List (Str × Str)) :
    (Metadata.setAttribute k v l).lookup other = l.lookup other := by
  induction l with
  | nil =>
    have h2 : (other == k) = false := by simpa using hne
    simp [Metadata.setAttribute, List.lookup, h2]
  | cons x xs ih =>
    obtain ⟨k0, v0⟩ := x
    by_cases h : k0 = k
    · subst h
      have h2 : (other == k0) = false := by simpa using hne
      simp [Metadata.setAttribute, List.lookup, h2]
    · simp only [Metadata.setAttribute, if_neg h, List.lookup]
      cases other == k0 with
      | true => rfl
      | false => exact ih

/-- C19: for a Section whose name begins with `_`, `Yaml::Convert` sets one attribute, the
name without the leading underscore with the value, on the current parent, the node under
construction for the enclosing line (the root for a top-level line): the name, the value and
the children of that node are unchanged, every other attribute keeps its value, and the
Sections nested under the attribute line contribute nothing. Within the loop over the
children of the enclosing Section, the Sections before and after the attribute line are
converted as they would be without it. -/
theorem Convert_attribute_line (content : Str) (i : Nat) (cs : List Section)
    (parent : Metadata) (isTopSection : Bool)
    (h : String.StartsWith (sectionName content) ['_'] = true) :
    Convert (Section.mk content i cs) parent isTopSection =
        parent.AddAttribute ((sectionName content).drop 1) (sectionValue content) ∧
      Convert (Section.mk content i cs) parent isTopSection =
        Convert (Section.mk content i []) parent isTopSection ∧
      (Convert (Section.mk content i cs) parent isTopSection).GetName = parent.GetName ∧
      (Convert (Section.mk content i cs) parent isTopSection).GetValue = parent.GetValue ∧
      (Convert (Section.mk content i cs) parent isTopSection).GetChildren =
        parent.GetChildren ∧
      (Convert (Section.mk content i cs) parent isTopSection).GetAttributes.lookup
        ((sectionName content).drop 1) = some (sectionValue content) ∧
      (∀ other : Str, other ≠ (sectionName content).drop 1 →
        (Convert (Section.mk content i cs) parent isTopSection).GetAttributes.lookup other =
          parent.GetAttributes.lookup other) ∧
      ∀ (before after : List Section) (thisValue : Metadata),
        ConvertChildren (before ++ Section.mk content i cs :: after) thisValue =
          ConvertChildren after ((ConvertChildren before thisValue).AddAttribute
            ((sectionName content).drop 1) (sectionValue content)) := by
  have key : ∀ (cs : List Section) (parent : Metadata) (isTopSection : Bool),
      Convert (Section.mk content i cs) parent isTopSection =
        parent.AddAttribute ((sectionName content).drop 1) (sectionValue content) := by
    intro cs parent isTopSection
    rw [Convert_eq, if_pos h]
  refine ⟨key _ _ _, by rw [key, key], ?_, ?_, ?_, ?_, ?_, ?_⟩
  · rw [key]; cases parent; rfl
  · rw [key]; cases parent; rfl
  · rw [key]; cases parent; rfl
  · rw [key]
    cases parent with
    | mk n v c a => exact lookup_setAttribute_self _ _ a
  · intro other hne
    rw [key]
    cases parent with
    | mk n v c a => exact lookup_setAttribute_other _ _ other hne a
  · intro before after thisValue
    rw [ConvertChildren_append, ConvertChildren, key]

theorem Convert_attribute_line_witness :
    Convert (Section.mk "_type: int".toList 2 [Section.mk "x: 1".toList 4 []])
        (Metadata.mk "stats".toList [] [Metadata.mk "hp".toList "10".toList [] []] []) false =
      (Metadata.mk "stats".toList [] [Metadata.mk "hp".toList "10".toList [] []] []).AddAttribute
        ((sectionName "_type: int".toList).drop 1) (sectionValue "_type: int".toList) :=
  (Convert_attribute_line "_type: int".toList 2 [Section.mk "x: 1".toList 4 []]
    (Metadata.mk "stats".toList [] [Metadata.mk "hp".toList "10".toList [] []] []) false
    (by decide)).1

/-! ## The reference serializer -/

theorem unlines_attributeLines (c : Nat) (attributes : List (Str × Str)) :
    unlines (attributeLines c attributes) = referenceAttributes c attributes := by
  induction attributes with
  | nil => rfl
  | cons kv rest ih =>
    obtain ⟨k, v⟩ := kv
    rw [attributeLines, unlines, ih, referenceAttributes, indents_eq_replicate]
    simp

mutual
theorem unlines_keyedLines : ∀ (n : Metadata) (c : Nat),
    unlines (keyedLines c n) = referenceNode c n
  | Metadata.mk name value children attributes, c => by
    rw [keyedLines, unlines, unlines_append, unlines_attributeLines,
      unlines_keyedLinesList children (c + 1), referenceNode, indents_eq_replicate]
    simp
theorem unlines_keyedLinesList : ∀ (ns : List Metadata) (c : Nat),
    unlines (keyedLinesList c ns) = referenceNodes c ns
  | [], c => rfl
  | x :: xs, c => by
    rw [keyedLinesList, unlines_append, unlines_keyedLines x c, unlines_keyedLinesList xs c,
      referenceNodes]
end

/-- C20, as stated, fails: for a root that has an attribute the output of `Yaml::Write` is
not the marker line followed by the lines of the nodes below the root; the attribute line of
the root comes right after the marker line. -/
theorem Write_root_attribute :
    WriteText rootWithAttribute = some "---\n  _k: v\n".toList ∧
      WriteText rootWithAttribute ≠ some (referenceText rootWithAttribute) := by
  decide!

/-- C20, amended: for every tree whose root has empty name and value and whose nodes below
the root all have non-empty names, the output of `Yaml::Write` is the marker line, followed by
the attribute lines of the root (two spaces, `_`, key, `: `, value, line feed) and then, in
pre-order, by the text of each node as the reference serializer gives it: the line of
`2 * c` spaces, name, `: `, value, line feed, with `c` the number of ancestors below the root,
then the attribute lines of the node, then its children. -/
theorem Write_eq_reference (root : Metadata)
    (hroot : root.GetName = [] ∧ root.GetValue = [])
    (hnamed : Metadata.namedList root.GetChildren = true) :
    WriteText root =
      some (['-', '-', '-', '\n'] ++ referenceAttributes 0 root.GetAttributes ++
        referenceNodes 0 root.GetChildren) := by
  cases root with
  | mk name value children attributes =>
    simp only [Metadata.GetName, Metadata.GetValue, Metadata.GetChildren,
      Metadata.GetAttributes] at hroot hnamed ⊢
    obtain ⟨h1, h2⟩ := hroot
    subst h1; subst h2
    rw [WriteText_named children attributes hnamed, unlines, unlines_append,
      unlines_attributeLines, unlines_keyedLinesList]
    simp

theorem Write_eq_reference_witness :
    WriteText cleanExample =
      some (['-', '-', '-', '\n'] ++ referenceAttributes 0 cleanExample.GetAttributes ++
        referenceNodes 0 cleanExample.GetChildren) :=
  Write_eq_reference cleanExample ⟨rfl, rfl⟩ (by decide)

/-! ## Writing is total -/

theorem good_write (o : OStream) (s : Str) (h : o.Good) : (o.write s).Good := by
  obtain ⟨hf, hp⟩ := h
  unfold OStream.write
  rw [hf]
  exact ⟨rfl, by simp only [Bool.false_eq_true, if_false]; omega⟩

theorem good_rewind (o : OStream) (h : o.Good) : ((o.seekBack2).write ['-', ' ']).Good := by
  obtain ⟨hf, hp⟩ := h
  have h1 : o.seekBack2 = { o with pos := o.pos - 2 } := by
    unfold OStream.seekBack2
    rw [hf]
    simp only [Bool.false_eq_true, if_false]
    rw [if_neg (by omega)]
  rw [h1]
  unfold OStream.write
  simp only [hf, Bool.false_eq_true, if_false]
  exact ⟨rfl, by simp only [List.length_cons, List.length_nil]; omega⟩

theorem good_writeOwnLine (name value : Str) (o : OStream) (h : o.Good) :
    (writeOwnLine name value o).Good := by
  unfold writeOwnLine
  split
  · split <;> exact good_write _ _ h
  · split
    · exact good_write _ _ h
    · exact h

theorem good_writeAttributes (ind : Str) : ∀ (attributes : List (Str × Str)) (o : OStream),
    o.Good → (writeAttributes ind attributes o).Good := by
  intro attributes
  induction attributes with
  | nil => intro o h; exact h
  | cons kv rest ih =>
    intro o h
    obtain ⟨k, v⟩ := kv
    rw [writeAttributes]
    exact ih _ (good_write _ _ h)

mutual
theorem AppendData_total : ∀ (n : Metadata) (parent : Option Metadata) (index : Nat)
    (o : OStream) (c : Nat), (∀ p, parent = some p → p.GetChildren ≠ []) → o.Good →
    ∃ o1, AppendData n parent index o c = some o1 ∧ o1.Good
  | Metadata.mk name value children attributes, parent, index, o, c, hp, h => by
    have hrest : ∀ o2 : OStream, o2.Good →
        ∃ o1, AppendChildren children (Metadata.mk name value children attributes) 0
          (writeAttributes (indents c) attributes (writeOwnLine name value o2))
          (c + if name.isEmpty then 0 else 1) = some o1 ∧ o1.Good := by
      intro o2 h2
      exact AppendChildren_total children (Metadata.mk name value children attributes) 0 _ _
        (fun hne => hne) (good_writeAttributes _ _ _ (good_writeOwnLine _ _ _ h2))
    cases parent with
    | none =>
      rw [AppendData]
      exact hrest o h
    | some p =>
      rw [AppendData]
      cases hch : p.GetChildren with
      | nil => exact absurd hch (hp p rfl)
      | cons first more =>
        simp only [List.head?_cons]
        apply hrest
        have h1 : (if !(index == 0 && p.GetName.isEmpty && p.GetValue.isEmpty) then
            o.write (indents c) else o).Good := by
          split
          · exact good_write _ _ h
          · exact h
        split
        · exact good_rewind _ h1
        · exact h1
theorem AppendChildren_total : ∀ (ns : List Metadata) (p : Metadata) (index : Nat)
    (o : OStream) (c : Nat), (ns ≠ [] → p.GetChildren ≠ []) → o.Good →
    ∃ o1, AppendChildren ns p index o c = some o1 ∧ o1.Good
  | [], p, index, o, c, _, h => ⟨o, by rw [AppendChildren], h⟩
  | x :: xs, p, index, o, c, hp, h => by
    have hne : p.GetChildren ≠ [] := hp (by simp)
    obtain ⟨o1, h1, g1⟩ := AppendData_total x (some p) index o c
      (fun q hq => by rw [← Option.some.inj hq]; exact hne) h
    obtain ⟨o2, h2, g2⟩ := AppendChildren_total xs p (index + 1) o1 c (fun _ => hne) g1
    exact ⟨o2, by rw [AppendChildren, h1]; exact h2, g2⟩
end

/-- C12: `Yaml::Write` is total. For every tree and every stream that has not failed, the
recursion of `AppendData` comes to an end with a result: every read of
`parent->GetChildren()[0]` finds a child (the result is not `none`), and the fail bit is
still clear at the end, so that every rewind by two characters took place at a put position
of at least 2 (the fail bit is set, for good, by a rewind at a smaller position). -/
theorem Write_total (self : Metadata) (outStream : OStream) (h : outStream.fail = false) :
    ∃ o1, Write self outStream = some o1 ∧ o1.fail = false ∧ 2 ≤ o1.pos := by
  have hgood : (outStream.write ['-', '-', '-', '\n']).Good := by
    unfold OStream.write
    rw [h]
    exact ⟨rfl, by simp⟩
  obtain ⟨o1, h1, g1⟩ := AppendData_total self none 0 _ 0 (fun p hp => by cases hp) hgood
  exact ⟨o1, h1, g1.1, g1.2⟩

theorem Write_total_witness :
    (Write attributeThenItem ⟨[], 0, false⟩).map (fun o => o.fail) = some false :=
  (Write_total attributeThenItem ⟨[], 0, false⟩ rfl).elim fun o1 h1 => by
    rw [h1.1, Option.map_some', h1.2.1]

/-! ## No comment line is written -/

theorem lineState_append (a b : Str) : ∀ st : Bool,
    lineState st (a ++ b) = (lineState st a).bind fun st1 => lineState st1 b := by
  induction a with
  | nil => intro st; rfl
  | cons c cs ih =>
    intro st
    simp only [List.cons_append, lineState]
    split
    · exact ih true
    · split
      · split
        · exact ih true
        · split
          · rfl
          · exact ih false
      · exact ih false

theorem lineState_weaken (s : Str) : ∀ st : Bool,
    lineState true s ≠ none → lineState st s ≠ none := by
  induction s with
  | nil => intro st _; simp [lineState]
  | cons c cs ih =>
    intro st h
    cases st with
    | true => exact h
    | false =>
      simp only [lineState] at h ⊢
      split
      · rename_i hc
        rw [if_pos hc] at h
        exact h
      · rename_i hc
        rw [if_neg hc] at h
        simp only [Bool.false_eq_true, if_false]
        simp only [if_true] at h
        split at h
        · exact ih false h
        · split at h
          · exact absurd rfl h
          · exact h

theorem lineState_no_feed (s : Str) (h : '\n' ∉ s) : lineState false s = some false := by
  induction s with
  | nil => rfl
  | cons c cs ih =>
    have hc : c ≠ '\n' := fun e => h (e ▸ List.mem_cons_self _ _)
    simp only [lineState, if_neg hc, Bool.false_eq_true, if_false]
    exact ih (fun e => h (List.mem_cons_of_mem _ e))

theorem lineState_token (s : Str) (h : '\n' ∉ s) (hh : firstNonSpace s ≠ some '#') :
    lineState true s ≠ none := by
  induction s with
  | nil => simp [lineState]
  | cons c cs ih =>
    have hc : c ≠ '\n' := fun e => h (e ▸ List.mem_cons_self _ _)
    have hcs : '\n' ∉ cs := fun e => h (List.mem_cons_of_mem _ e)
    simp only [lineState, if_neg hc, if_true]
    by_cases hsp : c = ' '
    · subst hsp
      simp only [if_true]
      apply ih hcs
      unfold firstNonSpace at hh ⊢
      rwa [List.dropWhile_cons_of_pos (p := fun c => c == ' ') (by rfl)] at hh
    · rw [if_neg hsp]
      have hne : c ≠ '#' := by
        intro e
        apply hh
        unfold firstNonSpace
        rw [List.dropWhile_cons_of_neg (p := fun c => c == ' ') (by simpa using hsp), e]
        rfl
      rw [if_neg hne, lineState_no_feed cs hcs]
      simp

theorem lineState_spaces (s : Str) (h : ∀ x ∈ s, x = ' ') : ∀ st, lineState st s = some st := by
  induction s with
  | nil => intro st; rfl
  | cons c cs ih =>
    intro st
    have hc : c = ' ' := h c (List.mem_cons_self _ _)
    subst hc
    have hcs : ∀ x ∈ cs, x = ' ' := fun x hx => h x (List.mem_cons_of_mem _ hx)
    cases st with
    | true => simp only [lineState, if_true]; rw [if_neg (by decide)]; exact ih hcs true
    | false =>
      simp only [lineState, Bool.false_eq_true, if_false]
      rw [if_neg (by decide)]
      exact ih hcs false

theorem lineState_prefix (a b : Str) (st : Bool) (h : lineState st (a ++ b) ≠ none) :
    lineState st a ≠ none := by
  intro e
  rw [lineState_append, e] at h
  exact h rfl

theorem clean_write (o : OStream) (s : Str) (h : o.Clean) (hs : lineState true s ≠ none) :
    (o.write s).Clean := by
  obtain ⟨hf, hp, h2, hl⟩ := h
  unfold OStream.write
  rw [hf]
  simp only [Bool.false_eq_true, if_false]
  have hbuf : List.take o.pos o.buf ++ s ++ List.drop (o.pos + s.length) o.buf = o.buf ++ s := by
    rw [hp, List.take_length, List.drop_eq_nil_of_le (by omega), List.append_nil]
  refine ⟨rfl, ?_, by simp only []; omega, ?_⟩
  · show o.pos + s.length =
      (List.take o.pos o.buf ++ s ++ List.drop (o.pos + s.length) o.buf).length
    rw [hbuf, List.length_append, hp]
  · show lineState true
      (List.take o.pos o.buf ++ s ++ List.drop (o.pos + s.length) o.buf) ≠ none
    rw [hbuf, lineState_append]
    cases hst : lineState true o.buf with
    | none => exact absurd hst hl
    | some st => exact lineState_weaken s st hs

theorem clean_rewind (o : OStream) (h : o.Clean) : ((o.seekBack2).write ['-', ' ']).Clean := by
  obtain ⟨hf, hp, h2, hl⟩ := h
  have h1 : o.seekBack2 = { o with pos := o.pos - 2 } := by
    unfold OStream.seekBack2
    rw [hf]
    simp only [Bool.false_eq_true, if_false]
    rw [if_neg (by omega)]
  rw [h1]
  unfold OStream.write
  simp only [hf, Bool.false_eq_true, if_false, List.length_cons, List.length_nil]
  have hd : List.drop (o.pos - 2 + (0 + 1 + 1)) o.buf = [] :=
    List.drop_eq_nil_of_le (by omega)
  have hpre : lineState true (List.take (o.pos - 2) o.buf) ≠ none := by
    apply lineState_prefix _ (List.drop (o.pos - 2) o.buf)
    rw [List.take_append_drop]
    exact hl
  refine ⟨rfl, ?_, by simp only []; omega, ?_⟩
  · simp only [hd, List.append_nil, List.length_append, List.length_take, List.length_cons,
      List.length_nil]
    omega
  · simp only [hd, List.append_nil]
    rw [lineState_append]
    cases hst : lineState true (List.take (o.pos - 2) o.buf) with
    | none => exact absurd hst hpre
    | some st => cases st <;> simp [lineState]

theorem lineState_entry_tail (v : Str) (h : '\n' ∉ v) : ∀ st : Bool,
    lineState st (':' :: ' ' :: (v ++ ['\n'])) = some true := by
  intro st
  have h1 : lineState false (v ++ ['\n']) = some true := by
    rw [lineState_append, lineState_no_feed v h]
    rfl
  cases st with
  | true =>
    simp only [lineState, if_true]
    rw [if_neg (by decide), if_neg (by decide), if_neg (by decide), if_neg (by decide)]
    simpa [lineState] using h1
  | false =>
    simp only [lineState, Bool.false_eq_true, if_false]
    rw [if_neg (by decide), if_neg (by decide)]
    exact h1

theorem clean_writeOwnLine (name value : Str) (o : OStream) (h : o.Clean)
    (hn : '\n' ∉ name) (hv : '\n' ∉ value) (hname : firstNonSpace name ≠ some '#')
    (hvalue : name = [] → firstNonSpace value ≠ some '#') :
    (writeOwnLine name value o).Clean := by
  unfold writeOwnLine
  have hentry : lineState true (name ++ ':' :: ' ' :: (value ++ ['\n'])) ≠ none := by
    rw [lineState_append]
    cases hst : lineState true name with
    | none => exact absurd hst (lineState_token name hn hname)
    | some st =>
      rw [Option.some_bind, lineState_entry_tail value hv st]
      simp
  split
  · split
    · rename_i hve
      have : value = [] := by simpa using hve
      subst this
      apply clean_write _ _ h
      simpa using hentry
    · apply clean_write _ _ h
      simpa using hentry
  · rename_i hne
    have hnil : name = [] := by simpa using hne
    split
    · apply clean_write _ _ h
      rw [lineState_append]
      cases hst : lineState true value with
      | none => exact absurd hst (lineState_token value hv (hvalue hnil))
      | some st => cases st <;> simp [lineState]
    · exact h

theorem clean_writeAttributes (c : Nat) : ∀ (attributes : List (Str × Str)) (o : OStream),
    o.Clean → feedFreeAttributes attributes = true →
    (writeAttributes (indents c) attributes o).Clean := by
  intro attributes
  induction attributes with
  | nil => intro o h _; exact h
  | cons kv rest ih =>
    intro o h hfree
    obtain ⟨k, v⟩ := kv
    simp only [feedFreeAttributes, List.all_cons, Bool.and_eq_true, decide_eq_true_eq] at hfree
    rw [writeAttributes]
    apply ih _ _ (by simpa [feedFreeAttributes] using hfree.2)
    apply clean_write _ _ h
    have e : indents c ++ [' ', ' ', '_'] ++ (k ++ [':', ' ']) ++ v ++ ['\n'] =
        (indents c ++ [' ', ' ']) ++ ('_' :: (k ++ ':' :: ' ' :: (v ++ ['\n']))) := by simp
    rw [e, lineState_append, lineState_spaces _ (by
      intro x hx
      rcases List.mem_append.mp hx with hx | hx
      · exact indents_spaces c x hx
      · simp only [List.mem_cons, List.mem_singleton, List.not_mem_nil, or_false] at hx
        rcases hx with hx | hx <;> exact hx) true, Option.some_bind]
    have e2 : lineState true ('_' :: (k ++ ':' :: ' ' :: (v ++ ['\n']))) =
        lineState false (k ++ ':' :: ' ' :: (v ++ ['\n'])) := by
      simp only [lineState, if_true]
      rw [if_neg (by decide), if_neg (by decide), if_neg (by decide)]
    rw [e2, lineState_append, lineState_no_feed k hfree.1.1, Option.some_bind,
      lineState_entry_tail v hfree.1.2]
    simp

mutual
theorem AppendData_clean : ∀ (n : Metadata) (parent : Option Metadata) (index : Nat)
    (o : OStream) (c : Nat), (∀ p, parent = some p → p.GetChildren ≠ []) →
    n.commentSafe = true → o.Clean → ∃ o1, AppendData n parent index o c = some o1 ∧ o1.Clean
  | Metadata.mk name value children attributes, parent, index, o, c, hp, hsafe, h => by
    simp only [Metadata.commentSafe, Bool.and_eq_true, decide_eq_true_eq] at hsafe
    obtain ⟨⟨⟨⟨⟨hn, hv⟩, hname⟩, hvalue⟩, hattr⟩, hch⟩ := hsafe
    have hrest : ∀ o2 : OStream, o2.Clean →
        ∃ o1, AppendChildren children (Metadata.mk name value children attributes) 0
          (writeAttributes (indents c) attributes (writeOwnLine name value o2))
          (c + if name.isEmpty then 0 else 1) = some o1 ∧ o1.Clean := by
      intro o2 h2
      exact AppendChildren_clean children (Metadata.mk name value children attributes) 0 _ _
        (fun hne => hne) hch
        (clean_writeAttributes c _ _ (clean_writeOwnLine _ _ _ h2 hn hv hname hvalue) hattr)
    cases parent with
    | none =>
      rw [AppendData]
      exact hrest o h
    | some p =>
      rw [AppendData]
      cases hpc : p.GetChildren with
      | nil => exact absurd hpc (hp p rfl)
      | cons first more =>
        simp only [List.head?_cons]
        apply hrest
        have h1 : (if !(index == 0 && p.GetName.isEmpty && p.GetValue.isEmpty) then
            o.write (indents c) else o).Clean := by
          split
          · apply clean_write _ _ h
            rw [lineState_spaces _ (indents_spaces c) true]
            simp
          · exact h
        split
        · exact clean_rewind _ h1
        · exact h1
theorem AppendChildren_clean : ∀ (ns : List Metadata) (p : Metadata) (index : Nat)
    (o : OStream) (c : Nat), (ns ≠ [] → p.GetChildren ≠ []) →
    Metadata.commentSafeList ns = true → o.Clean →
    ∃ o1, AppendChildren ns p index o c = some o1 ∧ o1.Clean
  | [], p, index, o, c, _, _, h => ⟨o, by rw [AppendChildren], h⟩
  | x :: xs, p, index, o, c, hp, hsafe, h => by
    simp only [Metadata.commentSafeList, Bool.and_eq_true] at hsafe
    have hne : p.GetChildren ≠ [] := hp (by simp)
    obtain ⟨o1, h1, g1⟩ := AppendData_clean x (some p) index o c
      (fun q hq => by rw [← Option.some.inj hq]; exact hne) hsafe.1 h
    obtain ⟨o2, h2, g2⟩ := AppendChildren_clean xs p (index + 1) o1 c (fun _ => hne) hsafe.2 g1
    exact ⟨o2, by rw [AppendChildren, h1]; exact h2, g2⟩
end

/-! ### Lines of a text without comment line -/

theorem firstNonSpace_append (a b : Str) :
    firstNonSpace (a ++ b) =
      match firstNonSpace a with
      | some d => some d
      | none => firstNonSpace b := by
  unfold firstNonSpace
  induction a with
  | nil => rfl
  | cons x xs ih =>
    by_cases hx : x = ' '
    · subst hx
      rw [List.cons_append, List.dropWhile_cons_of_pos (p := fun c => c == ' ') (by rfl),
        List.dropWhile_cons_of_pos (p := fun c => c == ' ') (by rfl)]
      exact ih
    · have hx2 : ¬ ((x == ' ') = true) := by simpa using hx
      rw [List.cons_append, List.dropWhile_cons_of_neg (p := fun c => c == ' ') hx2,
        List.dropWhile_cons_of_neg (p := fun c => c == ' ') hx2]
      rfl

theorem firstNonSpace_spaces (a : Str) (h : ∀ x ∈ a, x = ' ') : firstNonSpace a = none := by
  unfold firstNonSpace
  have : a.dropWhile (fun c => c == ' ') = [] := by
    rw [List.dropWhile_eq_nil_iff]
    intro x hx
    rw [h x hx]
    rfl
  rw [this]
  rfl

theorem readLinesAux_no_comment (t : Str) : ∀ (cur : Str) (st : Bool),
    (st = true → ∀ x ∈ cur, x = ' ') →
    (st = false → ∃ d, firstNonSpace cur.reverse = some d ∧ d ≠ '#') →
    lineState st t ≠ none → ∀ l ∈ readLinesAux cur t, firstNonSpace l ≠ some '#' := by
  have hline : ∀ (cur : Str) (st : Bool), (st = true → ∀ x ∈ cur, x = ' ') →
      (st = false → ∃ d, firstNonSpace cur.reverse = some d ∧ d ≠ '#') →
      firstNonSpace cur.reverse ≠ some '#' := by
    intro cur st h1 h2
    cases st with
    | true =>
      rw [firstNonSpace_spaces _ (fun x hx => h1 rfl x (List.mem_reverse.mp hx))]
      simp
    | false =>
      obtain ⟨d, hd, hne⟩ := h2 rfl
      rw [hd]
      intro e
      exact hne (Option.some.inj e)
  induction t with
  | nil =>
    intro cur st h1 h2 _ l hl
    rw [readLinesAux] at hl
    split at hl
    · simp at hl
    · rw [List.mem_singleton.mp hl]
      exact hline cur st h1 h2
  | cons c cs ih =>
    intro cur st h1 h2 hls l hl
    rw [readLinesAux] at hl
    by_cases hc : c = '\n'
    · rw [if_pos hc] at hl
      rw [lineState, if_pos hc] at hls
      rcases List.mem_cons.mp hl with hl | hl
      · rw [hl]
        exact hline cur st h1 h2
      · exact ih [] true (fun _ x hx => by simp at hx) (fun e => by cases e) hls l hl
    · rw [if_neg hc] at hl
      rw [lineState, if_neg hc] at hls
      cases st with
      | true =>
        simp only [if_true] at hls
        by_cases hsp : c = ' '
        · rw [if_pos hsp] at hls
          refine ih (c :: cur) true (fun _ x hx => ?_) (fun e => by cases e) hls l hl
          rcases List.mem_cons.mp hx with hx | hx
          · rw [hx, hsp]
          · exact h1 rfl x hx
        · rw [if_neg hsp] at hls
          by_cases hh : c = '#'
          · rw [if_pos hh] at hls
            exact absurd rfl hls
          · rw [if_neg hh] at hls
            refine ih (c :: cur) false (fun e => by cases e) (fun _ => ⟨c, ?_, hh⟩) hls l hl
            rw [List.reverse_cons, firstNonSpace_append,
              firstNonSpace_spaces _ (fun x hx => h1 rfl x (List.mem_reverse.mp hx))]
            unfold firstNonSpace
            rw [List.dropWhile_cons_of_neg (p := fun c => c == ' ') (by simpa using hsp)]
            rfl
      | false =>
        simp only [Bool.false_eq_true, if_false] at hls
        obtain ⟨d, hd, hne⟩ := h2 rfl
        refine ih (c :: cur) false (fun e => by cases e) (fun _ => ⟨d, ?_, hne⟩) hls l hl
        rw [List.reverse_cons, firstNonSpace_append, hd]

/-- C14, as stated, fails: a node named `#a` is written as the line `#a: 1`, whose first
character is `#`; read back, the line is dropped as a comment and the node is lost. -/
theorem Write_comment_line :
    WriteText hashName = some "---\n#a: 1\n".toList ∧
      firstNonSpace "#a: 1".toList = some '#' ∧
      (WriteText hashName).bind (Load Yaml.new) = some (Metadata.mk [] [] [] []) := by
  refine ⟨by decide!, by decide, by rfl⟩

/-- C14, amended: for every tree in which no name, value, attribute key or attribute value
contains a line feed, no name has `#` as its first character other than a space, and no value
of a node without name has `#` as its first character other than a space, `Yaml::Write`
succeeds and no line of the text it produces has `#` as its first character other than a
space. -/
theorem Write_no_comment_line (self : Metadata) (h : self.commentSafe = true) :
    ∃ text, WriteText self = some text ∧
      ∀ l ∈ readLines text, firstNonSpace l ≠ some '#' := by
  have hclean : ((OStream.mk [] 0 false).write ['-', '-', '-', '\n']).Clean := by
    refine ⟨rfl, rfl, by decide, by decide⟩
  obtain ⟨o1, h1, g1⟩ := AppendData_clean self none 0 _ 0 (fun p hp => by cases hp) h hclean
  refine ⟨o1.buf, ?_, ?_⟩
  · unfold WriteText Write
    rw [h1]
    rfl
  · exact readLinesAux_no_comment o1.buf [] true (fun _ x hx => by simp at hx)
      (fun e => by cases e) g1.2.2.2

theorem Write_no_comment_line_witness :
    (WriteText attributeThenItem).map
        (fun t => (readLines t).all fun l => decide (firstNonSpace l ≠ some '#')) =
      some true :=
  (Write_no_comment_line attributeThenItem (by decide)).elim fun text h => by
    rw [h.1, Option.map_some']
    apply congrArg some
    rw [List.all_eq_true]
    intro l hl
    exact decide_eq_true (h.2 l hl)

/-! ## Reading a chain of lines down to the largest indentation -/

theorem keyedLines_chain_zero (c : Nat) :
    keyedLines c (chainTree 0) = [indents c ++ (['a'] ++ [':', ' '] ++ [])] := by
  rw [chainTree, keyedLines]
  rfl

theorem keyedLines_chain_succ (c n : Nat) :
    keyedLines c (chainTree (n + 1)) =
      (indents c ++ (['a'] ++ [':', ' '] ++ [])) :: keyedLines (c + 1) (chainTree n) := by
  rw [chainTree, keyedLines, keyedLinesList, keyedLinesList]
  simp [attributeLines]

theorem chain_line_content (c : Nat) :
    String.Trim (indents c ++ (['a'] ++ [':', ' '] ++ [])) = ['a', ':'] := by
  rw [Trim_entry (indents c) ['a'] [] (indents_whitespace c) (by decide) (by decide) (by decide)]
  rfl

theorem chain_line_scan (c : Nat) (hc : 2 * c < U32) :
    scanLine (indents c ++ (['a'] ++ [':', ' '] ++ [])) 0 = (2 * c, false) :=
  scanLine_indented c _ hc (by
    intro x hx
    simp only [List.append_nil, List.cons_append, List.nil_append, List.head?_cons,
      Option.some.injEq] at hx
    subst hx
    decide)

theorem chain_line_not_marker (c : Nat) :
    indents c ++ (['a'] ++ [':', ' '] ++ []) ≠ ['-', '-', '-'] := by
  intro e
  have : ':' ∈ indents c ++ (['a'] ++ [':', ' '] ++ []) := by simp
  rw [e] at this
  simp at this

theorem step_deeper (f : Frame) (sec : Section) (par : List Frame) (c : Nat) (l : Str)
    (hmarker : l ≠ ['-', '-', '-']) (hscan : scanLine l 0 = (2 * (c + 1), false)) :
    (LoadState.mk (f.add [sec]) par (2 * c)).step l =
      some ⟨(Frame.ofSection sec).add [Section.mk (String.Trim l) (2 * (c + 1)) []], f :: par,
        2 * (c + 1)⟩ := by
  rw [step_of_scan _ l _ hmarker hscan, adjust_deeper]
  rfl

theorem run_chain (n : Nat) : ∀ (c : Nat) (f : Frame) (par : List Frame),
    2 * (c + 1 + n) < U32 →
    LoadState.run (keyedLines (c + 1) (chainTree n)) (descendState 0 c f par) =
      some (descendState (n + 1) c f par) := by
  induction n with
  | zero =>
    intro c f par hc
    rw [keyedLines_chain_zero, LoadState.run, descendState,
      step_deeper f _ par c _ (chain_line_not_marker _) (chain_line_scan _ (by omega)),
      chain_line_content]
    rfl
  | succ k ih =>
    intro c f par hc
    rw [keyedLines_chain_succ, LoadState.run, descendState,
      step_deeper f _ par c _ (chain_line_not_marker _) (chain_line_scan _ (by omega)),
      chain_line_content, Option.some_bind]
    have := ih (c + 1) ⟨['a', ':'], 2 * c, []⟩ (f :: par) (by omega)
    rw [descendState] at this
    exact this

theorem run_chain_init (n : Nat) (hn : 2 * n < U32) :
    LoadState.init.run (keyedLines 0 (chainTree n)) = some (descendState n 0 ⟨[], 0, []⟩ []) := by
  have hfirst : LoadState.init.step (indents 0 ++ (['a'] ++ [':', ' '] ++ [])) =
      some (descendState 0 0 ⟨[], 0, []⟩ []) := by rfl
  cases n with
  | zero =>
    rw [keyedLines_chain_zero, LoadState.run, hfirst]
    rfl
  | succ k =>
    rw [keyedLines_chain_succ, LoadState.run, hfirst, Option.some_bind]
    exact run_chain k 0 _ _ (by omega)

theorem descendState_last (n : Nat) : ∀ (c : Nat) (f : Frame) (par : List Frame),
    (descendState n c f par).lastIndentation = 2 * (c + n) := by
  induction n with
  | zero => intro c f par; rfl
  | succ k ih =>
    intro c f par
    rw [descendState, ih]
    omega

theorem descendState_parents (n : Nat) : ∀ (c : Nat) (f : Frame) (par : List Frame),
    (descendState n c f par).parents.length = n + par.length := by
  induction n with
  | zero => intro c f par; simp [descendState]
  | succ k ih =>
    intro c f par
    rw [descendState, ih]
    simp only [List.length_cons]
    omega

theorem descendState_top (n : Nat) : ∀ (c : Nat) (f : Frame) (par : List Frame),
    LoadState.top (descendState n c f par).parents (descendState n c f par).current =
      LoadState.top par (f.add [chainSection n c]) := by
  induction n with
  | zero => intro c f par; rfl
  | succ k ih =>
    intro c f par
    rw [descendState, ih]
    rfl

theorem ascend_top (k : Nat) : ∀ s : LoadState,
    LoadState.top (s.ascend k).parents (s.ascend k).current =
      LoadState.top s.parents s.current := by
  induction k with
  | zero => intro s; rfl
  | succ j ih =>
    intro s
    rw [LoadState.ascend, ih]
    obtain ⟨cur, par, l⟩ := s
    cases par with
    | nil => rfl
    | cons p rest => rfl

theorem ascend_parents (k : Nat) : ∀ s : LoadState, s.parents.length ≤ k →
    (s.ascend k).parents = [] := by
  induction k with
  | zero =>
    intro s h
    exact List.length_eq_zero.mp (Nat.le_zero.mp h)
  | succ j ih =>
    intro s h
    rw [LoadState.ascend]
    apply ih
    obtain ⟨cur, par, l⟩ := s
    cases par with
    | nil => simp [LoadState.toParent]
    | cons p rest =>
      simp only [LoadState.toParent]
      simp only [List.length_cons] at h
      omega

theorem ascend_last (k : Nat) : ∀ s : LoadState,
    (s.ascend k).lastIndentation = s.lastIndentation := by
  induction k with
  | zero => intro s; rfl
  | succ j ih =>
    intro s
    rw [LoadState.ascend, ih]
    obtain ⟨cur, par, l⟩ := s
    cases par <;> rfl

theorem chainSection_eq (n c : Nat) :
    ∃ kids, chainSection n c = Section.mk ['a', ':'] (2 * c) kids := by
  cases n with
  | zero => exact ⟨[], rfl⟩
  | succ k => exact ⟨[chainSection k (c + 1)], rfl⟩

theorem U32_eq : U32 = 4294967296 := by decide

theorem adjust_wrap (s : LoadState) (n : Nat) (hn : 2 * n + 2 = U32)
    (hlast : s.lastIndentation = 2 * n) :
    s.adjust 0 = (s.ascend n).descend := by
  have hU := U32_eq
  have h1 : 0 < 2 * n := by omega
  have h2 : sub32 (2 * n) 0 / 2 = n := by
    rw [sub32_of_le _ _ (Nat.zero_le _) (by omega)]
    omega
  have h3 : sub32 0 (2 * n) = 2 := by
    unfold sub32
    have : 0 + U32 - 2 * n = 2 := by omega
    rw [this]
    decide
  unfold LoadState.adjust
  rw [hlast]
  simp only [h1, if_true, h2, h3]

/-- The lines of the deep tree, read by `Yaml::Load`: the line `b: ` at indentation 0 follows
a line of indentation `2 ^ 32 - 2`; the difference `0 - (2 ^ 32 - 2)` is 2 on `uint32_t`, so
after the walk up to `topSection` the cursor descends into the first Section again, and the
Section of `b: ` becomes its child. -/
theorem run_deep (n : Nat) (hn : 2 * n + 2 = U32) :
    ∃ s kids, LoadState.init.run (keyedLinesList 0 (deepTreeOf n).GetChildren) = some s ∧
      LoadState.top s.parents s.current =
        Section.mk [] 0 [Section.mk ['a', ':'] 0 (kids ++ [Section.mk ['b', ':'] 0 []])] := by
  have hU := U32_eq
  have hlines : keyedLinesList 0 (deepTreeOf n).GetChildren =
      keyedLines 0 (chainTree n) ++ [['b', ':', ' ']] := by
    simp only [deepTreeOf, Metadata.GetChildren, keyedLinesList, keyedLines, attributeLines,
      indents, List.nil_append, List.append_nil, List.cons_append]
  have hdown := run_chain_init n (by omega)
  have hlast := descendState_last n 0 ⟨[], 0, []⟩ []
  have hpar := descendState_parents n 0 ⟨[], 0, []⟩ []
  have htop := descendState_top n 0 ⟨[], 0, []⟩ []
  generalize descendState n 0 ⟨[], 0, []⟩ [] = sd at hdown hlast hpar htop
  have hup_par := ascend_parents n sd (by rw [hpar]; simp)
  have hup_top := ascend_top n sd
  rw [htop] at hup_top
  have hadj := adjust_wrap sd n hn (by rw [hlast]; omega)
  obtain ⟨kids, hkids⟩ := chainSection_eq n 0
  cases hup : sd.ascend n with
  | mk cur par l =>
    rw [hup] at hup_par hup_top hadj
    simp only [] at hup_par
    subst hup_par
    have hcur : cur = ⟨[], 0, [Section.mk ['a', ':'] 0 kids]⟩ := by
      rw [hkids] at hup_top
      obtain ⟨cc, ci, cch⟩ := cur
      simp only [LoadState.top, Frame.toSection, Frame.add, List.nil_append,
        Section.mk.injEq] at hup_top
      obtain ⟨h1, h2, h3⟩ := hup_top
      subst h1; subst h2; subst h3
      rfl
    subst hcur
    have hdesc : (LoadState.mk ⟨[], 0, [Section.mk ['a', ':'] 0 kids]⟩ [] l).descend =
        some ⟨⟨['a', ':'], 0, kids⟩, [⟨[], 0, []⟩], l⟩ := rfl
    rw [hdesc] at hadj
    have hstep : sd.step ['b', ':', ' '] =
        some ⟨⟨['a', ':'], 0, kids ++ [Section.mk ['b', ':'] 0 []]⟩, [⟨[], 0, []⟩], 0⟩ := by
      rw [step_of_scan sd ['b', ':', ' '] 0 (by decide) (by decide), hadj]
      rfl
    refine ⟨⟨⟨['a', ':'], 0, kids ++ [Section.mk ['b', ':'] 0 []]⟩, [⟨[], 0, []⟩], 0⟩, kids,
      ?_, rfl⟩
    rw [hlines, run_append, hdown, Option.some_bind, LoadState.run, hstep]
    rfl

/-! ## Round trip under clean tokens -/

theorem cleanAttributes_of_tidy (attributes : List (Str × Str))
    (h : tidyAttributes attributes = true) : cleanAttributes attributes = true := by
  simp only [tidyAttributes, cleanAttributes, Bool.and_eq_true, decide_eq_true_eq,
    List.all_eq_true] at h ⊢
  refine ⟨h.1, fun kv hkv => ?_⟩
  have := h.2 kv hkv
  simp only [tidyKey, cleanKey, cleanValue, decide_eq_true_eq] at this ⊢
  exact ⟨⟨this.1.2.1, this.1.2.2.1, Trim_underscore_key kv.1 this.1.2.2.2⟩, this.2⟩

mutual
theorem clean_of_tidy : ∀ (n : Metadata), n.tidy = true → n.clean = true
  | Metadata.mk name value children attributes, h => by
    simp only [Metadata.tidy, Bool.and_eq_true] at h
    simp only [Metadata.clean, Bool.and_eq_true]
    exact ⟨⟨⟨h.1.1.1, h.1.1.2⟩, cleanAttributes_of_tidy attributes h.1.2⟩,
      cleanList_of_tidyList children h.2⟩
theorem cleanList_of_tidyList : ∀ (ns : List Metadata), Metadata.tidyList ns = true →
    Metadata.cleanList ns = true
  | [], _ => rfl
  | x :: xs, h => by
    simp only [Metadata.tidyList, Bool.and_eq_true] at h
    simp only [Metadata.cleanList, Bool.and_eq_true]
    exact ⟨clean_of_tidy x h.1, cleanList_of_tidyList xs h.2⟩
end

theorem chainTree_tidy (n : Nat) : (chainTree n).tidy = true := by
  induction n with
  | zero => decide
  | succ k ih =>
    rw [chainTree, Metadata.tidy, Metadata.tidyList, Metadata.tidyList, ih]
    decide

theorem deepTreeOf_tidy (n : Nat) : Metadata.tidyList (deepTreeOf n).GetChildren = true := by
  rw [deepTreeOf, Metadata.GetChildren, Metadata.tidyList, Metadata.tidyList,
    Metadata.tidyList, chainTree_tidy]
  decide

/-- Writing clean sibling trees under a root and reading the text back gives the root with
these trees as children, when the tree has fewer than `2 ^ 31` levels. -/
theorem Load_WriteText_cleanList (self : Metadata)
    (hself : self.GetName = [] ∧ self.GetValue = []) (children : List Metadata)
    (hclean : Metadata.cleanList children = true)
    (hheight : 2 * Metadata.heightList children + 2 < U32) :
    (WriteText (Metadata.mk [] [] children [])).bind (Load self) =
      some (Metadata.mk [] [] children []) := by
  rw [WriteText_named children [] (namedList_of_cleanList children hclean), Option.some_bind]
  unfold Load
  rw [readLines_unlines, LoadLines_of_yaml self hself.1 hself.2]
  · exact LoadLines_keyedLines children hclean hheight
  · intro l hl
    rw [List.mem_cons] at hl
    rcases hl with hl | hl
    · subst hl; decide
    · exact keyedLinesList_no_feed children 0 hclean l (by simpa [attributeLines] using hl)

/-- At the end of the range of the `uint32_t` indentation counter the round trip of the model
stops: for the chain of `n + 1` nested nodes `a` with `2 * n + 2 = 2 ^ 32`, followed by a node
`b`, the line of `b` follows a line indented by `2 ^ 32 - 2` spaces. -/
theorem Load_Write_deep (n : Nat) (hn : 2 * n + 2 = U32) :
    (WriteText (deepTreeOf n)).bind (Load Yaml.new) ≠ some (deepTreeOf n) := by
  have hclean := cleanList_of_tidyList _ (deepTreeOf_tidy n)
  obtain ⟨s, kids, hrun, htop⟩ := run_deep n hn
  have hw : WriteText (deepTreeOf n) =
      some (unlines (['-', '-', '-'] :: (attributeLines 0 [] ++
        keyedLinesList 0 (deepTreeOf n).GetChildren))) :=
    WriteText_named _ [] (namedList_of_cleanList _ hclean)
  have hread : readLines (unlines (['-', '-', '-'] :: (attributeLines 0 [] ++
      keyedLinesList 0 (deepTreeOf n).GetChildren))) =
      ['-', '-', '-'] :: keyedLinesList 0 (deepTreeOf n).GetChildren := by
    rw [readLines_unlines]
    · rfl
    · intro l hl
      rw [List.mem_cons] at hl
      rcases hl with hl | hl
      · subst hl; decide
      · exact keyedLinesList_no_feed _ 0 hclean l (by simpa [attributeLines] using hl)
  have hroot : ∀ cs : List Section,
      Convert (Section.mk [] 0 cs) Yaml.new true = ConvertChildren cs Yaml.new := by
    intro cs; rw [Convert]; rfl
  have hload : Load Yaml.new (unlines (['-', '-', '-'] :: (attributeLines 0 [] ++
      keyedLinesList 0 (deepTreeOf n).GetChildren))) =
      some (Metadata.mk [] [] [ConvertChildren (kids ++ [Section.mk ['b', ':'] 0 []])
        (Metadata.mk (sectionName ['a', ':']) (sectionValue ['a', ':']) [] [])] []) := by
    unfold Load LoadLines
    rw [hread, LoadState.run, step_ignored _ _ (Or.inl rfl), Option.some_bind, hrun,
      Option.map_some', htop]
    apply congrArg some
    have hc : Yaml.new.ClearChildren.ClearAttributes = Yaml.new := rfl
    rw [hc, hroot, ConvertChildren, ConvertChildren, Convert_eq,
      if_neg (by decide), if_neg (by decide)]
    rfl
  rw [hw, Option.some_bind, hload]
  intro h
  simp [deepTreeOf] at h

/-- C15: for every tree `T` whose root (name and value empty) has no attributes, whose other
nodes all have names that are not empty, contain no colon and no line feed, have no leading or
trailing whitespace and do not begin with `_`, `#` or `-`, whose values contain no line feed
and have no leading or trailing whitespace, and whose attributes form a mapping with keys
under the restrictions of names (any first character) and values under those of values,
`Yaml::Load` applied to the output of `Yaml::Write` on `T` returns a tree equal to `T`. The
side condition that `T` has fewer than `2 ^ 31` levels keeps the indentation of every line
below `2 ^ 32 - 2`, the range of the `uint32_t` counter of `Yaml::Load`; the text of a tree
with more levels has more than `2 ^ 62` characters. -/
theorem Load_Write_tidy (self T : Metadata)
    (hself : self.GetName = [] ∧ self.GetValue = [])
    (hroot : T.GetName = [] ∧ T.GetValue = [] ∧ T.GetAttributes = [])
    (htidy : Metadata.tidyList T.GetChildren = true)
    (hheight : T.height < 2 ^ 31) :
    (WriteText T).bind (Load self) = some T := by
  cases T with
  | mk name value children attributes =>
    simp only [Metadata.GetName, Metadata.GetValue, Metadata.GetAttributes,
      Metadata.GetChildren] at hroot htidy
    obtain ⟨h1, h2, h3⟩ := hroot
    subst h1; subst h2; subst h3
    rw [Metadata.height] at hheight
    have hU := U32_eq
    exact Load_WriteText_cleanList self hself children (cleanList_of_tidyList children htidy)
      (by omega)

theorem Load_Write_tidy_witness :
    (WriteText cleanExample).bind (Load Yaml.new) = some cleanExample :=
  Load_Write_tidy Yaml.new cleanExample ⟨rfl, rfl⟩ ⟨rfl, rfl, rfl⟩ (by decide) (by decide)

/-! ## Well-formed nesting -/

theorem step_not_content (s : LoadState) (l : Str) (h : isContent l = false) :
    s.step l = some s := by
  unfold LoadState.step
  by_cases hm : l = ['-', '-', '-']
  · rw [if_pos hm]
  · rw [if_neg hm]
    have : (scanLine l 0).2 = true := by
      simpa [isContent, hm] using h
    simp only [this, if_true]

theorem content_facts (l : Str) (h : isContent l = true) :
    l ≠ ['-', '-', '-'] ∧ scanLine l 0 = (lineIndent l, false) := by
  simp only [isContent, Bool.and_eq_true, decide_eq_true_eq, Bool.not_eq_true'] at h
  refine ⟨h.1, ?_⟩
  unfold lineIndent
  rw [← h.2]

theorem run_filter (lines : List Str) : ∀ s : LoadState,
    LoadState.run lines s = LoadState.run (lines.filter isContent) s := by
  induction lines with
  | nil => intro s; rfl
  | cons l ls ih =>
    intro s
    cases hc : isContent l with
    | true =>
      rw [List.filter_cons_of_pos hc, LoadState.run, LoadState.run]
      cases s.step l with
      | none => rfl
      | some s1 => exact ih s1
    | false =>
      rw [List.filter_cons_of_neg (by simp [hc]), LoadState.run, step_not_content s l hc]
      exact ih s

theorem nestedUnder_filter (lines : List Str) : ∀ j : Nat,
    nestedUnder j lines = nestedUnder j (lines.filter isContent) := by
  induction lines with
  | nil => intro j; rfl
  | cons l ls ih =>
    intro j
    cases hc : isContent l with
    | true =>
      rw [List.filter_cons_of_pos hc, nestedUnder, nestedUnder, hc, ih j, ih (j + 2)]
    | false =>
      rw [List.filter_cons_of_neg (by simp [hc]), nestedUnder, hc]
      exact ih j

theorem wellNested_filter (lines : List Str) : ∀ p : Nat,
    wellNested p lines = wellNested p (lines.filter isContent) := by
  induction lines with
  | nil => intro p; rfl
  | cons l ls ih =>
    intro p
    cases hc : isContent l with
    | true =>
      rw [List.filter_cons_of_pos hc, wellNested, wellNested, hc, ih]
      simp only [if_true]
    | false =>
      rw [List.filter_cons_of_neg (by simp [hc]), wellNested, hc]
      exact ih p

theorem wellNestedInput_filter (lines : List Str) (h : wellNestedInput lines = true) :
    (∀ l, (lines.filter isContent).head? = some l → lineIndent l = 0) ∧
      wellNested 0 (lines.filter isContent) = true := by
  induction lines with
  | nil => exact ⟨fun l hl => by simp at hl, rfl⟩
  | cons l ls ih =>
    cases hc : isContent l with
    | true =>
      rw [wellNestedInput, hc] at h
      simp only [if_true, Bool.and_eq_true, decide_eq_true_eq] at h
      rw [List.filter_cons_of_pos hc]
      refine ⟨fun x hx => ?_, ?_⟩
      · simp only [List.head?_cons, Option.some.injEq] at hx
        rw [← hx]; exact h.1
      · rw [wellNested, hc, h.1, ← wellNested_filter, h.2]
        rfl
    | false =>
      rw [wellNestedInput, hc] at h
      rw [List.filter_cons_of_neg (by simp [hc])]
      exact ih h

theorem wellNested_cons (q : Nat) (l : Str) (ls : List Str) (hc : isContent l = true)
    (h : wellNested q (l :: ls) = true) :
    lineIndent l % 2 = 0 ∧ lineIndent l ≤ q + 2 ∧ wellNested (lineIndent l) ls = true := by
  rw [wellNested, hc] at h
  simpa only [if_true, Bool.and_eq_true, decide_eq_true_eq, and_assoc] using h

theorem wellNested_suffix (a b : List Str) : ∀ q : Nat, wellNested q (a ++ b) = true →
    ∃ r, wellNested r b = true := by
  induction a with
  | nil => intro q h; exact ⟨q, h⟩
  | cons l ls ih =>
    intro q h
    rw [List.cons_append, wellNested] at h
    split at h
    · simp only [Bool.and_eq_true] at h
      exact ih _ h.2
    · exact ih _ h

/-- Below a line of smaller indentation no line of indentation `j` is found before a line of
indentation `j - 2`: indentation climbs by steps of at most 2. -/
theorem nestedUnder_climb (j : Nat) (hj : j % 2 = 0) : ∀ (ls : List Str) (q : Nat),
    (∀ l ∈ ls, isContent l = true) → wellNested q ls = true →
    (∀ l, ls.head? = some l → lineIndent l < j) → nestedUnder j ls = [] := by
  intro ls
  induction ls with
  | nil => intro q _ _ _; rfl
  | cons l rest ih =>
    intro q hcont hwn hhead
    have hc := hcont l (List.mem_cons_self _ _)
    obtain ⟨heven, -, hrest⟩ := wellNested_cons q l rest hc hwn
    have hlt := hhead l rfl
    rw [nestedUnder, hc]
    simp only [if_true]
    by_cases h2 : lineIndent l + 2 = j
    · rw [if_pos h2]
    · rw [if_neg h2, if_neg (by omega)]
      apply ih (lineIndent l) (fun x hx => hcont x (List.mem_cons_of_mem _ hx)) hrest
      intro x hx
      cases rest with
      | nil => simp at hx
      | cons y ys =>
        simp only [List.head?_cons, Option.some.injEq] at hx
        have hy := wellNested_cons (lineIndent l) y ys
          (hcont y (List.mem_cons_of_mem _ (List.mem_cons_self _ _))) hrest
        rw [← hx]
        omega

/-- Lines that are indented by more than `j` are not children at indentation `j`. -/
theorem nestedUnder_skip (j : Nat) : ∀ ls : List Str, (∀ l ∈ ls, isContent l = true) →
    nestedUnder j ls =
      nestedUnder j (ls.dropWhile fun l => decide (j + 2 ≤ lineIndent l)) := by
  intro ls
  induction ls with
  | nil => intro _; rfl
  | cons l rest ih =>
    intro hcont
    have hc := hcont l (List.mem_cons_self _ _)
    by_cases h : j + 2 ≤ lineIndent l
    · rw [List.dropWhile_cons_of_pos (by simpa using h), nestedUnder, hc]
      simp only [if_true]
      rw [if_neg (by omega), if_neg (by omega)]
      exact ih (fun x hx => hcont x (List.mem_cons_of_mem _ hx))
    · rw [List.dropWhile_cons_of_neg (by simpa using h)]

theorem takeWhile_split (p q : Str → Bool) (hqp : ∀ l, q l = true → p l = true) :
    ∀ ls : List Str, ls.takeWhile p = ls.takeWhile q ++ (ls.dropWhile q).takeWhile p := by
  intro ls
  induction ls with
  | nil => rfl
  | cons l rest ih =>
    by_cases hq : q l = true
    · rw [List.takeWhile_cons_of_pos (hqp l hq), List.takeWhile_cons_of_pos hq,
        List.dropWhile_cons_of_pos hq, ih]
      rfl
    · rw [List.takeWhile_cons_of_neg hq, List.dropWhile_cons_of_neg hq]
      rfl

theorem dropWhile_head (p : Str → Bool) : ∀ (ls : List Str) (l : Str),
    (ls.dropWhile p).head? = some l → p l = false := by
  intro ls
  induction ls with
  | nil => intro l h; simp at h
  | cons x rest ih =>
    intro l h
    by_cases hx : p x = true
    · rw [List.dropWhile_cons_of_pos hx] at h
      exact ih l h
    · rw [List.dropWhile_cons_of_neg hx] at h
      simp only [List.head?_cons, Option.some.injEq] at h
      rw [← h]
      simpa using hx

theorem nested_child_section (t : Str) (i : Nat) (kids : List Section) :
    ((Frame.ofSection (Section.mk t i [])).add kids).toSection = Section.mk t i kids := rfl

/-- The loop of `Yaml::Load` over the lines below the current Section, up to the first line
that is indented by less: the current Section receives the children that the description
gives it. -/
theorem run_nested : ∀ (n : Nat) (ls : List Str), ls.length ≤ n →
    (∀ l ∈ ls, isContent l = true) → (∀ l ∈ ls, lineIndent l + 2 < U32) →
    ∀ q : Nat, wellNested q ls = true →
    ∀ (c : Nat) (s : LoadState) (cur : Frame) (par : List Frame), s.Follows c cur par →
    (∀ l, ls.head? = some l → lineIndent l ≤ 2 * c) →
    ∃ s1, LoadState.run (ls.takeWhile fun l => decide (2 * c ≤ lineIndent l)) s = some s1 ∧
      s1.Follows c (cur.add (nestedUnder (2 * c) ls)) par := by
  intro n
  induction n with
  | zero =>
    intro ls hlen _ _ q _ c s cur par hf _
    have : ls = [] := List.length_eq_zero.mp (Nat.le_zero.mp hlen)
    subst this
    exact ⟨s, rfl, by rw [nestedUnder, Frame.add_nil]; exact hf⟩
  | succ n ih =>
    intro ls hlen hcont hbound q hwn c s cur par hf hhead
    cases ls with
    | nil => exact ⟨s, rfl, by rw [nestedUnder, Frame.add_nil]; exact hf⟩
    | cons l rest =>
      have hc := hcont l (List.mem_cons_self _ _)
      obtain ⟨hm, hscan⟩ := content_facts l hc
      obtain ⟨heven, -, hrest⟩ := wellNested_cons q l rest hc hwn
      have hle := hhead l rfl
      have hcontR : ∀ x ∈ rest, isContent x = true :=
        fun x hx => hcont x (List.mem_cons_of_mem _ hx)
      have hboundR : ∀ x ∈ rest, lineIndent x + 2 < U32 :=
        fun x hx => hbound x (List.mem_cons_of_mem _ hx)
      have hlenR : rest.length ≤ n := by simpa using hlen
      rcases Nat.lt_or_ge (lineIndent l) (2 * c) with hlt | hge
      · refine ⟨s, ?_, ?_⟩
        · rw [List.takeWhile_cons_of_neg (by simpa using hlt)]
          rfl
        · rw [nestedUnder_climb (2 * c) (by omega) (l :: rest) q hcont hwn
            (fun x hx => by
              simp only [List.head?_cons, Option.some.injEq] at hx
              rw [← hx]; exact hlt), Frame.add_nil]
          exact hf
      · have hi : lineIndent l = 2 * c := by omega
        rw [hi] at hscan hrest
        have hstep := follows_step s c cur par hf l hm hscan
        have hkids : ∃ s2, LoadState.run
            (rest.takeWhile fun x => decide (2 * c + 2 ≤ lineIndent x))
            ⟨cur.add [Section.mk (String.Trim l) (2 * c) []], par, 2 * c⟩ = some s2 ∧
            s2.Follows c
              (cur.add [Section.mk (String.Trim l) (2 * c) (nestedUnder (2 * c + 2) rest)])
              par := by
          cases rest with
          | nil => exact ⟨_, rfl, follows_self _ _ c hf.1⟩
          | cons y ys =>
            have hyc := hcontR y (List.mem_cons_self _ _)
            obtain ⟨hyeven, hyle, -⟩ := wellNested_cons (2 * c) y ys hyc hrest
            rcases Nat.lt_or_ge (lineIndent y) (2 * c + 2) with hylt | hyge
            · refine ⟨⟨cur.add [Section.mk (String.Trim l) (2 * c) []], par, 2 * c⟩, ?_, ?_⟩
              · rw [List.takeWhile_cons_of_neg (by simpa using hylt)]
                rfl
              · rw [nestedUnder_climb (2 * c + 2) (by omega) (y :: ys) (2 * c) hcontR hrest
                  (fun x hx => by
                    simp only [List.head?_cons, Option.some.injEq] at hx
                    rw [← hx]; exact hylt)]
                exact follows_self _ _ c hf.1
            · have hb := hboundR y (List.mem_cons_self _ _)
              have hd := follows_descend cur (Section.mk (String.Trim l) (2 * c) []) par c
                hf.1 (by omega)
              obtain ⟨s2, hr, hf2⟩ := ih (y :: ys) hlenR hcontR hboundR (2 * c) hrest (c + 1)
                _ _ _ hd (fun x hx => by
                  simp only [List.head?_cons, Option.some.injEq] at hx
                  rw [← hx]; omega)
              have hp := follows_pop s2 c _ cur par hf2 (by omega)
              rw [nested_child_section] at hp
              exact ⟨s2, hr, hp⟩
        obtain ⟨s2, hr2, hf2⟩ := hkids
        have hsuffix : (rest.dropWhile fun x => decide (2 * c + 2 ≤ lineIndent x)) <:+ rest :=
          List.dropWhile_suffix _
        obtain ⟨r, hr⟩ := wellNested_suffix
          (rest.takeWhile fun x => decide (2 * c + 2 ≤ lineIndent x))
          (rest.dropWhile fun x => decide (2 * c + 2 ≤ lineIndent x)) (2 * c)
          (by rw [List.takeWhile_append_dropWhile]; exact hrest)
        have hcontD : ∀ x ∈ rest.dropWhile fun x => decide (2 * c + 2 ≤ lineIndent x),
            isContent x = true := fun x hx => hcontR x (hsuffix.subset hx)
        obtain ⟨s3, hr3, hf3⟩ := ih _ (Nat.le_trans hsuffix.length_le hlenR) hcontD
          (fun x hx => hboundR x (hsuffix.subset hx)) r hr c s2 _ par hf2 (by
            intro x hx
            have hlow := dropWhile_head _ rest x hx
            have hxmem : x ∈ rest.dropWhile fun x => decide (2 * c + 2 ≤ lineIndent x) :=
              List.mem_of_mem_head? hx
            have hxlt : lineIndent x < 2 * c + 2 := by simpa using hlow
            have hxeven : lineIndent x % 2 = 0 := by
              revert hr hx
              cases rest.dropWhile fun x => decide (2 * c + 2 ≤ lineIndent x) with
              | nil => intro _ hx; simp at hx
              | cons z zs =>
                intro hr hx
                simp only [List.head?_cons, Option.some.injEq] at hx
                rw [← hx]
                exact (wellNested_cons r z zs (by rw [hx]; exact hcontD x hxmem) hr).1
            omega)
        refine ⟨s3, ?_, ?_⟩
        · rw [List.takeWhile_cons_of_pos (by simpa using hge), LoadState.run, hstep,
            Option.some_bind,
            takeWhile_split (fun x => decide (2 * c ≤ lineIndent x))
              (fun x => decide (2 * c + 2 ≤ lineIndent x))
              (by intro x hx; simp only [decide_eq_true_eq] at hx ⊢; omega) rest,
            run_append, hr2]
          exact hr3
        · rw [Frame.add_add] at hf3
          rw [nestedUnder, hc]
          simp only [if_true]
          rw [if_neg (by omega), if_pos hi, nestedUnder_skip (2 * c) rest hcontR]
          exact hf3

theorem aligned_nestedUnder (ls : List Str) : ∀ j : Nat,
    Section.alignedList j (nestedUnder j ls) = true := by
  induction ls with
  | nil => intro j; rfl
  | cons l rest ih =>
    intro j
    rw [nestedUnder]
    split
    · split
      · rfl
      · split
        · rw [Section.alignedList, Section.alignedAt, ih j, ih (j + 2)]
          simp
        · exact ih j
    · exact ih j

theorem dropWhile_deeper_facts (c : Nat) (rest : List Str)
    (hcont : ∀ x ∈ rest, isContent x = true) (hrest : wellNested (2 * c) rest = true) :
    (∀ x ∈ rest.dropWhile fun x => decide (2 * c + 2 ≤ lineIndent x), isContent x = true) ∧
      (∃ r, wellNested r (rest.dropWhile fun x => decide (2 * c + 2 ≤ lineIndent x)) = true) ∧
      ∀ x, (rest.dropWhile fun x => decide (2 * c + 2 ≤ lineIndent x)).head? = some x →
        lineIndent x ≤ 2 * c := by
  have hsuffix : (rest.dropWhile fun x => decide (2 * c + 2 ≤ lineIndent x)) <:+ rest :=
    List.dropWhile_suffix _
  obtain ⟨r, hr⟩ := wellNested_suffix
    (rest.takeWhile fun x => decide (2 * c + 2 ≤ lineIndent x))
    (rest.dropWhile fun x => decide (2 * c + 2 ≤ lineIndent x)) (2 * c)
    (by rw [List.takeWhile_append_dropWhile]; exact hrest)
  have hcontD : ∀ x ∈ rest.dropWhile fun x => decide (2 * c + 2 ≤ lineIndent x),
      isContent x = true := fun x hx => hcont x (hsuffix.subset hx)
  refine ⟨hcontD, ⟨r, hr⟩, ?_⟩
  intro x hx
  have hlow := dropWhile_head _ rest x hx
  have hxmem : x ∈ rest.dropWhile fun x => decide (2 * c + 2 ≤ lineIndent x) :=
    List.mem_of_mem_head? hx
  have hxlt : lineIndent x < 2 * c + 2 := by simpa using hlow
  have hxeven : lineIndent x % 2 = 0 := by
    revert hr hx
    cases rest.dropWhile fun x => decide (2 * c + 2 ≤ lineIndent x) with
    | nil => intro _ hx; simp at hx
    | cons z zs =>
      intro hr hx
      simp only [List.head?_cons, Option.some.injEq] at hx
      rw [← hx]
      exact (wellNested_cons r z zs (by rw [hx]; exact hcontD x hxmem) hr).1
  omega

/-- The Sections that the description places below a Section are those of the lines up to the
first line that is indented by less, one Section for each line, in line order. -/
theorem preorder_nested : ∀ (n : Nat) (ls : List Str), ls.length ≤ n →
    (∀ l ∈ ls, isContent l = true) → ∀ q : Nat, wellNested q ls = true →
    ∀ c : Nat, (∀ l, ls.head? = some l → lineIndent l ≤ 2 * c) →
    Section.preorderList (nestedUnder (2 * c) ls) =
      (ls.takeWhile fun l => decide (2 * c ≤ lineIndent l)).map
        fun l => (String.Trim l, lineIndent l) := by
  intro n
  induction n with
  | zero =>
    intro ls hlen _ q _ c _
    have : ls = [] := List.length_eq_zero.mp (Nat.le_zero.mp hlen)
    subst this
    rfl
  | succ n ih =>
    intro ls hlen hcont q hwn c hhead
    cases ls with
    | nil => rfl
    | cons l rest =>
      have hc := hcont l (List.mem_cons_self _ _)
      obtain ⟨heven, -, hrest⟩ := wellNested_cons q l rest hc hwn
      have hle := hhead l rfl
      have hcontR : ∀ x ∈ rest, isContent x = true :=
        fun x hx => hcont x (List.mem_cons_of_mem _ hx)
      have hlenR : rest.length ≤ n := by simpa using hlen
      rcases Nat.lt_or_ge (lineIndent l) (2 * c) with hlt | hge
      · rw [nestedUnder_climb (2 * c) (by omega) (l :: rest) q hcont hwn
          (fun x hx => by
            simp only [List.head?_cons, Option.some.injEq] at hx
            rw [← hx]; exact hlt),
          List.takeWhile_cons_of_neg (by simpa using hlt)]
        rfl
      · have hi : lineIndent l = 2 * c := by omega
        rw [hi] at hrest
        obtain ⟨hcontD, ⟨r, hr⟩, hheadD⟩ := dropWhile_deeper_facts c rest hcontR hrest
        have hsuffix : (rest.dropWhile fun x => decide (2 * c + 2 ≤ lineIndent x)) <:+ rest :=
          List.dropWhile_suffix _
        have h1 := ih rest hlenR hcontR (2 * c) hrest (c + 1) (by
          intro x hx
          cases rest with
          | nil => simp at hx
          | cons y ys =>
            simp only [List.head?_cons, Option.some.injEq] at hx
            have := wellNested_cons (2 * c) y ys (hcontR y (List.mem_cons_self _ _)) hrest
            rw [← hx]; omega)
        have h2 := ih _ (Nat.le_trans hsuffix.length_le hlenR) hcontD r hr c hheadD
        have e : 2 * (c + 1) = 2 * c + 2 := by omega
        rw [e] at h1
        rw [nestedUnder, hc]
        simp only [if_true]
        rw [if_neg (by omega), if_pos hi, nestedUnder_skip (2 * c) rest hcontR,
          Section.preorderList, Section.preorder, h1, h2,
          List.takeWhile_cons_of_pos (by simpa using hge),
          takeWhile_split (fun x => decide (2 * c ≤ lineIndent x))
            (fun x => decide (2 * c + 2 ≤ lineIndent x))
            (by intro x hx; simp only [decide_eq_true_eq] at hx ⊢; omega) rest,
          List.map_cons, List.map_append, hi]
        rfl

theorem chain_line_isContent (c : Nat) (hc : 2 * c < U32) :
    isContent (indents c ++ (['a'] ++ [':', ' '] ++ [])) = true ∧
      lineIndent (indents c ++ (['a'] ++ [':', ' '] ++ [])) = 2 * c := by
  unfold isContent lineIndent
  rw [chain_line_scan c hc]
  exact ⟨by simpa using chain_line_not_marker c, rfl⟩

theorem wellNested_chain : ∀ (n c q : Nat) (rest : List Str), 2 * (c + n) < U32 →
    2 * c ≤ q + 2 → wellNested (2 * (c + n)) rest = true →
    wellNested q (keyedLines c (chainTree n) ++ rest) = true := by
  intro n
  induction n with
  | zero =>
    intro c q rest hb hq hrest
    obtain ⟨h1, h2⟩ := chain_line_isContent c (by omega)
    rw [keyedLines_chain_zero, List.singleton_append, wellNested, h1, h2]
    simp only [if_true, Bool.and_eq_true, decide_eq_true_eq]
    exact ⟨⟨by omega, hq⟩, hrest⟩
  | succ n ih =>
    intro c q rest hb hq hrest
    obtain ⟨h1, h2⟩ := chain_line_isContent c (by omega)
    rw [keyedLines_chain_succ, List.cons_append, wellNested, h1, h2]
    simp only [if_true, Bool.and_eq_true, decide_eq_true_eq]
    refine ⟨⟨by omega, hq⟩, ih (c + 1) (2 * c) rest (by omega) (by omega) ?_⟩
    have e : 2 * (c + 1 + n) = 2 * (c + (n + 1)) := by omega
    rw [e]
    exact hrest

theorem nestedUnder_zero_chain : ∀ (n c : Nat) (rest : List Str), 2 * (c + n) < U32 →
    1 ≤ c → nestedUnder 0 (keyedLines c (chainTree n) ++ rest) = nestedUnder 0 rest := by
  intro n
  induction n with
  | zero =>
    intro c rest hb hc
    obtain ⟨h1, h2⟩ := chain_line_isContent c (by omega)
    rw [keyedLines_chain_zero, List.singleton_append, nestedUnder, h1, h2]
    simp only [if_true]
    rw [if_neg (by omega), if_neg (by omega)]
  | succ n ih =>
    intro c rest hb hc
    obtain ⟨h1, h2⟩ := chain_line_isContent c (by omega)
    rw [keyedLines_chain_succ, List.cons_append, nestedUnder, h1, h2]
    simp only [if_true]
    rw [if_neg (by omega), if_neg (by omega)]
    exact ih (c + 1) rest (by omega) (by omega)

/-- The lines written for a chain of `n + 1` nested nodes whose deepest line is indented by
`2 ^ 32 - 2` spaces, followed by a line of indentation 0, are well nested; but `Yaml::Load`
attaches the Section of the last line below the Section of the first line, not to the root. -/
theorem deep_not_nested (n : Nat) (hn : 2 * n + 2 = U32) :
    wellNestedInput (keyedLinesList 0 (deepTreeOf n).GetChildren) = true ∧
      (LoadState.init.run (keyedLinesList 0 (deepTreeOf n).GetChildren)).map
          (fun s => LoadState.top s.parents s.current) ≠
        some (referenceTree (keyedLinesList 0 (deepTreeOf n).GetChildren)) := by
  have hU := U32_eq
  obtain ⟨s, kids, hrun, htop⟩ := run_deep n hn
  have hlines : keyedLinesList 0 (deepTreeOf n).GetChildren =
      keyedLines 0 (chainTree n) ++ [['b', ':', ' ']] := by
    simp only [deepTreeOf, Metadata.GetChildren, keyedLinesList, keyedLines, attributeLines,
      indents, List.nil_append, List.append_nil, List.cons_append]
  obtain ⟨k, rfl⟩ : ∃ k, n = k + 1 := ⟨n - 1, by omega⟩
  have hb1 : isContent ['b', ':', ' '] = true := by decide
  have hb2 : lineIndent ['b', ':', ' '] = 0 := by decide
  obtain ⟨h1, h2⟩ := chain_line_isContent 0 (by omega)
  rw [hrun, Option.map_some', htop, hlines, keyedLines_chain_succ, List.cons_append]
  refine ⟨?_, ?_⟩
  · rw [wellNestedInput, h1, h2]
    simp only [if_true, Bool.and_eq_true, decide_eq_true_eq]
    refine ⟨trivial, wellNested_chain k 1 0 _ (by omega) (by omega) ?_⟩
    rw [wellNested, hb1, hb2]
    simp [wellNested]
  · rw [referenceTree, nestedUnder, h1, h2]
    simp only [if_true]
    have hbl : nestedUnder 0 [['b', ':', ' ']] =
        [Section.mk (String.Trim ['b', ':', ' ']) 0 (nestedUnder (0 + 2) [])] := by
      simp [nestedUnder, hb1, hb2]
    rw [nestedUnder_zero_chain k (0 + 1) _ (by omega) (by omega), hbl]
    intro h
    have h3 := (Section.mk.inj (Option.some.inj h)).2.2
    have h4 := congrArg List.length h3
    simp at h4

/-- C16: for every input whose first content line (neither `---` nor a comment) has
indentation 0, whose content lines all have even indentation, and in which each content
line's indentation exceeds the previous content line's by at most 2, `Yaml::Load` runs
through and builds below the synthetic root exactly the Sections `kids` that attach each
line's Section as the last child of the Section of the nearest preceding content line with
indentation exactly 2 less (of the root when the indentation is 0): there is one Section for
each content line and no other (no filler), in line order, and every Section sits at depth
indentation/2 + 1. The side condition that every indentation is below `2 ^ 32 - 2` is the
range of the `uint32_t` counter: an input that reaches that indentation in steps of at most 2
has at least `2 ^ 31` lines and more than `2 ^ 62` characters. -/
theorem Load_well_nested (lines : List Str) (hnest : wellNestedInput lines = true)
    (hbound : ∀ l ∈ lines, isContent l = true → lineIndent l + 2 < U32) :
    ∃ s kids, LoadState.init.run lines = some s ∧
      LoadState.top s.parents s.current = Section.mk [] 0 kids ∧
      kids = nestedUnder 0 lines ∧
      Section.preorderList kids =
        (lines.filter isContent).map (fun l => (String.Trim l, lineIndent l)) ∧
      Section.alignedList 0 kids = true := by
  obtain ⟨hhead, hwn⟩ := wellNestedInput_filter lines hnest
  have hcont : ∀ l ∈ lines.filter isContent, isContent l = true :=
    fun l hl => (List.mem_filter.mp hl).2
  have hall : (lines.filter isContent).takeWhile (fun l => decide (2 * 0 ≤ lineIndent l)) =
      lines.filter isContent := by
    rw [List.takeWhile_eq_self_iff]
    intro l _
    simp
  have hhead0 : ∀ l, (lines.filter isContent).head? = some l → lineIndent l ≤ 2 * 0 :=
    fun l hl => by rw [hhead l hl]
  obtain ⟨s, hrun, hf⟩ := run_nested _ (lines.filter isContent) (Nat.le_refl _) hcont
    (fun l hl => hbound l (List.mem_filter.mp hl).1 (List.mem_filter.mp hl).2) 0 hwn 0
    LoadState.init ⟨[], 0, []⟩ [] (follows_self _ _ 0 rfl) hhead0
  have hpre := preorder_nested _ (lines.filter isContent) (Nat.le_refl _) hcont 0 hwn 0 hhead0
  rw [hall] at hrun hpre
  refine ⟨s, nestedUnder 0 lines, ?_, ?_, rfl, ?_, aligned_nestedUnder lines 0⟩
  · rw [run_filter]
    exact hrun
  · rw [nestedUnder_filter, hf.2.1]
    rfl
  · rw [nestedUnder_filter]
    exact hpre

theorem Load_well_nested_witness :
    (LoadState.init.run nestedExample).map (fun s => LoadState.top s.parents s.current) =
      some (Section.mk [] 0
        [Section.mk "a:".toList 0
          [Section.mk "b: 1".toList 2
            [Section.mk "c: 2".toList 4 [], Section.mk "d: 3".toList 4 []]],
          Section.mk "e: 4".toList 0 []]) :=
  (Load_well_nested nestedExample (by decide) (by decide)).elim fun s h =>
    h.elim fun kids hk => by
      rw [hk.1, Option.map_some', hk.2.1, hk.2.2.1]
      rfl

/-! ## Copy construction -/

theorem setAttribute_append_new (k v : Str) : ∀ a : List (Str × Str),
    k ∉ a.map Prod.fst → Metadata.setAttribute k v a = a ++ [(k, v)] := by
  intro a
  induction a with
  | nil => intro _; rfl
  | cons kv rest ih =>
    intro h
    obtain ⟨k0, v0⟩ := kv
    simp only [List.map_cons, List.mem_cons, not_or] at h
    rw [Metadata.setAttribute, if_neg (fun e => h.1 e.symm), ih h.2]
    rfl

theorem foldl_AddAttribute (n v : Str) (c : List Metadata) :
    ∀ (attributes a : List (Str × Str)), (a ++ attributes).map Prod.fst |>.Nodup →
    attributes.foldl (fun d kv => d.AddAttribute kv.1 kv.2)
      (Metadata.mk n v c a) = Metadata.mk n v c (a ++ attributes) := by
  intro attributes
  induction attributes with
  | nil => intro a _; rw [List.append_nil]; rfl
  | cons kv rest ih =>
    intro a h
    have hk : kv.1 ∉ a.map Prod.fst := by
      intro hmem
      rw [List.map_append, List.map_cons] at h
      have := (List.nodup_append.mp h).2.2
      exact this hmem (List.mem_cons_self _ _)
    rw [List.foldl_cons]
    show List.foldl _ (Metadata.mk n v c (Metadata.setAttribute kv.1 kv.2 a)) rest = _
    rw [setAttribute_append_new kv.1 kv.2 a hk, ih (a ++ [(kv.1, kv.2)])
      (by rw [List.append_assoc]; exact h), List.append_assoc]
    rfl

mutual
theorem AddChildren_eq : ∀ (source : Metadata) (n v : Str) (c : List Metadata),
    source.mapped = true →
    Yaml.AddChildren source (Metadata.mk n v c []) =
      Metadata.mk n v (c ++ source.GetChildren) source.GetAttributes
  | Metadata.mk name value children attributes, n, v, c, h => by
    rw [Metadata.mapped, Bool.and_eq_true, decide_eq_true_eq] at h
    rw [Yaml.AddChildren, AddChildrenLoop_eq children n v c [] h.2,
      foldl_AddAttribute n v _ attributes [] (by simpa using h.1)]
    rfl
theorem AddChildrenLoop_eq : ∀ (children : List Metadata) (n v : Str) (c : List Metadata)
    (a : List (Str × Str)), Metadata.mappedList children = true →
    Yaml.AddChildrenLoop children (Metadata.mk n v c a) = Metadata.mk n v (c ++ children) a
  | [], n, v, c, a, _ => by rw [Yaml.AddChildrenLoop, List.append_nil]
  | Metadata.mk name value children attributes :: rest, n, v, c, a, h => by
    rw [Metadata.mappedList, Bool.and_eq_true] at h
    rw [Yaml.AddChildrenLoop, AddChildren_eq (Metadata.mk name value children attributes)
      name value [] h.1]
    show Yaml.AddChildrenLoop rest
      (Metadata.mk n v (c ++ [Metadata.mk name value children attributes]) a) = _
    rw [AddChildrenLoop_eq rest n v _ a h.2, List.append_assoc]
    rfl
end

/-- C26: for every Metadata tree `M` (the attributes of each node being a mapping, as the
Document Tree holds them), the Yaml that `Yaml(Metadata *)` builds from `M` has a root with
empty name and empty value, whose children are equal to the children of `M`, in the same
order and with the same names, values, attributes and descendants at every level, and whose
attributes are the attributes of `M`. The source is a value of the model and is not touched. -/
theorem ofMetadata_copy (M : Metadata) (h : M.mapped = true) :
    Yaml.ofMetadata M = Metadata.mk [] [] M.GetChildren M.GetAttributes := by
  rw [Yaml.ofMetadata, AddChildren_eq M [] [] [] h]
  rfl

theorem ofMetadata_copy_witness :
    Yaml.ofMetadata (Metadata.mk "stats".toList "s".toList cleanExample.GetChildren
        [("k".toList, "v".toList)]) =
      Metadata.mk [] [] cleanExample.GetChildren [("k".toList, "v".toList)] :=
  ofMetadata_copy (Metadata.mk "stats".toList "s".toList cleanExample.GetChildren
    [("k".toList, "v".toList)]) (by decide)

/-! ## The sequence marker on write -/

theorem write_at_end (o : OStream) (s : Str) (h : o.AtEnd) :
    o.write s = ⟨o.buf ++ s, o.buf.length + s.length, false⟩ := by
  obtain ⟨hf, hp⟩ := h
  unfold OStream.write
  rw [hf]
  simp only [Bool.false_eq_true, if_false]
  rw [hp, List.take_length, List.drop_eq_nil_of_le (by omega), List.append_nil]

theorem rewind_at_end (o : OStream) (h : o.AtEnd) (h2 : 2 ≤ o.buf.length) :
    (o.seekBack2).write ['-', ' '] =
      ⟨o.buf.take (o.buf.length - 2) ++ ['-', ' '], o.buf.length, false⟩ := by
  obtain ⟨hf, hp⟩ := h
  have h1 : o.seekBack2 = { o with pos := o.pos - 2 } := by
    unfold OStream.seekBack2
    rw [hf]
    simp only [Bool.false_eq_true, if_false]
    rw [if_neg (by omega)]
  rw [h1]
  unfold OStream.write
  simp only [hf, Bool.false_eq_true, if_false, List.length_cons, List.length_nil]
  rw [hp, List.drop_eq_nil_of_le (by omega), List.append_nil]
  congr 1
  omega

theorem atEnd_write (o : OStream) (s : Str) (h : o.AtEnd) : (o.write s).AtEnd := by
  rw [write_at_end o s h]
  exact ⟨rfl, by simp⟩

theorem keeps_write (held : Str) (o : OStream) (s : Str) (h : o.Keeps held)
    (hs : s.length ≠ 1) : (o.write s).Keeps held := by
  obtain ⟨he, rest, hb, hr⟩ := h
  refine ⟨atEnd_write o s he, rest ++ s, ?_, ?_⟩
  · rw [write_at_end o s he]
    show o.buf ++ s = held ++ (rest ++ s)
    rw [hb, List.append_assoc]
  · rcases hr with hr | ⟨hr, hbase⟩
    · left
      rw [List.length_append]
      omega
    · subst hr
      cases s with
      | nil => right; exact ⟨rfl, hbase⟩
      | cons c cs =>
        left
        cases cs with
        | nil => simp at hs
        | cons d ds => simp

theorem keeps_rewind (held : Str) (o : OStream) (h : o.Keeps held) :
    ((o.seekBack2).write ['-', ' ']).Keeps held := by
  obtain ⟨he, rest, hb, hr⟩ := h
  have h2 : 2 ≤ o.buf.length := by
    rcases hr with hr | ⟨hr, base, hbase⟩
    · rw [hb, List.length_append]; omega
    · rw [hb, hbase]; simp; omega
  rw [rewind_at_end o he h2]
  refine ⟨⟨rfl, by simp only [List.length_append, List.length_take, List.length_cons,
    List.length_nil]; omega⟩, ?_⟩
  rcases hr with hr | ⟨hr, base, hbase⟩
  · refine ⟨rest.take (rest.length - 2) ++ ['-', ' '], ?_, ?_⟩
    · show o.buf.take (o.buf.length - 2) ++ ['-', ' '] =
        held ++ (rest.take (rest.length - 2) ++ ['-', ' '])
      have hl : o.buf.length - 2 = held.length + (rest.length - 2) := by
        rw [hb, List.length_append]; omega
      rw [hl, hb, List.take_append, List.append_assoc]
    · left
      simp only [List.length_append, List.length_take, List.length_cons, List.length_nil]
      omega
  · refine ⟨[], ?_, Or.inr ⟨rfl, base, hbase⟩⟩
    show o.buf.take (o.buf.length - 2) ++ ['-', ' '] = held ++ []
    subst hr
    rw [hb, hbase]
    simp

theorem keeps_writeOwnLine (held name value : Str) (o : OStream) (h : o.Keeps held) :
    (writeOwnLine name value o).Keeps held := by
  unfold writeOwnLine
  split
  · split
    · exact keeps_write held o _ h (by simp)
    · exact keeps_write held o _ h (by simp; omega)
  · split
    · rename_i hv
      apply keeps_write held o _ h
      cases value with
      | nil => simp at hv
      | cons c cs => simp
    · exact h

theorem keeps_writeAttributes (held ind : Str) : ∀ (attributes : List (Str × Str))
    (o : OStream), o.Keeps held → (writeAttributes ind attributes o).Keeps held := by
  intro attributes
  induction attributes with
  | nil => intro o h; exact h
  | cons kv rest ih =>
    intro o h
    obtain ⟨k, v⟩ := kv
    rw [writeAttributes]
    exact ih _ (keeps_write held o _ h (by simp; omega))

theorem indents_length (c : Nat) : (indents c).length = 2 * c := by
  induction c with
  | zero => rfl
  | succ n ih => rw [indents, List.length_append, ih]; rfl

theorem AppendData_some (name value : Str) (children : List Metadata)
    (attributes : List (Str × Str)) (p first : Metadata) (more : List Metadata)
    (hp : p.GetChildren = first :: more) (index : Nat) (o : OStream) (c : Nat) :
    AppendData (Metadata.mk name value children attributes) (some p) index o c =
      AppendChildren children (Metadata.mk name value children attributes) 0
        (writeAttributes (indents c) attributes (writeOwnLine name value
          (if p.GetValue.isEmpty && first.GetName.isEmpty then
            ((if !(index == 0 && p.GetName.isEmpty && p.GetValue.isEmpty) then
              o.write (indents c) else o).seekBack2).write ['-', ' ']
          else
            (if !(index == 0 && p.GetName.isEmpty && p.GetValue.isEmpty) then
              o.write (indents c) else o))))
        (c + if name.isEmpty then 0 else 1) := by
  rw [AppendData, hp]
  rfl

mutual
theorem keeps_AppendData (held : Str) : ∀ (n : Metadata) (parent : Option Metadata)
    (index : Nat) (o : OStream) (c : Nat), (∀ p, parent = some p → p.GetChildren ≠ []) →
    o.Keeps held → ∃ o1, AppendData n parent index o c = some o1 ∧ o1.Keeps held
  | Metadata.mk name value children attributes, parent, index, o, c, hp, h => by
    have hrest : ∀ o2 : OStream, o2.Keeps held →
        ∃ o1, AppendChildren children (Metadata.mk name value children attributes) 0
          (writeAttributes (indents c) attributes (writeOwnLine name value o2))
          (c + if name.isEmpty then 0 else 1) = some o1 ∧ o1.Keeps held := by
      intro o2 h2
      exact keeps_AppendChildren held children (Metadata.mk name value children attributes) 0
        _ _ (fun hne => hne) (keeps_writeAttributes _ _ _ _ (keeps_writeOwnLine _ _ _ _ h2))
    cases parent with
    | none =>
      rw [AppendData]
      exact hrest o h
    | some p =>
      cases hch : p.GetChildren with
      | nil => exact absurd hch (hp p rfl)
      | cons first more =>
        rw [AppendData_some name value children attributes p first more hch]
        apply hrest
        have h1 : (if !(index == 0 && p.GetName.isEmpty && p.GetValue.isEmpty) then
            o.write (indents c) else o).Keeps held := by
          split
          · exact keeps_write held o _ h (by rw [indents_length]; omega)
          · exact h
        split
        · exact keeps_rewind held _ h1
        · exact h1
theorem keeps_AppendChildren (held : Str) : ∀ (ns : List Metadata) (p : Metadata)
    (index : Nat) (o : OStream) (c : Nat), (ns ≠ [] → p.GetChildren ≠ []) → o.Keeps held →
    ∃ o1, AppendChildren ns p index o c = some o1 ∧ o1.Keeps held
  | [], p, index, o, c, _, h => ⟨o, by rw [AppendChildren], h⟩
  | x :: xs, p, index, o, c, hp, h => by
    have hne : p.GetChildren ≠ [] := hp (by simp)
    obtain ⟨o1, h1, g1⟩ := keeps_AppendData held x (some p) index o c
      (fun q hq => by rw [← Option.some.inj hq]; exact hne) h
    obtain ⟨o2, h2, g2⟩ := keeps_AppendChildren held xs p (index + 1) o1 c (fun _ => hne) g1
    exact ⟨o2, by rw [AppendChildren, h1]; exact h2, g2⟩
end

theorem AppendChildren_split (p : Metadata) (c : Nat) : ∀ (a b : List Metadata) (index : Nat)
    (o : OStream), AppendChildren (a ++ b) p index o c =
      (AppendChildren a p index o c).bind fun o1 => AppendChildren b p (index + a.length) o1 c := by
  intro a
  induction a with
  | nil => intro b index o; rw [AppendChildren]; rfl
  | cons x xs ih =>
    intro b index o
    rw [List.cons_append, AppendChildren, AppendChildren]
    cases AppendData x (some p) index o c with
    | none => rfl
    | some o1 =>
      show AppendChildren (xs ++ b) p (index + 1) o1 c = _
      rw [ih b (index + 1) o1, List.length_cons]
      have e : index + 1 + xs.length = index + (xs.length + 1) := by omega
      rw [e]

theorem lineEnd_write (o : OStream) (s : Str) (h : o.AtEnd) (hs : s.getLast? = some '\n') :
    (o.write s).LineEnd := by
  refine ⟨atEnd_write o s h, ?_⟩
  rw [write_at_end o s h]
  show (o.buf ++ s).getLast? = some '\n'
  cases s with
  | nil => simp at hs
  | cons c cs => rw [List.getLast?_append_cons]; exact hs

theorem atEnd_rewind (o : OStream) (h : o.AtEnd) (h2 : 2 ≤ o.buf.length) :
    ((o.seekBack2).write ['-', ' ']).AtEnd := by
  rw [rewind_at_end o h h2]
  exact ⟨rfl, by simp only [List.length_append, List.length_take, List.length_cons,
    List.length_nil]; omega⟩

theorem getLast?_append_feed (s : Str) : (s ++ ['\n']).getLast? = some '\n' := by
  simp

theorem lineEnd_writeOwnLine (name value : Str) (o : OStream) (h : o.AtEnd)
    (hv : (!name.isEmpty || !value.isEmpty) = true) : (writeOwnLine name value o).LineEnd := by
  unfold writeOwnLine
  split
  · split
    · apply lineEnd_write o _ h
      have e : name ++ [':', ' ', '\n'] = (name ++ [':', ' ']) ++ ['\n'] := by simp
      rw [e]; exact getLast?_append_feed _
    · exact lineEnd_write o _ h (getLast?_append_feed _)
  · rename_i hn
    split
    · exact lineEnd_write o _ h (getLast?_append_feed _)
    · rename_i hw
      simp only [Bool.or_eq_true] at hv
      rcases hv with hv | hv
      · exact absurd hv hn
      · exact absurd hv hw

theorem lineEnd_writeAttributes (ind : Str) : ∀ (attributes : List (Str × Str))
    (o : OStream), o.LineEnd → (writeAttributes ind attributes o).LineEnd := by
  intro attributes
  induction attributes with
  | nil => intro o h; exact h
  | cons kv rest ih =>
    intro o h
    obtain ⟨k, v⟩ := kv
    rw [writeAttributes]
    exact ih _ (lineEnd_write o _ h.1 (getLast?_append_feed _))

mutual
theorem lineEnd_AppendData : ∀ (n p first : Metadata) (more : List Metadata) (index : Nat)
    (o : OStream) (c : Nat), n.visible = true → p.GetChildren = first :: more →
    (p.GetValue = [] → p.GetName ≠ [] ∧ 1 ≤ c) → o.LineEnd →
    ∃ o1, AppendData n (some p) index o c = some o1 ∧ o1.LineEnd
  | Metadata.mk name value children attributes, p, first, more, index, o, c, hv, hp, hsafe,
    h => by
    rw [Metadata.visible, Bool.and_eq_true] at hv
    rw [AppendData_some name value children attributes p first more hp]
    have h1 : (if !(index == 0 && p.GetName.isEmpty && p.GetValue.isEmpty) then
        o.write (indents c) else o).AtEnd := by
      split
      · exact atEnd_write o _ h.1
      · exact h.1
    have h2 : (if p.GetValue.isEmpty && first.GetName.isEmpty then
          ((if !(index == 0 && p.GetName.isEmpty && p.GetValue.isEmpty) then
            o.write (indents c) else o).seekBack2).write ['-', ' ']
        else
          (if !(index == 0 && p.GetName.isEmpty && p.GetValue.isEmpty) then
            o.write (indents c) else o)).AtEnd := by
      split
      · rename_i hcond
        rw [Bool.and_eq_true, List.isEmpty_iff] at hcond
        obtain ⟨hname, hc⟩ := hsafe hcond.1
        have hne : p.GetName.isEmpty = false := by
          cases hq : p.GetName with
          | nil => exact absurd hq hname
          | cons a b => rfl
        apply atEnd_rewind _ h1
        rw [hne]
        simp only [Bool.and_false, Bool.false_and, Bool.not_false, if_true]
        rw [write_at_end o _ h.1]
        show 2 ≤ (o.buf ++ indents c).length
        rw [List.length_append, indents_length]
        omega
      · exact h1
    have hsafe2 : (Metadata.mk name value children attributes).GetValue = [] →
        (Metadata.mk name value children attributes).GetName ≠ [] ∧
          1 ≤ c + if name.isEmpty then 0 else 1 := by
      intro hval
      change value = [] at hval
      subst hval
      cases name with
      | nil => simp at hv
      | cons a b => exact ⟨by simp [Metadata.GetName], by simp⟩
    cases children with
    | nil => exact ⟨_, by rw [AppendChildren], lineEnd_writeAttributes _ _ _
        (lineEnd_writeOwnLine name value _ h2 hv.1)⟩
    | cons x xs =>
      exact lineEnd_AppendChildren (x :: xs) (Metadata.mk name value (x :: xs) attributes)
        x xs 0 _ _ hv.2 rfl hsafe2
        (lineEnd_writeAttributes _ _ _ (lineEnd_writeOwnLine name value _ h2 hv.1))
theorem lineEnd_AppendChildren : ∀ (ns : List Metadata) (p first : Metadata)
    (more : List Metadata) (index : Nat) (o : OStream) (c : Nat),
    Metadata.visibleList ns = true → p.GetChildren = first :: more →
    (p.GetValue = [] → p.GetName ≠ [] ∧ 1 ≤ c) → o.LineEnd →
    ∃ o1, AppendChildren ns p index o c = some o1 ∧ o1.LineEnd
  | [], p, first, more, index, o, c, _, _, _, h => ⟨o, by rw [AppendChildren], h⟩
  | x :: xs, p, first, more, index, o, c, hv, hp, hsafe, h => by
    rw [Metadata.visibleList, Bool.and_eq_true] at hv
    obtain ⟨o1, h1, g1⟩ := lineEnd_AppendData x p first more index o c hv.1 hp hsafe h
    obtain ⟨o2, h2, g2⟩ := lineEnd_AppendChildren xs p first more (index + 1) o1 c hv.2 hp
      hsafe g1
    exact ⟨o2, by rw [AppendChildren, h1]; exact h2, g2⟩
end

/-- C21 (amended): for every node with non-empty name and empty value whose first child has
an empty name, written with indentation counter `k` at the end of a stream (`o` is the stream
when the node's own line is written), the loop over the children (`pre`, then `c`, then
`post`) writes for every child `c`, anonymous or named, a text that starts with exactly
`2 * k` spaces followed by `- `: the sequence marker has replaced the last two spaces of the
indent of `2 * (k + 1)` spaces. That text starts a line, so that the item sits at the column
of the parent key, when every node written before it below the parent has a non-empty name or
a non-empty value. -/
theorem Write_list_items (name : Str) (children : List Metadata)
    (attributes : List (Str × Str)) (k : Nat) (first : Metadata) (pre post : List Metadata)
    (c : Metadata) (o : OStream) (hname : name ≠ []) (hfirst : children.head? = some first)
    (hanon : first.GetName = []) (hsplit : children = pre ++ c :: post) (ho : o.AtEnd) :
    ∃ o1 o2 rest,
      AppendChildren pre (Metadata.mk name [] children attributes) 0
        (writeAttributes (indents k) attributes (writeOwnLine name [] o)) (k + 1) = some o1 ∧
      AppendData c (some (Metadata.mk name [] children attributes)) pre.length o1 (k + 1) =
        some o2 ∧
      AppendChildren children (Metadata.mk name [] children attributes) 0
          (writeAttributes (indents k) attributes (writeOwnLine name [] o)) (k + 1) =
        AppendChildren post (Metadata.mk name [] children attributes) (pre.length + 1) o2
          (k + 1) ∧
      o2.buf = o1.buf ++ (indents k ++ ['-', ' ']) ++ rest ∧
      (Metadata.visibleList pre = true → o1.buf.getLast? = some '\n') := by
  obtain ⟨more, hch⟩ : ∃ more, children = first :: more := by
    cases children with
    | nil => simp at hfirst
    | cons x xs =>
      simp only [List.head?_cons, Option.some.injEq] at hfirst
      exact ⟨xs, by rw [hfirst]⟩
  have hP : (Metadata.mk name [] children attributes).GetChildren = first :: more := hch
  have hne : name.isEmpty = false := by
    cases name with
    | nil => exact absurd rfl hname
    | cons a b => rfl
  have hvis : (!name.isEmpty || !([] : Str).isEmpty) = true := by rw [hne]; rfl
  have hline := lineEnd_writeAttributes (indents k) attributes _
    (lineEnd_writeOwnLine name [] o ho hvis)
  have hkeep : (writeAttributes (indents k) attributes (writeOwnLine name [] o)).Keeps [] := by
    apply keeps_writeAttributes
    have hown : writeOwnLine name [] o = o.write (name ++ [':', ' ', '\n']) := by
      unfold writeOwnLine
      rw [hne]
      rfl
    rw [hown]
    refine ⟨atEnd_write o _ ho, (o.write (name ++ [':', ' ', '\n'])).buf, rfl, Or.inl ?_⟩
    rw [write_at_end o _ ho]
    show 2 ≤ (o.buf ++ (name ++ [':', ' ', '\n'])).length
    simp only [List.length_append, List.length_cons, List.length_nil]
    omega
  obtain ⟨o1, h1, k1⟩ := keeps_AppendChildren [] pre (Metadata.mk name [] children attributes)
    0 _ (k + 1) (fun _ => by rw [hP]; simp) hkeep
  have hprefix : (((if !(pre.length == 0 &&
        (Metadata.mk name [] children attributes).GetName.isEmpty &&
        (Metadata.mk name [] children attributes).GetValue.isEmpty) then
        o1.write (indents (k + 1)) else o1).seekBack2).write ['-', ' ']).Keeps
      (o1.buf ++ (indents k ++ ['-', ' '])) := by
    have hcond : (!(pre.length == 0 &&
        (Metadata.mk name [] children attributes).GetName.isEmpty &&
        (Metadata.mk name [] children attributes).GetValue.isEmpty)) = true := by
      show (!(pre.length == 0 && name.isEmpty && ([] : Str).isEmpty)) = true
      rw [hne]
      simp
    rw [if_pos hcond]
    have hw := write_at_end o1 (indents (k + 1)) k1.1
    have hlen : 2 ≤ (o1.write (indents (k + 1))).buf.length := by
      rw [hw]
      show 2 ≤ (o1.buf ++ indents (k + 1)).length
      rw [List.length_append, indents_length]
      omega
    rw [rewind_at_end _ (atEnd_write o1 _ k1.1) hlen, hw]
    refine ⟨⟨rfl, ?_⟩, [], ?_, Or.inr ⟨rfl, o1.buf ++ indents k, by rw [List.append_assoc]⟩⟩
    · show (o1.buf ++ indents (k + 1)).length =
        ((o1.buf ++ indents (k + 1)).take ((o1.buf ++ indents (k + 1)).length - 2) ++
          ['-', ' ']).length
      simp only [List.length_append, List.length_take, List.length_cons, List.length_nil,
        indents_length]
      omega
    · show (o1.buf ++ indents (k + 1)).take ((o1.buf ++ indents (k + 1)).length - 2) ++
        ['-', ' '] = o1.buf ++ (indents k ++ ['-', ' ']) ++ []
      have e : o1.buf ++ indents (k + 1) = (o1.buf ++ indents k) ++ [' ', ' '] := by
        rw [indents, List.append_assoc]
      have hl : ((o1.buf ++ indents k) ++ [' ', ' ']).length - 2 =
          (o1.buf ++ indents k).length := by
        simp only [List.length_append, List.length_cons, List.length_nil]
        omega
      rw [e, hl, List.take_left' rfl, List.append_nil, List.append_assoc]
  have hchild : ∃ o2, AppendData c (some (Metadata.mk name [] children attributes)) pre.length
      o1 (k + 1) = some o2 ∧ o2.Keeps (o1.buf ++ (indents k ++ ['-', ' '])) := by
    cases c with
    | mk cname cvalue cchildren cattributes =>
      rw [AppendData_some cname cvalue cchildren cattributes _ first more hP]
      have hcond : ((Metadata.mk name [] children attributes).GetValue.isEmpty &&
          first.GetName.isEmpty) = true := by
        rw [hanon]; rfl
      rw [if_pos hcond]
      exact keeps_AppendChildren _ cchildren _ 0 _ _ (fun hne => hne)
        (keeps_writeAttributes _ _ _ _ (keeps_writeOwnLine _ _ _ _ hprefix))
  obtain ⟨o2, h2, k2⟩ := hchild
  obtain ⟨rest, hrest, -⟩ := k2.2
  refine ⟨o1, o2, rest, h1, h2, ?_, hrest, ?_⟩
  · rw [hsplit, AppendChildren_split, ← hsplit, h1, Option.some_bind, AppendChildren,
      Nat.zero_add, h2]
  · intro hpre
    obtain ⟨o1', h1', l1⟩ := lineEnd_AppendChildren pre (Metadata.mk name [] children attributes)
      first more 0 _ (k + 1) hpre hP (fun _ => ⟨hname, by omega⟩) hline
    rw [h1] at h1'
    rw [Option.some.inj h1']
    exact l1.2

theorem Write_list_items_witness :
    (AppendData (Metadata.mk [] "a".toList [] [])
        (some (Metadata.mk "p".toList [] [Metadata.mk [] "a".toList [] []] [])) 0
        (writeAttributes (indents 0) [] (writeOwnLine "p".toList []
          (OStream.ofText "---\n".toList))) (0 + 1)).map (fun o2 => o2.buf.take 10) =
      some "---\np: \n- ".toList :=
  (Write_list_items "p".toList [Metadata.mk [] "a".toList [] []] [] 0
    (Metadata.mk [] "a".toList [] []) [] [] (Metadata.mk [] "a".toList [] [])
    (OStream.ofText "---\n".toList) (by decide) rfl rfl rfl ⟨rfl, rfl⟩).elim fun o1 h1 =>
    h1.elim fun o2 h2 => h2.elim fun rest h => by
      have e1 : writeAttributes (indents 0) [] (writeOwnLine "p".toList []
          (OStream.ofText "---\n".toList)) = o1 := by
        have := h.1
        rw [AppendChildren] at this
        exact Option.some.inj this
      rw [e1]
      show (AppendData _ _ ([] : List Metadata).length o1 (0 + 1)).map _ = _
      have hb : (writeAttributes (indents 0) [] (writeOwnLine "p".toList []
          (OStream.ofText "---\n".toList))).buf = "---\np: \n".toList := by
        decide!
      rw [h.2.1, Option.map_some', h.2.2.2.1, ← e1, hb]
      rfl

/-- C21: in the tree `bareItemList` the node `p` is written with indentation counter 0, has an
empty value and a first child without name; the first child has a child with neither name nor
value, for which `AppendData` writes two spaces and no line feed. The text for the second
child `x` continues that line: its line is `  - x`, which does not start with `- `. -/
theorem Write_list_item_shifted :
    WriteText bareItemList = some "---\np: \n- v\n  - x\n".toList ∧
      (WriteText bareItemList).map readLines =
        some ["---".toList, "p: ".toList, "- v".toList, "  - x".toList] := by
  decide!

/-- C22: `Yaml::Write` on `itemAfterEntry` gives the two lines `---` and `a: - x`. The scalar
`x` is the first child of a node without name and value, so no indent is written for it, and
the rewind of the sequence-list heuristic takes place at the end of the text `a: 1` and its
line feed: the two characters overwritten with `- ` are the `1` and the line feed of the line
of the earlier node `a`. -/
theorem Write_rewind_over_earlier_line :
    WriteText itemAfterEntry = some "---\na: - x\n".toList ∧
      (AppendData (Metadata.mk [] "x".toList [] [])
          (some (Metadata.mk [] [] [Metadata.mk [] "x".toList [] []] [])) 0
          (OStream.ofText "---\na: 1\n".toList) 0).map (fun o => o.buf) =
        some "---\na: - x\n".toList := by
  decide!

/-! ## The safety condition of decode -/

theorem scanLine_le (l : Str) : ∀ n, (scanLine l n).1 ≤ n + l.length + 1 := by
  induction l with
  | nil => intro n; simp [scanLine]
  | cons c cs ih =>
    intro n
    unfold scanLine
    split
    · have h1 := ih ((n + 1) % U32)
      have h2 : (n + 1) % U32 ≤ n + 1 := Nat.mod_le _ _
      simp only [List.length_cons]
      omega
    · split
      · have h2 : (n + 2) % U32 ≤ n + 2 := Nat.mod_le _ _
        simp only [List.length_cons]
        omega
      · split <;> simp only [List.length_cons] <;> omega

theorem lineIndent_short (l : Str) (h : l.length < 2 ^ 31) : lineIndent l + 2 < U32 := by
  have h1 := scanLine_le l 0
  have hU := U32_eq
  have h2 : (2 : Nat) ^ 31 = 2147483648 := by norm_num
  unfold lineIndent
  omega

theorem adjust_eq_descend (s : LoadState) (i : Nat) (hL : s.lastIndentation + 2 < U32)
    (hi : i < U32) (h2 : sub32 i s.lastIndentation = 2) : s.adjust i = s.descend := by
  have h1 : ¬ i < s.lastIndentation := fun h => sub32_ne_two_of_lt _ _ h hL h2
  have h3 : i > s.lastIndentation := by
    rw [sub32_of_le i _ (by omega) hi] at h2
    omega
  have h4 : sub32 (2 / 2) 1 = 0 := by decide
  unfold LoadState.adjust
  simp only [h1, h3, if_true, if_false, h2, h4]
  rfl

theorem adjust_defined (s : LoadState) (i : Nat) (hL : s.lastIndentation + 2 < U32)
    (hi : i < U32) (hch : s.current.children.getLast? ≠ none) : ∃ s2, s.adjust i = some s2 := by
  by_cases h2 : sub32 i s.lastIndentation = 2
  · rw [adjust_eq_descend s i hL hi h2]
    unfold LoadState.descend
    cases hlast : s.current.children.getLast? with
    | none => exact absurd hlast hch
    | some c => exact ⟨_, rfl⟩
  · unfold LoadState.adjust
    simp only [h2, if_false]
    exact ⟨_, rfl⟩

theorem step_after (s : LoadState) (p l : Str) (h : s.After p) (hc : isContent l = true)
    (hl : l.length < 2 ^ 31) : ∃ s1, s.step l = some s1 ∧ s1.After l := by
  obtain ⟨hm, hscan⟩ := content_facts l hc
  have hb := lineIndent_short l hl
  obtain ⟨s2, h2⟩ := adjust_defined s (lineIndent l) (by rw [h.1]; exact h.2.1) (by omega)
    (by rw [h.2.2]; simp)
  have hstep : s.step l = some { s2.append (Section.mk (String.Trim l) (lineIndent l) []) with
      lastIndentation := lineIndent l } := by
    rw [step_of_scan s l (lineIndent l) hm hscan, h2]
    rfl
  have hcomment : (scanLine l 0).2 = false := by rw [hscan]
  exact ⟨_, hstep, (step_content s _ l hm hcomment hstep).1, hb,
    (step_content s _ l hm hcomment hstep).2⟩

theorem run_after : ∀ (lines : List Str) (s : LoadState) (p : Str), s.After p →
    (∀ l ∈ lines, l.length < 2 ^ 31) →
    ∃ s1 q, LoadState.run lines s = some s1 ∧ lastContentFrom (some p) lines = some q ∧
      s1.After q := by
  intro lines
  induction lines with
  | nil => intro s p h _; exact ⟨s, p, rfl, rfl, h⟩
  | cons l ls ih =>
    intro s p h hshort
    have hls : ∀ x ∈ ls, x.length < 2 ^ 31 := fun x hx => hshort x (List.mem_cons_of_mem _ hx)
    cases hc : isContent l with
    | true =>
      obtain ⟨s1, h1, a1⟩ := step_after s p l h hc (hshort l (List.mem_cons_self _ _))
      obtain ⟨s2, q, h2, hq, a2⟩ := ih s1 l a1 hls
      refine ⟨s2, q, ?_, ?_, a2⟩
      · rw [LoadState.run, h1]; exact h2
      · rw [lastContentFrom, hc]; exact hq
    | false =>
      obtain ⟨s2, q, h2, hq, a2⟩ := ih s p h hls
      refine ⟨s2, q, ?_, ?_, a2⟩
      · rw [LoadState.run, step_not_content s l hc]; exact h2
      · rw [lastContentFrom, hc]; exact hq

theorem step_init (l : Str) (hc : isContent l = true) (hl : l.length < 2 ^ 31) :
    (lineIndent l = 2 → LoadState.init.step l = none) ∧
      (lineIndent l ≠ 2 → ∃ s1, LoadState.init.step l = some s1 ∧ s1.After l) := by
  obtain ⟨hm, hscan⟩ := content_facts l hc
  have hb := lineIndent_short l hl
  have hcomment : (scanLine l 0).2 = false := by rw [hscan]
  rw [step_of_scan LoadState.init l (lineIndent l) hm hscan]
  constructor
  · intro h2
    rw [h2]
    rfl
  · intro h2
    have h3 : sub32 (lineIndent l) LoadState.init.lastIndentation ≠ 2 := by
      show sub32 (lineIndent l) 0 ≠ 2
      rw [sub32_of_le _ 0 (Nat.zero_le _) (by omega)]
      exact h2
    have h4 : ∃ s2, LoadState.init.adjust (lineIndent l) = some s2 := by
      unfold LoadState.adjust
      simp only [h3, if_false]
      exact ⟨_, rfl⟩
    obtain ⟨s2, h5⟩ := h4
    have hstep : LoadState.init.step l = some
        { s2.append (Section.mk (String.Trim l) (lineIndent l) []) with
          lastIndentation := lineIndent l } := by
      rw [step_of_scan LoadState.init l (lineIndent l) hm hscan, h5]
      rfl
    rw [h5]
    exact ⟨_, rfl, (step_content _ _ l hm hcomment hstep).1, hb,
      (step_content _ _ l hm hcomment hstep).2⟩

theorem run_init : ∀ lines : List Str, (∀ l ∈ lines, l.length < 2 ^ 31) →
    ((firstContent lines).map lineIndent = some 2 → LoadState.init.run lines = none) ∧
      ((firstContent lines).map lineIndent ≠ some 2 →
        ∃ s, LoadState.init.run lines = some s ∧
          ((lastContent lines = none ∧ s = LoadState.init) ∨
            ∃ q, lastContent lines = some q ∧ s.After q)) := by
  intro lines
  induction lines with
  | nil => intro _; exact ⟨fun h => by simp [firstContent] at h, fun _ => ⟨_, rfl, Or.inl ⟨rfl, rfl⟩⟩⟩
  | cons l ls ih =>
    intro hshort
    have hls : ∀ x ∈ ls, x.length < 2 ^ 31 := fun x hx => hshort x (List.mem_cons_of_mem _ hx)
    cases hc : isContent l with
    | true =>
      have hfirst : firstContent (l :: ls) = some l := by
        rw [firstContent, List.find?_cons_of_pos _ hc]
      obtain ⟨hnone, hsome⟩ := step_init l hc (hshort l (List.mem_cons_self _ _))
      rw [hfirst]
      constructor
      · intro h2
        simp only [Option.map_some', Option.some.injEq] at h2
        rw [LoadState.run, hnone h2]
        rfl
      · intro h2
        simp only [Option.map_some', ne_eq, Option.some.injEq] at h2
        obtain ⟨s1, h1, a1⟩ := hsome h2
        obtain ⟨s2, q, hrun, hq, a2⟩ := run_after ls s1 l a1 hls
        refine ⟨s2, ?_, Or.inr ⟨q, ?_, a2⟩⟩
        · rw [LoadState.run, h1]; exact hrun
        · rw [lastContent, lastContentFrom, hc]; exact hq
    | false =>
      have hfirst : firstContent (l :: ls) = firstContent ls := by
        rw [firstContent, List.find?_cons_of_neg _ (by simp [hc])]
        rfl
      have hlast : lastContent (l :: ls) = lastContent ls := by
        rw [lastContent, lastContentFrom, hc]
        rfl
      rw [hfirst, hlast, LoadState.run, step_not_content _ l hc]
      exact ih hls

theorem lastContentFrom_none : ∀ (lines : List Str) (previous : Option Str),
    lastContentFrom previous lines = none → previous = none ∧ lines.find? isContent = none := by
  intro lines
  induction lines with
  | nil => intro previous h; exact ⟨h, rfl⟩
  | cons l ls ih =>
    intro previous h
    rw [lastContentFrom] at h
    obtain ⟨h1, h2⟩ := ih _ h
    cases hc : isContent l with
    | true => rw [hc] at h1; simp at h1
    | false =>
      rw [hc] at h1
      exact ⟨by simpa using h1, by rw [List.find?_cons_of_neg _ (by simp [hc])]; exact h2⟩

/-- C24: for every input whose lines are shorter than `2 ^ 31` characters, `Yaml::Load`
reaches `currentSection->m_children.back()` on a Section without children (the result `none`
of the model) if and only if the first line that is neither exactly `---` nor a comment has
computed indentation exactly 2. For every other input, whenever that step runs for a content
line `l` (the `uint32_t` difference of its indentation and `lastIndentation` is 2), the loop
has reached `l`, `currentSection` has not moved since the previous content line `p`, and the
last element of its child list is the Section of `p`. -/
theorem Load_undefined_iff (self : Metadata) (lines : List Str)
    (hshort : ∀ l ∈ lines, l.length < 2 ^ 31) :
    (LoadLines self lines = none ↔ (firstContent lines).map lineIndent = some 2) ∧
      ((firstContent lines).map lineIndent ≠ some 2 →
        ∀ pre l post, lines = pre ++ l :: post → isContent l = true →
          ∃ s, LoadState.init.run pre = some s ∧
            (sub32 (lineIndent l) s.lastIndentation = 2 →
              s.adjust (lineIndent l) = s.descend ∧
                ∃ p, lastContent pre = some p ∧
                  s.current.children.getLast? =
                    some (Section.mk (String.Trim p) (lineIndent p) []))) := by
  obtain ⟨hnone, hsome⟩ := run_init lines hshort
  refine ⟨⟨fun h => ?_, fun h => ?_⟩, ?_⟩
  · by_contra hne
    obtain ⟨s, hs, -⟩ := hsome hne
    rw [LoadLines, hs] at h
    simp at h
  · rw [LoadLines, hnone h]
    rfl
  · intro hne pre l post hsplit hc
    have hpre : ∀ x ∈ pre, x.length < 2 ^ 31 := fun x hx =>
      hshort x (by rw [hsplit]; exact List.mem_append_left _ hx)
    have hl : l.length < 2 ^ 31 := hshort l (by rw [hsplit]; simp)
    have hb := lineIndent_short l hl
    have hfirst : firstContent lines = (firstContent pre).or (some l) := by
      rw [hsplit, firstContent, List.find?_append, List.find?_cons_of_pos _ hc]
      rfl
    have hpre2 : (firstContent pre).map lineIndent ≠ some 2 := by
      intro h
      cases hq : firstContent pre with
      | none => rw [hq] at h; simp at h
      | some q =>
        rw [hq] at hfirst h
        rw [hfirst] at hne
        exact hne h
    obtain ⟨s, hs, hcase⟩ := (run_init pre hpre).2 hpre2
    refine ⟨s, hs, fun h2 => ?_⟩
    rcases hcase with ⟨hlast, hinit⟩ | ⟨q, hq, hafter⟩
    · exfalso
      have hnocontent := (lastContentFrom_none pre none hlast).2
      rw [show firstContent pre = none from hnocontent] at hfirst
      rw [hfirst] at hne
      rw [hinit] at h2
      have h3 : sub32 (lineIndent l) 0 = 2 := h2
      rw [sub32_of_le _ 0 (Nat.zero_le _) (by omega)] at h3
      apply hne
      show some (lineIndent l) = some 2
      rw [show lineIndent l = 2 from h3]
    · exact ⟨adjust_eq_descend s _ (by rw [hafter.1]; exact hafter.2.1) (by omega) h2,
        q, hq, hafter.2.2⟩

theorem Load_undefined_iff_witness : LoadLines Yaml.new ["- a".toList] = none :=
  (Load_undefined_iff Yaml.new ["- a".toList] (by decide)).1.2 (by decide)

/-! ## The indentation of a Section and of its parent -/

theorem orderedUnder_append (p : Nat) : ∀ a b : List Section,
    Section.orderedUnder p (a ++ b) = (Section.orderedUnder p a && Section.orderedUnder p b) := by
  intro a
  induction a with
  | nil => intro b; simp [Section.orderedUnder]
  | cons x xs ih =>
    intro b
    rw [List.cons_append, Section.orderedUnder, Section.orderedUnder, ih]
    simp only [Bool.and_assoc]

theorem orderedList_append : ∀ a b : List Section,
    Section.orderedList (a ++ b) = (Section.orderedList a && Section.orderedList b) := by
  intro a
  induction a with
  | nil => intro b; simp [Section.orderedList]
  | cons x xs ih =>
    intro b
    rw [List.cons_append, Section.orderedList, Section.orderedList, ih, Bool.and_assoc]

theorem orderedList_of_orderedUnder (p : Nat) : ∀ cs : List Section,
    Section.orderedUnder p cs = true → Section.orderedList cs = true := by
  intro cs
  induction cs with
  | nil => intro _; rfl
  | cons x xs ih =>
    intro h
    rw [Section.orderedUnder] at h
    simp only [Bool.and_eq_true] at h
    rw [Section.orderedList, h.1.2, ih h.2]
    rfl

theorem ordered_toSection (f : Frame) :
    Section.ordered f.toSection = Section.orderedUnder f.indentation f.children := by
  rw [Frame.toSection, Section.ordered]

theorem orderedUnder_singleton (p : Nat) (c : Section) :
    Section.orderedUnder p [c] = (decide (p + 2 ≤ c.indentation) && Section.ordered c) := by
  rw [Section.orderedUnder, Section.orderedUnder, Bool.and_true]

theorem orderedList_singleton (c : Section) : Section.orderedList [c] = Section.ordered c := by
  rw [Section.orderedList, Section.orderedList, Bool.and_true]

theorem orderedUnder_last (p : Nat) (cs : List Section) (c : Section)
    (h : Section.orderedUnder p cs = true) (hc : cs.getLast? = some c) :
    Section.orderedUnder p cs.dropLast = true ∧ p + 2 ≤ c.indentation ∧
      Section.ordered c = true := by
  have e : cs = cs.dropLast ++ [c] := (List.dropLast_append_getLast? c hc).symm
  rw [e, orderedUnder_append, orderedUnder_singleton] at h
  simp only [Bool.and_eq_true, decide_eq_true_eq] at h
  exact ⟨h.1, h.2.1, h.2.2⟩

theorem orderedList_last (cs : List Section) (c : Section)
    (h : Section.orderedList cs = true) (hc : cs.getLast? = some c) :
    Section.orderedList cs.dropLast = true ∧ Section.ordered c = true := by
  have e : cs = cs.dropLast ++ [c] := (List.dropLast_append_getLast? c hc).symm
  rw [e, orderedList_append, orderedList_singleton] at h
  simp only [Bool.and_eq_true] at h
  exact h

theorem chain_mono : ∀ (par : List Frame) (cur : Frame) (b b1 : Nat), b ≤ b1 →
    LoadState.chainOrdered b cur par → LoadState.chainOrdered b1 cur par := by
  intro par
  induction par with
  | nil => intro cur b b1 _ h; exact h
  | cons p rest ih =>
    intro cur b b1 hb h
    obtain ⟨h1, h2, h3, h4⟩ := h
    exact ⟨by omega, h2, h3, ih p (b - 2) (b1 - 2) (by omega) h4⟩

theorem chain_head (b : Nat) (cur : Frame) (par : List Frame) (hne : par ≠ [])
    (h : LoadState.chainOrdered b cur par) :
    cur.indentation + 2 ≤ b ∧ Section.orderedUnder cur.indentation cur.children = true := by
  cases par with
  | nil => exact absurd rfl hne
  | cons p rest => exact ⟨h.1, h.2.1⟩

theorem chain_children (b : Nat) (cur : Frame) (par : List Frame)
    (h : LoadState.chainOrdered b cur par) : Section.orderedList cur.children = true := by
  cases par with
  | nil => exact h
  | cons p rest => exact orderedList_of_orderedUnder _ _ h.2.1

theorem chain_close (b : Nat) (cur p : Frame) (rest : List Frame)
    (h : LoadState.chainOrdered b cur (p :: rest)) :
    LoadState.chainOrdered (b - 2) { p with children := p.children ++ [cur.toSection] } rest := by
  obtain ⟨h1, h2, h3, h4⟩ := h
  cases rest with
  | nil =>
    show Section.orderedList (p.children ++ [cur.toSection]) = true
    rw [orderedList_append, orderedList_singleton, ordered_toSection, h2,
      show Section.orderedList p.children = true from h4]
    rfl
  | cons q r =>
    obtain ⟨g1, g2, g3, g4⟩ := h4
    refine ⟨g1, ?_, g3, g4⟩
    show Section.orderedUnder p.indentation (p.children ++ [cur.toSection]) = true
    have h5 : p.indentation + 2 ≤ cur.toSection.indentation := h3 (by simp)
    rw [orderedUnder_append, orderedUnder_singleton, ordered_toSection, h2, g2,
      decide_eq_true h5]
    rfl

theorem chain_toParent (b : Nat) (s : LoadState)
    (h : LoadState.chainOrdered b s.current s.parents) :
    LoadState.chainOrdered (b - 2) s.toParent.current s.toParent.parents := by
  cases s with
  | mk cur par last =>
    cases par with
    | nil => exact h
    | cons p rest => exact chain_close b cur p rest h

theorem chain_ascend : ∀ (k b : Nat) (s : LoadState),
    LoadState.chainOrdered b s.current s.parents →
    LoadState.chainOrdered (b - 2 * k) (s.ascend k).current (s.ascend k).parents := by
  intro k
  induction k with
  | zero => intro b s h; exact h
  | succ n ih =>
    intro b s h
    rw [LoadState.ascend]
    have := ih (b - 2) s.toParent (chain_toParent b s h)
    rwa [show b - 2 - 2 * n = b - 2 * (n + 1) by omega] at this

theorem top_rootOrdered : ∀ (par : List Frame) (cur : Frame) (b : Nat),
    LoadState.chainOrdered b cur par → Section.rootOrdered (LoadState.top par cur) = true := by
  intro par
  induction par with
  | nil => intro cur b h; exact h
  | cons p rest ih =>
    intro cur b h
    rw [LoadState.top]
    exact ih _ (b - 2) (chain_close b cur p rest h)

theorem chain_append (b : Nat) (cur : Frame) (par : List Frame) (t : Str)
    (h : LoadState.chainOrdered b cur par) :
    LoadState.chainOrdered b { cur with children := cur.children ++ [Section.mk t b []] }
      par := by
  cases par with
  | nil =>
    show Section.orderedList (cur.children ++ [Section.mk t b []]) = true
    rw [orderedList_append, orderedList_singleton, show Section.orderedList cur.children = true from h]
    rfl
  | cons p rest =>
    obtain ⟨h1, h2, h3, h4⟩ := h
    refine ⟨h1, ?_, h3, h4⟩
    show Section.orderedUnder cur.indentation (cur.children ++ [Section.mk t b []]) = true
    have h5 : cur.indentation + 2 ≤ (Section.mk t b []).indentation := h1
    rw [orderedUnder_append, orderedUnder_singleton, h2, decide_eq_true h5]
    rfl

theorem chain_addFillers : ∀ (n t : Nat) (s : LoadState),
    LoadState.chainOrdered (s.lastIndentation + 2 * t) s.current s.parents →
    s.lastIndentation + 2 * (t + n) < U32 →
    LoadState.chainOrdered (s.lastIndentation + 2 * (t + n))
      (LoadState.addFillers n t s).current (LoadState.addFillers n t s).parents := by
  intro n
  induction n with
  | zero => intro t s h _; exact h
  | succ k ih =>
    intro t s h hb
    rw [LoadState.addFillers]
    have e1 : (t + 1) % U32 = t + 1 := Nat.mod_eq_of_lt (by omega)
    have e2 : (s.lastIndentation + t * 2) % U32 = s.lastIndentation + 2 * t := by
      rw [Nat.mod_eq_of_lt (by omega)]; omega
    rw [e1, e2]
    have e3 : s.lastIndentation + 2 * (t + (k + 1)) = s.lastIndentation + 2 * (t + 1 + k) := by
      omega
    rw [e3]
    apply ih (t + 1)
      { s with current := ⟨[], s.lastIndentation + 2 * t, []⟩,
               parents := s.current :: s.parents }
    · show LoadState.chainOrdered (s.lastIndentation + 2 * (t + 1))
        ⟨[], s.lastIndentation + 2 * t, []⟩ (s.current :: s.parents)
      refine ⟨?_, rfl, fun hne => (chain_head _ _ _ hne h).1, ?_⟩
      · show s.lastIndentation + 2 * t + 2 ≤ s.lastIndentation + 2 * (t + 1)
        omega
      · rw [show s.lastIndentation + 2 * (t + 1) - 2 = s.lastIndentation + 2 * t by omega]
        exact h
    · show s.lastIndentation + 2 * (t + 1 + k) < U32
      omega

theorem ofSection_fields (c : Section) :
    (Frame.ofSection c).indentation = c.indentation ∧
      Section.orderedUnder (Frame.ofSection c).indentation (Frame.ofSection c).children =
        Section.ordered c := by
  cases c
  exact ⟨rfl, rfl⟩

theorem chain_descend (s s1 : LoadState) (b : Nat)
    (h : LoadState.chainOrdered b s.current s.parents) (hd : s.descend = some s1)
    (hlast : ∀ c, s.current.children.getLast? = some c → c.indentation ≤ b) :
    LoadState.chainOrdered (b + 2) s1.current s1.parents := by
  unfold LoadState.descend at hd
  cases hc : s.current.children.getLast? with
  | none => rw [hc] at hd; simp at hd
  | some c =>
    rw [hc] at hd
    simp only [Option.some.injEq] at hd
    rw [← hd]
    show LoadState.chainOrdered (b + 2) (Frame.ofSection c)
      ({ s.current with children := s.current.children.dropLast } :: s.parents)
    obtain ⟨f1, f2⟩ := ofSection_fields c
    have hkids := orderedList_last _ c (chain_children b _ _ h) hc
    refine ⟨by rw [f1]; have := hlast c hc; omega, by rw [f2]; exact hkids.2, ?_, ?_⟩
    · intro hne
      obtain ⟨-, hu⟩ := chain_head b _ _ hne h
      rw [f1]
      exact (orderedUnder_last _ _ c hu hc).2.1
    · rw [Nat.add_sub_cancel]
      cases hp : s.parents with
      | nil =>
        rw [hp] at h
        exact hkids.1
      | cons p rest =>
        rw [hp] at h
        obtain ⟨h1, h2, h3, h4⟩ := h
        exact ⟨h1, (orderedUnder_last _ _ c h2 hc).1, h3, h4⟩

theorem chain_adjust (s s2 : LoadState) (i : Nat) (h : s.Graded) (hi : i % 2 = 0)
    (hb : i + 2 < U32) (ha : s.adjust i = some s2) :
    LoadState.chainOrdered i s2.current s2.parents := by
  obtain ⟨hL, hLb, hchain, hlast⟩ := h
  rcases Nat.lt_trichotomy i s.lastIndentation with hlt | heq | hgt
  · have h3 : sub32 i s.lastIndentation ≠ 2 := sub32_ne_two_of_lt _ _ hlt hLb
    have h4 : sub32 s.lastIndentation i = s.lastIndentation - i :=
      sub32_of_le _ _ (by omega) (by omega)
    unfold LoadState.adjust at ha
    simp only [hlt, if_true, h3, if_false, Option.some.injEq] at ha
    rw [← ha, h4]
    have := chain_ascend ((s.lastIndentation - i) / 2) s.lastIndentation s hchain
    rwa [show s.lastIndentation - 2 * ((s.lastIndentation - i) / 2) = i by omega] at this
  · subst heq
    unfold LoadState.adjust at ha
    simp only [Nat.lt_irrefl, if_false, gt_iff_lt, sub32_self, OfNat.zero_ne_ofNat,
      Option.some.injEq] at ha
    rw [← ha]
    exact hchain
  · have h4 : sub32 i s.lastIndentation = i - s.lastIndentation :=
      sub32_of_le _ _ (by omega) (by omega)
    by_cases h2 : sub32 i s.lastIndentation = 2
    · rw [adjust_eq_descend s i hLb (by omega) h2] at ha
      have := chain_descend s s2 s.lastIndentation hchain ha hlast
      rwa [show s.lastIndentation + 2 = i by omega] at this
    · have h5 : sub32 ((i - s.lastIndentation) / 2) 1 = (i - s.lastIndentation) / 2 - 1 :=
        sub32_of_le _ _ (by omega) (by omega)
      unfold LoadState.adjust at ha
      simp only [show ¬ i < s.lastIndentation by omega, if_false, hgt, if_true, h2,
        Option.some.injEq] at ha
      rw [← ha, h4, h5]
      have := chain_addFillers ((i - s.lastIndentation) / 2 - 1) 0 s
        (by rw [Nat.mul_zero, Nat.add_zero]; exact hchain) (by omega)
      exact chain_mono _ _ _ i (by omega) this

theorem graded_step (s s1 : LoadState) (l : Str) (h : s.Graded) (hc : isContent l = true)
    (hi : lineIndent l % 2 = 0) (hb : lineIndent l + 2 < U32) (hstep : s.step l = some s1) :
    s1.Graded := by
  obtain ⟨hm, hscan⟩ := content_facts l hc
  rw [step_of_scan s l (lineIndent l) hm hscan, Option.map_eq_some'] at hstep
  obtain ⟨s2, h2, rfl⟩ := hstep
  have hchain := chain_adjust s s2 (lineIndent l) h hi hb h2
  refine ⟨hi, hb, chain_append _ _ _ (String.Trim l) hchain, ?_⟩
  intro c hc2
  have e : (s2.current.children ++ [Section.mk (String.Trim l) (lineIndent l) []]).getLast? =
      some c := hc2
  rw [List.getLast?_append_cons, List.getLast?_singleton, Option.some.injEq] at e
  rw [← e]
  exact Nat.le_refl _

theorem graded_run : ∀ (lines : List Str) (s s1 : LoadState), s.Graded →
    (∀ l ∈ lines, isContent l = true → lineIndent l % 2 = 0 ∧ lineIndent l + 2 < U32) →
    LoadState.run lines s = some s1 → s1.Graded := by
  intro lines
  induction lines with
  | nil =>
    intro s s1 h _ hrun
    rw [LoadState.run, Option.some.injEq] at hrun
    rw [← hrun]; exact h
  | cons l ls ih =>
    intro s s1 h hgrid hrun
    rw [LoadState.run] at hrun
    cases hs : s.step l with
    | none => rw [hs] at hrun; simp at hrun
    | some s2 =>
      rw [hs, Option.some_bind] at hrun
      have hls : ∀ x ∈ ls, isContent x = true →
          lineIndent x % 2 = 0 ∧ lineIndent x + 2 < U32 :=
        fun x hx => hgrid x (List.mem_cons_of_mem _ hx)
      cases hc : isContent l with
      | true =>
        obtain ⟨hi, hb⟩ := hgrid l (List.mem_cons_self _ _) hc
        exact ih s2 s1 (graded_step s s2 l h hc hi hb hs) hls hrun
      | false =>
        rw [step_not_content s l hc, Option.some.injEq] at hs
        rw [← hs] at hrun
        exact ih s s1 h hls hrun

theorem graded_init : LoadState.init.Graded :=
  ⟨rfl, by decide, rfl, fun c hc => by simp [LoadState.init] at hc⟩

theorem linesOrderedUnder_last (p : Nat) (c : Section) (hc : c.content.isEmpty = false)
    (hlow : ¬ p + 2 ≤ c.indentation) : ∀ a : List Section,
    Section.linesOrderedUnder p (a ++ [c]) = false := by
  intro a
  induction a with
  | nil =>
    rw [List.nil_append, Section.linesOrderedUnder, hc, decide_eq_false hlow]
    rfl
  | cons x xs ih =>
    rw [List.cons_append, Section.linesOrderedUnder, ih, Bool.and_false]

theorem deep_not_ordered (n : Nat) (hn : 2 * n + 2 = U32) :
    (LoadState.init.run (keyedLinesList 0 (deepTreeOf n).GetChildren)).map
        (fun s => Section.linesOrderedList (LoadState.top s.parents s.current).children) =
      some false := by
  obtain ⟨s, kids, hrun, htop⟩ := run_deep n hn
  rw [hrun, Option.map_some', htop]
  show some (Section.linesOrderedList
    [Section.mk ['a', ':'] 0 (kids ++ [Section.mk ['b', ':'] 0 []])]) = some false
  rw [Section.linesOrderedList, Section.linesOrdered,
    linesOrderedUnder_last 0 (Section.mk ['b', ':'] 0 []) rfl (by decide) kids]
  rfl

/-- C23: the claim fails in three ways. For the single line `a:` the Section of the line is a
child of the synthetic root and both have indentation 0. For `a:`, `  b:`, ` c:` the Section
of ` c:` (indentation 1) is a child of the Section of `a:` (indentation 0): the walk up for a
decrease by 1 takes no step. For the lines of `deepLines` the Section of the last line `b: `
(indentation 0) is a child of the Section of the first line `a: ` (indentation 0), after a
line of indentation `2 ^ 32 - 2`. In the second and the third case the children of the root
are left out of the check; no filler Section is involved in any of them. -/
theorem Load_sections_not_ordered :
    (LoadState.init.run ["a:".toList]).map
        (fun s => Section.linesOrdered (LoadState.top s.parents s.current)) = some false ∧
      (LoadState.init.run ["a:".toList, "  b:".toList, " c:".toList]).map
        (fun s => Section.linesOrderedList (LoadState.top s.parents s.current).children) =
          some false ∧
      (LoadState.init.run deepLines).map
        (fun s => Section.linesOrderedList (LoadState.top s.parents s.current).children) =
          some false :=
  ⟨by decide!, by decide!, deep_not_ordered 2147483647 (by decide)⟩

/-- C23, amended: for every input whose content lines all have even indentation below
`2 ^ 32 - 2`, after every step of `Yaml::Load` (after the first `n` lines, for every `n`),
every Section whose parent is not the synthetic root, filler or not, has an indentation
greater than or equal to the indentation of its parent Section plus 2. -/
theorem Load_sections_ordered (lines : List Str)
    (hgrid : ∀ l ∈ lines, isContent l = true → lineIndent l % 2 = 0 ∧ lineIndent l + 2 < U32)
    (n : Nat) (s : LoadState) (hrun : LoadState.init.run (lines.take n) = some s) :
    Section.rootOrdered (LoadState.top s.parents s.current) = true :=
  top_rootOrdered s.parents s.current s.lastIndentation
    (graded_run (lines.take n) LoadState.init s graded_init
      (fun l hl => hgrid l (List.mem_of_mem_take hl)) hrun).2.2.1

theorem Load_sections_ordered_witness :
    (LoadState.init.run nestedExample).map
        (fun s => Section.rootOrdered (LoadState.top s.parents s.current)) = some true :=
  (Option.isSome_iff_exists.mp
    (by decide : (LoadState.init.run nestedExample).isSome = true)).elim fun s hs => by
      rw [hs, Option.map_some', Load_sections_ordered nestedExample (by decide) 7 s hs]

/-! ## Leading colons in the text written -/

theorem colonScan_append (b : Nat) (x y : Str) : ∀ st : Option Nat,
    colonScan b st (x ++ y) = (colonScan b st x).bind fun st1 => colonScan b st1 y := by
  induction x with
  | nil => intro st; rfl
  | cons c cs ih =>
    intro st
    rw [List.cons_append, colonScan, colonScan]
    cases colonStep b st c with
    | none => rfl
    | some st1 => exact ih st1

theorem colonScan_prefix (b : Nat) (x y : Str) (st : Option Nat)
    (h : colonScan b st (x ++ y) ≠ none) : colonScan b st x ≠ none := by
  intro e
  rw [colonScan_append, e] at h
  exact h rfl

theorem colonStep_none (b : Nat) (c : Char) (hc : c ≠ '\n') : colonStep b none c = some none := by
  unfold colonStep
  rw [if_neg hc]

theorem colonStep_feed (b : Nat) (st : Option Nat) : colonStep b st '\n' = some (some 0) := by
  unfold colonStep
  rw [if_pos rfl]

theorem colonScan_none (b : Nat) (s : Str) (h : '\n' ∉ s) : colonScan b none s = some none := by
  induction s with
  | nil => rfl
  | cons c cs ih =>
    rw [colonScan, colonStep_none b c (fun e => h (e ▸ List.mem_cons_self _ _))]
    exact ih (fun e => h (List.mem_cons_of_mem _ e))

theorem colonScan_line_end (b : Nat) (s : Str) (h : '\n' ∉ s) :
    colonScan b none (s ++ ['\n']) = some (some 0) := by
  rw [colonScan_append, colonScan_none b s h]
  rfl

theorem colonScan_spaces (b : Nat) (s : Str) (h : ∀ x ∈ s, x = ' ') : ∀ st : Option Nat,
    colonScan b st s = some st := by
  induction s with
  | nil => intro st; rfl
  | cons c cs ih =>
    intro st
    have hc : c = ' ' := h c (List.mem_cons_self _ _)
    subst hc
    have hstep : colonStep b st ' ' = some st := by
      cases st with
      | none => rfl
      | some k => rfl
    rw [colonScan, hstep]
    exact ih (fun x hx => h x (List.mem_cons_of_mem _ hx)) st

theorem colonScan_marker (b : Nat) (st : Option Nat) :
    colonScan b st ['-', ' '] = some none := by
  cases st with
  | none => rfl
  | some k => rfl

theorem colonScan_value (b : Nat) (v : Str) (h : '\n' ∉ v) : ∀ k : Nat,
    k + leadingColons v ≤ b → colonScan b (some k) v ≠ none := by
  induction v with
  | nil => intro k _; simp [colonScan]
  | cons c cs ih =>
    intro k hk
    have hc : c ≠ '\n' := fun e => h (e ▸ List.mem_cons_self _ _)
    have hcs : '\n' ∉ cs := fun e => h (List.mem_cons_of_mem _ e)
    rw [colonScan]
    unfold colonStep
    rw [if_neg hc]
    simp only []
    rw [leadingColons] at hk
    by_cases h1 : c = ':'
    · rw [if_pos h1] at hk ⊢
      rw [if_pos (by omega)]
      exact ih hcs (k + 1) (by omega)
    · rw [if_neg h1] at hk ⊢
      by_cases h2 : String.isWhitespace c = true
      · rw [if_pos h2] at hk ⊢
        exact ih hcs k hk
      · rw [if_neg h2]
        rw [Option.some_bind, colonScan_none b cs hcs]
        simp

theorem colonScan_value_line (b : Nat) (v : Str) (h : '\n' ∉ v) (hv : leadingColons v ≤ b) :
    ∀ st : Option Nat, st = none ∨ st = some 0 →
    colonScan b st (v ++ ['\n']) = some (some 0) := by
  intro st hst
  rcases hst with rfl | rfl
  · exact colonScan_line_end b v h
  · rw [colonScan_append]
    cases hs : colonScan b (some 0) v with
    | none => exact absurd hs (colonScan_value b v h 0 (by omega))
    | some st1 =>
      rw [Option.some_bind, colonScan, colonStep_feed]
      rfl

theorem colonScan_named_line (b : Nat) (name rest : Str) (hne : name ≠ [])
    (hnice : niceName name = true) (hn : '\n' ∉ name) (hr : '\n' ∉ rest) :
    ∀ st : Option Nat, st = none ∨ st = some 0 →
    colonScan b st (name ++ rest ++ ['\n']) = some (some 0) := by
  intro st hst
  have hall : '\n' ∉ name ++ rest := by
    intro e
    rcases List.mem_append.mp e with e | e
    · exact hn e
    · exact hr e
  rcases hst with rfl | rfl
  · exact colonScan_line_end b _ hall
  · cases name with
    | nil => exact absurd rfl hne
    | cons c cs =>
      simp only [niceName, Bool.and_eq_true, Bool.not_eq_true', bne_iff_ne, ne_eq] at hnice
      have hc : c ≠ '\n' := fun e => hn (e ▸ List.mem_cons_self _ _)
      have hstep : colonStep b (some 0) c = some none := by
        unfold colonStep
        rw [if_neg hc]
        simp only []
        rw [if_neg hnice.2, if_neg (by simp [hnice.1])]
      rw [List.cons_append, List.cons_append, colonScan, hstep, Option.some_bind]
      apply colonScan_line_end
      intro e
      exact hall (List.mem_cons_of_mem _ (by simpa using e))

theorem within_write (b : Nat) (o : OStream) (s : Str) (h : o.Within b)
    (hs : ∀ st : Option Nat, st = none ∨ st = some 0 → colonSettled (colonScan b st s)) :
    (o.write s).Within b := by
  obtain ⟨he, h2, hset⟩ := h
  refine ⟨atEnd_write o s he, ?_, ?_⟩
  · rw [write_at_end o s he]
    show 2 ≤ o.buf.length + s.length
    rw [← he.2]
    omega
  · rw [write_at_end o s he]
    show colonSettled (colonScan b (some 0) (o.buf ++ s))
    rw [colonScan_append]
    rcases hset with e | e
    · rw [e]; exact hs none (Or.inl rfl)
    · rw [e]; exact hs (some 0) (Or.inr rfl)

theorem within_rewind (b : Nat) (o : OStream) (h : o.Within b) :
    ((o.seekBack2).write ['-', ' ']).Within b := by
  obtain ⟨he, h2, hset⟩ := h
  have hlen : 2 ≤ o.buf.length := by rw [← he.2]; exact h2
  refine ⟨atEnd_rewind o he hlen, ?_, ?_⟩
  · rw [rewind_at_end o he hlen]
    exact hlen
  · rw [rewind_at_end o he hlen]
    show colonSettled (colonScan b (some 0) (o.buf.take (o.buf.length - 2) ++ ['-', ' ']))
    have hpre : colonScan b (some 0) (o.buf.take (o.buf.length - 2)) ≠ none := by
      apply colonScan_prefix b _ (o.buf.drop (o.buf.length - 2))
      rw [List.take_append_drop]
      rcases hset with e | e <;> rw [e] <;> simp
    rw [colonScan_append]
    cases hs : colonScan b (some 0) (o.buf.take (o.buf.length - 2)) with
    | none => exact absurd hs hpre
    | some st =>
      rw [Option.some_bind, colonScan_marker]
      exact Or.inl rfl

theorem within_writeOwnLine (b : Nat) (name value : Str) (o : OStream) (h : o.Within b)
    (hn : '\n' ∉ name) (hv : '\n' ∉ value) (hnice : niceName name = true)
    (hval : name = [] → leadingColons value ≤ b) : (writeOwnLine name value o).Within b := by
  unfold writeOwnLine
  split
  · rename_i hne
    have hne2 : name ≠ [] := by
      intro e; subst e; simp at hne
    split
    · apply within_write b o _ h
      intro st hst
      have e : name ++ [':', ' ', '\n'] = name ++ [':', ' '] ++ ['\n'] := by simp
      rw [e, colonScan_named_line b name [':', ' '] hne2 hnice hn (by decide) st hst]
      exact Or.inr rfl
    · apply within_write b o _ h
      intro st hst
      have e : name ++ [':', ' '] ++ value ++ ['\n'] = name ++ ([':', ' '] ++ value) ++ ['\n'] := by
        simp
      rw [e, colonScan_named_line b name ([':', ' '] ++ value) hne2 hnice hn
        (by simpa using hv) st hst]
      exact Or.inr rfl
  · rename_i hne
    have hnil : name = [] := by simpa using hne
    split
    · apply within_write b o _ h
      intro st hst
      rw [colonScan_value_line b value hv (hval hnil) st hst]
      exact Or.inr rfl
    · exact h

theorem within_writeAttributes (b c : Nat) : ∀ (attributes : List (Str × Str)) (o : OStream),
    o.Within b → feedFreeAttributes attributes = true →
    (writeAttributes (indents c) attributes o).Within b := by
  intro attributes
  induction attributes with
  | nil => intro o h _; exact h
  | cons kv rest ih =>
    intro o h hfree
    obtain ⟨k, v⟩ := kv
    simp only [feedFreeAttributes, List.all_cons, Bool.and_eq_true, decide_eq_true_eq] at hfree
    rw [writeAttributes]
    apply ih _ _ (by simpa [feedFreeAttributes] using hfree.2)
    apply within_write b o _ h
    intro st hst
    have e : indents c ++ [' ', ' ', '_'] ++ (k ++ [':', ' ']) ++ v ++ ['\n'] =
        (indents c ++ [' ', ' ']) ++ (['_'] ++ (k ++ [':', ' '] ++ v) ++ ['\n']) := by simp
    rw [e, colonScan_append, colonScan_spaces b _ (by
      intro x hx
      rcases List.mem_append.mp hx with hx | hx
      · exact indents_spaces c x hx
      · simp only [List.mem_cons, List.mem_singleton, List.not_mem_nil, or_false] at hx
        rcases hx with hx | hx <;> exact hx) st, Option.some_bind,
      colonScan_named_line b ['_'] (k ++ [':', ' '] ++ v) (by simp) (by decide) (by decide)
        (by
          intro e2
          rcases List.mem_append.mp e2 with e3 | e3
          · rcases List.mem_append.mp e3 with e4 | e4
            · exact hfree.1.1 e4
            · exact absurd e4 (by decide)
          · exact hfree.1.2 e3) st hst]
    exact Or.inr rfl

mutual
theorem AppendData_within (b : Nat) : ∀ (n : Metadata) (parent : Option Metadata) (index : Nat)
    (o : OStream) (c : Nat), (∀ p, parent = some p → p.GetChildren ≠ []) →
    n.loadedWithin (b + 1) = true → o.Within b →
    ∃ o1, AppendData n parent index o c = some o1 ∧ o1.Within b
  | Metadata.mk name value children attributes, parent, index, o, c, hp, hsafe, h => by
    simp only [Metadata.loadedWithin, Bool.and_eq_true, decide_eq_true_eq, Bool.or_eq_true,
      Bool.not_eq_true'] at hsafe
    obtain ⟨⟨⟨⟨⟨hn, hv⟩, hnice⟩, hscalar⟩, hattr⟩, hch⟩ := hsafe
    have hval : name = [] → leadingColons value ≤ b := by
      intro e
      subst e
      rcases hscalar with (hs | hs) | hs
      · simp at hs
      · have : value = [] := by simpa using hs
        subst this
        exact Nat.zero_le _
      · omega
    have hrest : ∀ o2 : OStream, o2.Within b →
        ∃ o1, AppendChildren children (Metadata.mk name value children attributes) 0
          (writeAttributes (indents c) attributes (writeOwnLine name value o2))
          (c + if name.isEmpty then 0 else 1) = some o1 ∧ o1.Within b := by
      intro o2 h2
      exact AppendChildren_within b children (Metadata.mk name value children attributes) 0 _ _
        (fun hne => hne) hch
        (within_writeAttributes b c _ _ (within_writeOwnLine b _ _ _ h2 hn hv hnice hval) hattr)
    cases parent with
    | none =>
      rw [AppendData]
      exact hrest o h
    | some p =>
      cases hpc : p.GetChildren with
      | nil => exact absurd hpc (hp p rfl)
      | cons first more =>
        rw [AppendData_some name value children attributes p first more hpc]
        apply hrest
        have h1 : (if !(index == 0 && p.GetName.isEmpty && p.GetValue.isEmpty) then
            o.write (indents c) else o).Within b := by
          split
          · apply within_write b o _ h
            intro st hst
            rw [colonScan_spaces b _ (indents_spaces c) st]
            rcases hst with rfl | rfl
            · exact Or.inl rfl
            · exact Or.inr rfl
          · exact h
        split
        · exact within_rewind b _ h1
        · exact h1
theorem AppendChildren_within (b : Nat) : ∀ (ns : List Metadata) (p : Metadata) (index : Nat)
    (o : OStream) (c : Nat), (ns ≠ [] → p.GetChildren ≠ []) →
    Metadata.loadedWithinList (b + 1) ns = true → o.Within b →
    ∃ o1, AppendChildren ns p index o c = some o1 ∧ o1.Within b
  | [], p, index, o, c, _, _, h => ⟨o, by rw [AppendChildren], h⟩
  | x :: xs, p, index, o, c, hp, hsafe, h => by
    simp only [Metadata.loadedWithinList, Bool.and_eq_true] at hsafe
    have hne : p.GetChildren ≠ [] := hp (by simp)
    obtain ⟨o1, h1, g1⟩ := AppendData_within b x (some p) index o c
      (fun q hq => by rw [← Option.some.inj hq]; exact hne) hsafe.1 h
    obtain ⟨o2, h2, g2⟩ := AppendChildren_within b xs p (index + 1) o1 c (fun _ => hne)
      hsafe.2 g1
    exact ⟨o2, by rw [AppendChildren, h1]; exact h2, g2⟩
end

theorem leadingColons_of_scan (b : Nat) (l : Str) (h : '\n' ∉ l) : ∀ k : Nat, k ≤ b →
    colonScan b (some k) l ≠ none → k + leadingColons l ≤ b := by
  induction l with
  | nil => intro k hk _; simpa [leadingColons] using hk
  | cons c cs ih =>
    intro k hk hscan
    have hc : c ≠ '\n' := fun e => h (e ▸ List.mem_cons_self _ _)
    have hcs : '\n' ∉ cs := fun e => h (List.mem_cons_of_mem _ e)
    rw [colonScan] at hscan
    unfold colonStep at hscan
    rw [if_neg hc] at hscan
    simp only [] at hscan
    rw [leadingColons]
    by_cases h1 : c = ':'
    · rw [if_pos h1] at hscan ⊢
      by_cases h2 : k + 1 ≤ b
      · rw [if_pos h2, Option.some_bind] at hscan
        have := ih hcs (k + 1) h2 hscan
        omega
      · rw [if_neg h2] at hscan
        exact absurd rfl hscan
    · rw [if_neg h1] at hscan ⊢
      by_cases h2 : String.isWhitespace c = true
      · rw [if_pos h2] at hscan ⊢
        rw [Option.some_bind] at hscan
        exact ih hcs k hk hscan
      · rw [if_neg h2]
        omega

theorem readLinesAux_within (b : Nat) (t : Str) : ∀ (cur : Str) (st : Option Nat),
    colonScan b (some 0) cur.reverse = some st → '\n' ∉ cur → colonScan b st t ≠ none →
    ∀ l ∈ readLinesAux cur t, '\n' ∉ l ∧ colonScan b (some 0) l ≠ none := by
  induction t with
  | nil =>
    intro cur st hcur hfeed _ l hl
    rw [readLinesAux] at hl
    split at hl
    · simp at hl
    · simp only [List.mem_singleton] at hl
      subst hl
      exact ⟨by simpa using hfeed, by rw [hcur]; simp⟩
  | cons c cs ih =>
    intro cur st hcur hfeed hscan l hl
    rw [readLinesAux] at hl
    rw [colonScan] at hscan
    by_cases hc : c = '\n'
    · rw [if_pos hc] at hl
      subst hc
      rw [colonStep_feed, Option.some_bind] at hscan
      rcases List.mem_cons.mp hl with hl | hl
      · subst hl
        exact ⟨by simpa using hfeed, by rw [hcur]; simp⟩
      · exact ih [] (some 0) rfl (by simp) hscan l hl
    · rw [if_neg hc] at hl
      cases hstep : colonStep b st c with
      | none => rw [hstep] at hscan; exact absurd rfl hscan
      | some st1 =>
        rw [hstep, Option.some_bind] at hscan
        apply ih (c :: cur) st1 _ _ hscan l hl
        · rw [List.reverse_cons, colonScan_append, hcur, Option.some_bind, colonScan, hstep]
          rfl
        · intro e
          rcases List.mem_cons.mp e with e | e
          · exact hc e.symm
          · exact hfeed e

theorem Write_within (b : Nat) (T : Metadata) (h : T.loadedWithin (b + 1) = true) :
    ∃ text, WriteText T = some text ∧
      ∀ l ∈ readLines text, '\n' ∉ l ∧ leadingColons l ≤ b := by
  have hstart : ((OStream.mk [] 0 false).write ['-', '-', '-', '\n']).Within b := by
    refine ⟨⟨rfl, rfl⟩, by decide, Or.inr ?_⟩
    rfl
  obtain ⟨o1, h1, g1⟩ := AppendData_within b T none 0 _ 0 (fun p hp => by cases hp) h hstart
  refine ⟨o1.buf, ?_, ?_⟩
  · unfold WriteText Write
    rw [h1]
    rfl
  · intro l hl
    have hok : colonScan b (some 0) o1.buf ≠ none := by
      rcases g1.2.2 with e | e <;> rw [e] <;> simp
    obtain ⟨hfeed, hscan⟩ := readLinesAux_within b o1.buf [] (some 0) rfl (by simp) hok l hl
    have := leadingColons_of_scan b l hfeed 0 (Nat.zero_le _) hscan
    exact ⟨hfeed, by omega⟩

/-! ## Leading colons in the tree read -/

theorem leadingColons_whitespace (w : Str) (h : ∀ x ∈ w, String.isWhitespace x = true) :
    leadingColons w = 0 := by
  induction w with
  | nil => rfl
  | cons c cs ih =>
    have hc := h c (List.mem_cons_self _ _)
    have hne : c ≠ ':' := by
      intro e; subst e; exact absurd hc (by decide)
    rw [leadingColons, if_neg hne, if_pos hc]
    exact ih (fun x hx => h x (List.mem_cons_of_mem _ hx))

theorem leadingColons_append_whitespace (w : Str)
    (h : ∀ x ∈ w, String.isWhitespace x = true) : ∀ a : Str,
    leadingColons (a ++ w) = leadingColons a := by
  intro a
  induction a with
  | nil => rw [List.nil_append, leadingColons_whitespace w h]; rfl
  | cons c cs ih =>
    rw [List.cons_append, leadingColons, leadingColons, ih]

theorem leadingColons_dropWhile (l : Str) :
    leadingColons (l.dropWhile String.isWhitespace) = leadingColons l := by
  induction l with
  | nil => rfl
  | cons c cs ih =>
    by_cases hc : String.isWhitespace c = true
    · have hne : c ≠ ':' := by
        intro e; subst e; exact absurd hc (by decide)
      rw [List.dropWhile_cons_of_pos hc, ih, leadingColons, if_neg hne, if_pos hc]
    · rw [List.dropWhile_cons_of_neg hc]

theorem leadingColons_Trim (l : Str) : leadingColons (String.Trim l) = leadingColons l := by
  obtain ⟨w, hw, hall⟩ := rdropWhile_split String.isWhitespace
    (l.dropWhile String.isWhitespace)
  rw [← leadingColons_dropWhile l]
  conv_rhs => rw [hw]
  rw [leadingColons_append_whitespace w hall, Trim_eq]

theorem contentWithin_nil (b : Nat) : contentWithin b [] = true := by
  simp [contentWithin, Trim_nil, leadingColons]

theorem contentWithin_line (b : Nat) (l : Str) (hfeed : '\n' ∉ l) (hl : leadingColons l ≤ b) :
    contentWithin b (String.Trim l) = true := by
  simp only [contentWithin, Bool.and_eq_true, decide_eq_true_eq]
  exact ⟨⟨Trim_Trim l, fun e => hfeed (mem_of_mem_Trim l _ e)⟩, by rw [leadingColons_Trim]; exact hl⟩

theorem withinList_append (b : Nat) : ∀ x y : List Section,
    Section.withinList b (x ++ y) = (Section.withinList b x && Section.withinList b y) := by
  intro x
  induction x with
  | nil => intro y; simp [Section.withinList]
  | cons c cs ih =>
    intro y
    rw [List.cons_append, Section.withinList, Section.withinList, ih]
    simp only [Bool.and_assoc]

theorem withinList_singleton (b : Nat) (c : Section) :
    Section.withinList b [c] = Section.within b c := by
  rw [Section.withinList, Section.withinList, Bool.and_true]

theorem within_toSection (b : Nat) (f : Frame) :
    Section.within b f.toSection = Frame.within b f := by
  rw [Frame.toSection, Section.within, Frame.within]

theorem within_ofSection (b : Nat) (c : Section) :
    Frame.within b (Frame.ofSection c) = Section.within b c := by
  cases c
  rw [Frame.ofSection, Section.within, Frame.within]

theorem withinList_last (b : Nat) (cs : List Section) (c : Section)
    (h : Section.withinList b cs = true) (hc : cs.getLast? = some c) :
    Section.withinList b cs.dropLast = true ∧ Section.within b c = true := by
  have e : cs = cs.dropLast ++ [c] := (List.dropLast_append_getLast? c hc).symm
  rw [e, withinList_append, withinList_singleton] at h
  simpa only [Bool.and_eq_true] using h

theorem frame_add_within (b : Nat) (f : Frame) (c : Section) (hf : Frame.within b f = true)
    (hc : Section.within b c = true) :
    Frame.within b { f with children := f.children ++ [c] } = true := by
  rw [Frame.within, Bool.and_eq_true] at hf ⊢
  refine ⟨hf.1, ?_⟩
  show Section.withinList b (f.children ++ [c]) = true
  rw [withinList_append, withinList_singleton, hf.2, hc]
  rfl

theorem state_toParent (b : Nat) (s : LoadState) (h : s.Within b) : s.toParent.Within b := by
  cases s with
  | mk cur par last =>
    cases par with
    | nil => exact h
    | cons p rest =>
      obtain ⟨h1, h2⟩ := h
      refine ⟨?_, fun f hf => h2 f (List.mem_cons_of_mem _ hf)⟩
      exact frame_add_within b p cur.toSection (h2 p (List.mem_cons_self _ _))
        (by rw [within_toSection]; exact h1)

theorem state_ascend (b : Nat) : ∀ (k : Nat) (s : LoadState), s.Within b →
    (s.ascend k).Within b := by
  intro k
  induction k with
  | zero => intro s h; exact h
  | succ n ih =>
    intro s h
    rw [LoadState.ascend]
    exact ih _ (state_toParent b s h)

theorem state_addFillers (b : Nat) : ∀ (n i : Nat) (s : LoadState), s.Within b →
    (LoadState.addFillers n i s).Within b := by
  intro n
  induction n with
  | zero => intro i s h; exact h
  | succ k ih =>
    intro i s h
    rw [LoadState.addFillers]
    apply ih
    refine ⟨?_, ?_⟩
    · show Frame.within b ⟨[], _, []⟩ = true
      rw [Frame.within, contentWithin_nil]
      rfl
    · intro f hf
      rcases List.mem_cons.mp hf with hf | hf
      · rw [hf]; exact h.1
      · exact h.2 f hf

theorem state_descend (b : Nat) (s s1 : LoadState) (h : s.Within b)
    (hd : s.descend = some s1) : s1.Within b := by
  unfold LoadState.descend at hd
  cases hc : s.current.children.getLast? with
  | none => rw [hc] at hd; simp at hd
  | some c =>
    rw [hc] at hd
    simp only [Option.some.injEq] at hd
    rw [← hd]
    have hcur := h.1
    rw [Frame.within, Bool.and_eq_true] at hcur
    obtain ⟨hdrop, hlast⟩ := withinList_last b _ c hcur.2 hc
    refine ⟨by rw [within_ofSection]; exact hlast, ?_⟩
    intro f hf
    rcases List.mem_cons.mp hf with hf | hf
    · rw [hf, Frame.within, Bool.and_eq_true]
      exact ⟨hcur.1, hdrop⟩
    · exact h.2 f hf

theorem state_adjust (b : Nat) (s s2 : LoadState) (i : Nat) (h : s.Within b)
    (ha : s.adjust i = some s2) : s2.Within b := by
  unfold LoadState.adjust at ha
  have h1 : (if i < s.lastIndentation then s.ascend (sub32 s.lastIndentation i / 2)
      else if i > s.lastIndentation then
        s.addFillers (sub32 (sub32 i s.lastIndentation / 2) 1) 0
      else s).Within b := by
    split
    · exact state_ascend b _ s h
    · split
      · exact state_addFillers b _ _ s h
      · exact h
  simp only [] at ha
  split at ha
  · exact state_descend b _ s2 h1 ha
  · rw [Option.some.injEq] at ha
    rw [← ha]
    exact h1

theorem state_step (b : Nat) (s s1 : LoadState) (l : Str) (h : s.Within b)
    (hfeed : '\n' ∉ l) (hl : leadingColons l ≤ b) (hstep : s.step l = some s1) :
    s1.Within b := by
  unfold LoadState.step at hstep
  split at hstep
  · rw [Option.some.injEq] at hstep
    rw [← hstep]; exact h
  · simp only [] at hstep
    split at hstep
    · rw [Option.some.injEq] at hstep
      rw [← hstep]; exact h
    · rw [Option.map_eq_some'] at hstep
      obtain ⟨s2, h2, rfl⟩ := hstep
      have hw := state_adjust b s s2 _ h h2
      refine ⟨?_, hw.2⟩
      apply frame_add_within b s2.current _ hw.1
      rw [Section.within, contentWithin_line b l hfeed hl]
      rfl

theorem state_run (b : Nat) : ∀ (lines : List Str) (s s1 : LoadState), s.Within b →
    (∀ l ∈ lines, '\n' ∉ l ∧ leadingColons l ≤ b) → LoadState.run lines s = some s1 →
    s1.Within b := by
  intro lines
  induction lines with
  | nil =>
    intro s s1 h _ hrun
    rw [LoadState.run, Option.some.injEq] at hrun
    rw [← hrun]; exact h
  | cons l ls ih =>
    intro s s1 h hlines hrun
    rw [LoadState.run] at hrun
    cases hs : s.step l with
    | none => rw [hs] at hrun; simp at hrun
    | some s2 =>
      rw [hs, Option.some_bind] at hrun
      obtain ⟨hfeed, hl⟩ := hlines l (List.mem_cons_self _ _)
      exact ih s2 s1 (state_step b s s2 l h hfeed hl hs)
        (fun x hx => hlines x (List.mem_cons_of_mem _ hx)) hrun

theorem state_top (b : Nat) : ∀ (par : List Frame) (cur : Frame),
    Frame.within b cur = true → (∀ f ∈ par, Frame.within b f = true) →
    Section.within b (LoadState.top par cur) = true := by
  intro par
  induction par with
  | nil =>
    intro cur h _
    rw [LoadState.top, within_toSection]
    exact h
  | cons p rest ih =>
    intro cur h hpar
    rw [LoadState.top]
    apply ih
    · exact frame_add_within b p cur.toSection (hpar p (List.mem_cons_self _ _))
        (by rw [within_toSection]; exact h)
    · exact fun f hf => hpar f (List.mem_cons_of_mem _ hf)

theorem state_init (b : Nat) : LoadState.init.Within b :=
  ⟨by rw [LoadState.init, Frame.within, contentWithin_nil]; rfl, fun f hf => by
    simp [LoadState.init] at hf⟩

theorem mem_ReplaceFirst (t : Str) : ∀ (s : Str) (x : Char),
    x ∈ String.ReplaceFirst s t [] → x ∈ s := by
  intro s
  induction s with
  | nil =>
    intro x h
    rw [String.ReplaceFirst] at h
    split at h <;> exact h
  | cons c cs ih =>
    intro x h
    rw [String.ReplaceFirst] at h
    split at h
    · rw [List.nil_append] at h
      exact List.mem_of_mem_drop h
    · rcases List.mem_cons.mp h with h | h
      · rw [h]; exact List.mem_cons_self _ _
      · exact List.mem_cons_of_mem _ (ih x h)

theorem ReplaceFirst_empty_token (s : Str) : String.ReplaceFirst s [] [] = s := by
  cases s with
  | nil => rfl
  | cons c cs => rfl

theorem colon_not_mem_takeWhile (s : Str) : ':' ∉ s.takeWhile (fun c => c != ':') := by
  intro h
  have := List.mem_takeWhile_imp h
  simp at this

theorem niceName_sectionName (c : Str) : niceName (sectionName c) = true := by
  cases hn : sectionName c with
  | nil => rfl
  | cons x r =>
    have htrim : String.Trim (sectionName c) = sectionName c := by
      unfold sectionName
      exact Trim_Trim _
    have hws := Trim_eq_self_head (sectionName c) htrim x r hn
    have hmem : x ∈ c.takeWhile (fun c => c != ':') := by
      apply mem_of_mem_Trim
      show x ∈ sectionName c
      rw [hn]
      exact List.mem_cons_self _ _
    have hne : x ≠ ':' := by
      intro e
      subst e
      exact colon_not_mem_takeWhile c hmem
    simp [niceName, hws, hne]

theorem section_tokens (b : Nat) (c : Str) (h : contentWithin b c = true) :
    '\n' ∉ sectionName c ∧ '\n' ∉ sectionValue c ∧ niceName (sectionName c) = true ∧
      (sectionName c = [] → sectionValue c = [] ∨ leadingColons (sectionValue c) < b) := by
  simp only [contentWithin, Bool.and_eq_true, decide_eq_true_eq] at h
  obtain ⟨⟨htrim, hfeed⟩, hcolons⟩ := h
  refine ⟨?_, ?_, niceName_sectionName c, ?_⟩
  · intro e
    exact hfeed ((List.takeWhile_prefix _).subset (mem_of_mem_Trim _ _ e))
  · intro e
    unfold sectionValue at e
    exact hfeed (mem_ReplaceFirst _ c _ (mem_of_mem_Trim _ _
      (List.mem_of_mem_drop (mem_of_mem_Trim _ _ e))))
  · intro hname
    cases hc : c with
    | nil =>
      left
      subst hc
      rfl
    | cons x r =>
      right
      have hws := Trim_eq_self_head c htrim x r hc
      have hx : x = ':' := by
        by_contra hx
        have h1 : sectionName c = x :: (r.takeWhile fun c => c != ':').rdropWhile
            String.isWhitespace := by
          unfold sectionName
          rw [hc, List.takeWhile_cons_of_pos (by simpa using hx), Trim_cons _ _ hws]
        rw [h1] at hname
        exact absurd hname (by simp)
      subst hx
      have hv : sectionValue c = String.Trim r := by
        unfold sectionValue
        rw [hname, ReplaceFirst_empty_token, htrim, hc]
        rfl
      rw [← hc, hv, leadingColons_Trim]
      rw [hc, leadingColons, if_pos rfl] at hcolons
      omega

theorem feedFree_setAttribute (k v : Str) (hk : '\n' ∉ k) (hv : '\n' ∉ v) :
    ∀ a : List (Str × Str), feedFreeAttributes a = true →
    feedFreeAttributes (Metadata.setAttribute k v a) = true := by
  intro a
  induction a with
  | nil =>
    intro _
    simp [Metadata.setAttribute, feedFreeAttributes, hk, hv]
  | cons kv rest ih =>
    intro h
    obtain ⟨k0, v0⟩ := kv
    simp only [feedFreeAttributes, List.all_cons, Bool.and_eq_true, decide_eq_true_eq] at h
    rw [Metadata.setAttribute]
    split
    · simp only [feedFreeAttributes, List.all_cons, Bool.and_eq_true, decide_eq_true_eq]
      exact ⟨⟨hk, hv⟩, h.2⟩
    · have := ih (by simpa [feedFreeAttributes] using h.2)
      simp only [feedFreeAttributes, List.all_cons, Bool.and_eq_true, decide_eq_true_eq]
      exact ⟨h.1, by simpa [feedFreeAttributes] using this⟩

theorem loadedWithinList_append (b : Nat) : ∀ x y : List Metadata,
    Metadata.loadedWithinList b (x ++ y) =
      (Metadata.loadedWithinList b x && Metadata.loadedWithinList b y) := by
  intro x
  induction x with
  | nil => intro y; simp [Metadata.loadedWithinList]
  | cons c cs ih =>
    intro y
    rw [List.cons_append, Metadata.loadedWithinList, Metadata.loadedWithinList, ih]
    simp only [Bool.and_assoc]

theorem loadedWithin_of_parts (b : Nat) (m : Metadata) (hn : '\n' ∉ m.GetName)
    (hv : '\n' ∉ m.GetValue) (hnice : niceName m.GetName = true)
    (hscalar : m.GetName = [] → m.GetValue = [] ∨ leadingColons m.GetValue < b)
    (hattr : feedFreeAttributes m.GetAttributes = true)
    (hch : Metadata.loadedWithinList b m.GetChildren = true) : m.loadedWithin b = true := by
  cases m with
  | mk name value children attributes =>
    simp only [Metadata.loadedWithin, Bool.and_eq_true, decide_eq_true_eq, Bool.or_eq_true,
      Bool.not_eq_true']
    refine ⟨⟨⟨⟨⟨hn, hv⟩, hnice⟩, ?_⟩, hattr⟩, hch⟩
    cases name with
    | cons x r => left; left; rfl
    | nil =>
      rcases hscalar rfl with h | h
      · left; right
        have : value = [] := h
        subst this
        rfl
      · right; exact h

theorem AddChild_parts (parent node : Metadata) :
    (parent.AddChild node).GetChildren = parent.GetChildren ++ [node] ∧
      (parent.AddChild node).GetAttributes = parent.GetAttributes := by
  cases parent
  exact ⟨rfl, rfl⟩

theorem AddAttribute_parts (parent : Metadata) (k v : Str) :
    (parent.AddAttribute k v).GetChildren = parent.GetChildren ∧
      (parent.AddAttribute k v).GetAttributes =
        Metadata.setAttribute k v parent.GetAttributes := by
  cases parent
  exact ⟨rfl, rfl⟩

mutual
theorem Convert_within (b : Nat) : ∀ (source : Section) (parent : Metadata)
    (isTopSection : Bool), Section.within b source = true →
    feedFreeAttributes parent.GetAttributes = true →
    Metadata.loadedWithinList b parent.GetChildren = true →
    feedFreeAttributes (Convert source parent isTopSection).GetAttributes = true ∧
      Metadata.loadedWithinList b (Convert source parent isTopSection).GetChildren = true
  | Section.mk content i children, parent, isTopSection, hs, ha, hc => by
    rw [Section.within, Bool.and_eq_true] at hs
    obtain ⟨hn, hv, hnice, hscalar⟩ := section_tokens b content hs.1
    rw [Convert_eq]
    split
    · obtain ⟨e1, e2⟩ := AddAttribute_parts parent ((sectionName content).drop 1)
        (sectionValue content)
      rw [e1, e2]
      exact ⟨feedFree_setAttribute _ _ (fun e => hn (List.mem_of_mem_drop e)) hv _ ha, hc⟩
    · split
      · exact ConvertChildren_within b children parent hs.2 ha hc
      · obtain ⟨e1, e2⟩ := AddChild_parts parent
          (ConvertChildren children
            (Metadata.mk (sectionName content) (sectionValue content) [] []))
        obtain ⟨g1, g2⟩ := ConvertChildren_within b children
          (Metadata.mk (sectionName content) (sectionValue content) [] []) hs.2 rfl rfl
        obtain ⟨n1, n2⟩ := ConvertChildren_name_value children
          (Metadata.mk (sectionName content) (sectionValue content) [] [])
        rw [e1, e2, loadedWithinList_append, hc]
        refine ⟨ha, ?_⟩
        rw [Metadata.loadedWithinList, Metadata.loadedWithinList,
          loadedWithin_of_parts b _ (by rw [n1]; exact hn) (by rw [n2]; exact hv)
            (by rw [n1]; exact hnice) (by rw [n1, n2]; exact hscalar) g1 g2]
        rfl
theorem ConvertChildren_within (b : Nat) : ∀ (children : List Section) (thisValue : Metadata),
    Section.withinList b children = true →
    feedFreeAttributes thisValue.GetAttributes = true →
    Metadata.loadedWithinList b thisValue.GetChildren = true →
    feedFreeAttributes (ConvertChildren children thisValue).GetAttributes = true ∧
      Metadata.loadedWithinList b (ConvertChildren children thisValue).GetChildren = true
  | [], thisValue, _, ha, hc => by
    rw [ConvertChildren]
    exact ⟨ha, hc⟩
  | c :: cs, thisValue, hs, ha, hc => by
    rw [Section.withinList, Bool.and_eq_true] at hs
    rw [ConvertChildren]
    obtain ⟨g1, g2⟩ := Convert_within b c thisValue false hs.1 ha hc
    exact ConvertChildren_within b cs _ hs.2 g1 g2
end

theorem LoadLines_within (b : Nat) (self T : Metadata) (lines : List Str)
    (hself : self.GetName = [] ∧ self.GetValue = [])
    (hlines : ∀ l ∈ lines, '\n' ∉ l ∧ leadingColons l ≤ b)
    (h : LoadLines self lines = some T) : T.loadedWithin b = true := by
  unfold LoadLines at h
  rw [Option.map_eq_some'] at h
  obtain ⟨s, hrun, rfl⟩ := h
  have hstate := state_run b lines LoadState.init s (state_init b) hlines hrun
  have htop := state_top b s.parents s.current hstate.1 hstate.2
  have hclear : self.ClearChildren.ClearAttributes = Metadata.mk self.GetName self.GetValue [] [] := by
    cases self; rfl
  obtain ⟨g1, g2⟩ := Convert_within b (LoadState.top s.parents s.current)
    self.ClearChildren.ClearAttributes true htop (by rw [hclear]; rfl) (by rw [hclear]; rfl)
  obtain ⟨n1, n2⟩ := Convert_name_value (LoadState.top s.parents s.current)
    self.ClearChildren.ClearAttributes true
  have e1 : (Convert (LoadState.top s.parents s.current) self.ClearChildren.ClearAttributes
      true).GetName = [] := by rw [n1, hclear]; exact hself.1
  have e2 : (Convert (LoadState.top s.parents s.current) self.ClearChildren.ClearAttributes
      true).GetValue = [] := by rw [n2, hclear]; exact hself.2
  exact loadedWithin_of_parts b _ (by rw [e1]; simp) (by rw [e2]; simp) (by rw [e1]; rfl)
    (fun _ => Or.inl e2) g1 g2

/-! ## Sequence items on read -/

theorem readLinesAux_no_feed (t : Str) : ∀ cur : Str, '\n' ∉ cur →
    ∀ l ∈ readLinesAux cur t, '\n' ∉ l := by
  induction t with
  | nil =>
    intro cur hcur l hl
    rw [readLinesAux] at hl
    split at hl
    · simp at hl
    · simp only [List.mem_singleton] at hl
      subst hl
      simpa using hcur
  | cons c cs ih =>
    intro cur hcur l hl
    rw [readLinesAux] at hl
    by_cases hc : c = '\n'
    · rw [if_pos hc] at hl
      rcases List.mem_cons.mp hl with hl | hl
      · subst hl
        simpa using hcur
      · exact ih [] (by simp) l hl
    · rw [if_neg hc] at hl
      apply ih (c :: cur) _ l hl
      intro e
      rcases List.mem_cons.mp e with e | e
      · exact hc e.symm
      · exact hcur e

theorem leadingColons_bound (lines : List Str) : ∃ b, ∀ l ∈ lines, leadingColons l ≤ b := by
  induction lines with
  | nil => exact ⟨0, fun l hl => by simp at hl⟩
  | cons x xs ih =>
    obtain ⟨b, hb⟩ := ih
    refine ⟨b + leadingColons x, fun l hl => ?_⟩
    rcases List.mem_cons.mp hl with hl | hl
    · rw [hl]; omega
    · have := hb l hl
      omega

mutual
theorem hasScalar_of_within_zero : ∀ m : Metadata, m.loadedWithin 0 = true →
    m.hasScalar = false
  | Metadata.mk name value children attributes, h => by
    simp only [Metadata.loadedWithin, Bool.and_eq_true, decide_eq_true_eq, Bool.or_eq_true,
      Bool.not_eq_true', Nat.not_lt_zero, or_false] at h
    obtain ⟨⟨⟨-, hscalar⟩, -⟩, hch⟩ := h
    rw [Metadata.hasScalar, hasScalarList_of_within_zero children hch, Bool.or_false]
    rcases hscalar with hs | hs
    · rw [hs]; rfl
    · rw [hs]; simp
theorem hasScalarList_of_within_zero : ∀ ms : List Metadata,
    Metadata.loadedWithinList 0 ms = true → Metadata.hasScalarList ms = false
  | [], _ => rfl
  | m :: ms, h => by
    rw [Metadata.loadedWithinList, Bool.and_eq_true] at h
    rw [Metadata.hasScalarList, hasScalar_of_within_zero m h.1,
      hasScalarList_of_within_zero ms h.2]
    rfl
end

theorem loadedWithin_children (b : Nat) (T : Metadata) (h : T.loadedWithin b = true) :
    Metadata.loadedWithinList b T.GetChildren = true := by
  cases T with
  | mk name value children attributes =>
    rw [Metadata.loadedWithin, Bool.and_eq_true] at h
    exact h.2

/-- A tree that `Yaml::Load` gives back from the text `Yaml::Write` produced for it has one
leading colon less in the values of its nodes without name than the text has in its lines. -/
theorem loadedWithin_pred (self T : Metadata) (hself : self.GetName = [] ∧ self.GetValue = [])
    (text : Str) (hw : WriteText T = some text) (hl : Load self text = some T) (b : Nat)
    (hb : T.loadedWithin (b + 1) = true) : T.loadedWithin b = true := by
  obtain ⟨text1, hw1, hlines⟩ := Write_within b T hb
  rw [hw, Option.some.injEq] at hw1
  subst hw1
  exact LoadLines_within b self T (readLines text) hself hlines hl

theorem scalar_not_restored (self T : Metadata) (hself : self.GetName = [] ∧ self.GetValue = [])
    (hscalar : Metadata.hasScalarList T.GetChildren = true) :
    (WriteText T).bind (Load self) ≠ some T := by
  intro h
  rw [Option.bind_eq_some] at h
  obtain ⟨text, hw, hl⟩ := h
  obtain ⟨b, hb⟩ := leadingColons_bound (readLines text)
  have h0 : T.loadedWithin b = true :=
    LoadLines_within b self T (readLines text) hself
      (fun l hl2 => ⟨readLinesAux_no_feed text [] (by simp) l hl2, hb l hl2⟩) hl
  have hdown : ∀ k, T.loadedWithin k = true → T.loadedWithin 0 = true := by
    intro k
    induction k with
    | zero => exact fun hk => hk
    | succ n ih => exact fun hk => ih (loadedWithin_pred self T hself text hw hl n hk)
  have hnone := hasScalarList_of_within_zero _ (loadedWithin_children 0 T (hdown b h0))
  rw [hnone] at hscalar
  exact absurd hscalar (by decide)

theorem scanLine_dash (l : Str) : ∀ n, firstNonSpace l = some '-' → (scanLine l n).2 = false := by
  induction l with
  | nil => intro n h; simp [firstNonSpace] at h
  | cons c cs ih =>
    intro n h
    unfold scanLine
    by_cases hc : c = ' '
    · subst hc
      rw [if_pos rfl]
      apply ih
      unfold firstNonSpace at h ⊢
      rwa [List.dropWhile_cons_of_pos (p := fun c => c == ' ') (by rfl)] at h
    · rw [if_neg hc]
      have hd : c = '-' := by
        unfold firstNonSpace at h
        rw [List.dropWhile_cons_of_neg (p := fun c => c == ' ') (by simpa using hc)] at h
        simpa using h
      rw [if_pos hd]

theorem Trim_dash (l : Str) (h : firstNonSpace l = some '-') :
    ∃ r, String.Trim l = '-' :: r := by
  unfold firstNonSpace at h
  cases hd : l.dropWhile (fun c => c == ' ') with
  | nil => rw [hd] at h; simp at h
  | cons x r =>
    rw [hd] at h
    simp only [List.head?_cons, Option.some.injEq] at h
    subst h
    refine ⟨r.rdropWhile String.isWhitespace, ?_⟩
    rw [← Trim_dropWhile_space, hd, Trim_cons _ _ (by decide)]

theorem Convert_dash (r : Str) (i : Nat) (cs : List Section) (parent : Metadata) :
    ∃ node, Convert (Section.mk ('-' :: r) i cs) parent false = parent.AddChild node ∧
      node.GetName.head? = some '-' ∧ ¬ (node.GetName = [] ∧ node.GetValue ≠ []) := by
  have hname : ∃ q, sectionName ('-' :: r) = '-' :: q := by
    unfold sectionName
    rw [List.takeWhile_cons_of_pos (by decide), Trim_cons _ _ (by decide)]
    exact ⟨_, rfl⟩
  obtain ⟨q, hq⟩ := hname
  have hstart : String.StartsWith (sectionName ('-' :: r)) ['_'] = false := by
    rw [hq]
    rfl
  obtain ⟨n1, -⟩ := ConvertChildren_name_value cs
    (Metadata.mk (sectionName ('-' :: r)) (sectionValue ('-' :: r)) [] [])
  refine ⟨ConvertChildren cs
    (Metadata.mk (sectionName ('-' :: r)) (sectionValue ('-' :: r)) [] []), ?_, ?_, ?_⟩
  · rw [Convert_eq, hstart]
    rfl
  · rw [n1]
    show (sectionName ('-' :: r)).head? = some '-'
    rw [hq]
    rfl
  · intro h
    rw [n1] at h
    have : sectionName ('-' :: r) = [] := h.1
    rw [hq] at this
    exact absurd this (by simp)

/-- C25: the line `---` has `-` as its first character other than a space, but `Yaml::Load`
skips it as the start marker: no Section is created for it and nothing is decoded from it. -/
theorem Load_marker_line_skipped :
    firstNonSpace "---".toList = some '-' ∧
      (LoadState.init.run ["---".toList]).map (fun s => LoadState.top s.parents s.current) =
        some (Section.mk [] 0 []) ∧
      Load Yaml.new "---\n".toList = some (Metadata.mk [] [] [] []) :=
  ⟨by decide, rfl, rfl⟩

/-- C25, amended: for every line other than the marker line `---` whose first character other
than a space is `-`, the iteration of `Yaml::Load` appends a Section whose content is the
trimmed line, which begins with the dash; `Yaml::Convert` makes of such a Section a node whose
name begins with `-`, so never a node with empty name and non-empty value; for `items:`
followed by `- a` the child of `items` has the name `- a` and an empty value; and for every
tree `T` with a node below the root that has an empty name and a non-empty value, `Yaml::Load`
(into a Yaml whose root has empty name and value) applied to the output of `Yaml::Write` on
`T` does not return `T`. -/
theorem Load_keeps_sequence_marker (s : LoadState) (l : Str) (self T : Metadata)
    (hdash : firstNonSpace l = some '-') (hmarker : l ≠ ['-', '-', '-'])
    (hself : self.GetName = [] ∧ self.GetValue = [])
    (hscalar : Metadata.hasScalarList T.GetChildren = true) :
    s.step l = (s.adjust (lineIndent l)).map (fun s2 =>
        { s2.append (Section.mk (String.Trim l) (lineIndent l) []) with
          lastIndentation := lineIndent l }) ∧
      (String.Trim l).head? = some '-' ∧
      (∀ (i : Nat) (cs : List Section) (parent : Metadata),
        ∃ node, Convert (Section.mk (String.Trim l) i cs) parent false = parent.AddChild node ∧
          node.GetName.head? = some '-' ∧ ¬ (node.GetName = [] ∧ node.GetValue ≠ [])) ∧
      Load Yaml.new "items:\n- a\n".toList =
        some (Metadata.mk [] []
          [Metadata.mk "items".toList [] [Metadata.mk "- a".toList [] [] []] []] []) ∧
      (WriteText T).bind (Load self) ≠ some T := by
  obtain ⟨r, hr⟩ := Trim_dash l hdash
  refine ⟨?_, by rw [hr]; rfl, ?_, rfl, scalar_not_restored self T hself hscalar⟩
  · have hscan : scanLine l 0 = (lineIndent l, false) := by
      unfold lineIndent
      rw [← scanLine_dash l 0 hdash]
    exact step_of_scan s l (lineIndent l) hmarker hscan
  · intro i cs parent
    rw [hr]
    exact Convert_dash r i cs parent

theorem Load_keeps_sequence_marker_witness :
    (WriteText itemsList).bind (Load Yaml.new) ≠ some itemsList :=
  (Load_keeps_sequence_marker LoadState.init "- a".toList Yaml.new itemsList (by decide)
    (by decide) ⟨rfl, rfl⟩ (by decide)).2.2.2.2

end acid
